import Mathlib

/-! The Q-learning value table of `external_learning.h` and its query entry point.

A shallow embedding of `class QLearner` (`src/external_learning.h`) and of
`uppaal_external_learner_predict` (`src/external_learning.cpp`).

The program is embedded twice.  The two embeddings have the same control flow
and differ in the type of a `double` value.

* The *exact* embedding (namespace `RLStratego`) takes a stored `double` (a
  reward, a Q-value) to be a rational number with exact arithmetic; the discount
  `0.99` is `99/100`.  It carries the statements that do not depend on the
  arithmetic of the values: the expression that `add_sample` evaluates, which
  records an operation writes and which it leaves alone, the flags and the
  counts, the state keys, and the content of `print`.
* The *binary64* embedding (namespace `RLStratego.Ieee`) takes a `double` to be
  an `F64`: NaN, one of the two infinities, or a finite value.  Every operation
  rounds its exact result to the nearest double, ties to the even significand,
  with gradual underflow and overflow to an infinity; NaN propagates and every
  comparison with NaN is false; each operation rounds separately (no fused
  multiply-add, no extended precision).  It carries every statement about the
  values themselves: best values, statistics, allowed pairs, scores, and the
  effect of repeated samples.  The two zeros are one value of `F64`: the source
  never divides by a zero and never inspects the sign of one.

Further modelling decisions, each made once and used throughout:

* `std::map<K, V>` is an `OMap K V`: a list of key/value pairs that is strictly
  increasing in the key.  Iteration order is the key order, as in C++.
* A component of a state key is a finite rational in both embeddings (state
  vectors with NaN or infinite components are outside the model).
* In the exact embedding `search_statistics` and the training-mode score start
  from `+infinity` and `-infinity` and call `std::pow`, `std::sqrt`, `std::log`;
  their doubles are values of `Dbl` (finite rationals, both infinities, NaN) and
  the three library functions are the fields of a `Libm` parameter.
* In the binary64 embedding `std::sqrt` is `F64.sqrt`, the correctly rounded
  square root that IEEE 754 requires.  `std::pow` and `std::log` are
  `Ieee.pow m` and `Ieee.log m`: the values that the C standard fixes (Annex F)
  are computed, and every other value is that of the parameter `m : Ieee.Libm`,
  about which nothing is assumed.
* `size_t` visit counts and action identifiers are natural numbers: a count
  grows by one per call and is never near `2^64`.
* A `double*` argument is `Option (List ℚ)`: `none` is `nullptr`, and the
  callee reads the first `_d_size` (resp. `_c_size`) cells.
* `assert`s are not executed by the embedded functions (a build with `NDEBUG`);
  the asserted conditions are predicates of their own (`add_sample_asserts`,
  `is_allowed_assert`, `predict_assert`).
* The text of the diagnostics written to `std::cerr` is not modelled.  The reads
  that a diagnostic performs are: `Ieee.uppaal_external_learner_predict` returns
  `none` when the diagnostic of its not-found branch reads the elements 0 and 1
  of a state vector that has fewer than two elements (undefined behaviour), and
  `some` of the returned weight and the learner after the call otherwise.  The
  exact embedding of the query omits the diagnostic; the statements that use it
  concern the learner after a query, the training mode, and evaluation queries
  of pairs that are found, none of which reaches the diagnostic.
* The text that `print` writes is modelled by its content, a `Rendering`: the
  rendered states with their rendered (action, value) pairs, in the order of the
  loops.  The macros `CEG` and `COMPACT` are defined, as in the header.
-/

namespace RLStratego

/-! ## Ordered maps -/

/-- An ordered map in the sense of `std::map`: entries strictly increasing in the key. -/
structure OMap (K : Type) (V : Type) [LinearOrder K] where
  entries : List (K × V)
  sorted : entries.Pairwise (fun a b => a.1 < b.1)

namespace OMap

variable {K V : Type} [LinearOrder K]

/-- Lookup in an entry list (`std::map::find`). -/
def findL (k : K) : List (K × V) → Option V
  | [] => none
  | (k', v) :: rest => if k' = k then some v else findL k rest

/-- Ordered insertion into an entry list, replacing the value of an equal key. -/
def insertL (k : K) (v : V) : List (K × V) → List (K × V)
  | [] => [(k, v)]
  | (k', v') :: rest =>
    if k < k' then (k, v) :: (k', v') :: rest
    else if k' < k then (k', v') :: insertL k v rest
    else (k, v) :: rest

theorem insertL_fst_mem (k : K) (v : V) (l : List (K × V)) (x : K × V)
    (hx : x ∈ insertL k v l) : x.1 = k ∨ x ∈ l := by
  induction l with
  | nil =>
    simp only [insertL, List.mem_singleton] at hx
    left; rw [hx]
  | cons hd tl ih =>
    obtain ⟨k', v'⟩ := hd
    simp only [insertL] at hx
    split_ifs at hx with h1 h2
    · rcases List.mem_cons.1 hx with h | h
      · left; rw [h]
      · right; exact h
    · rcases List.mem_cons.1 hx with h | h
      · right; rw [h]; exact List.mem_cons_self _ _
      · rcases ih h with h3 | h3
        · left; exact h3
        · right; exact List.mem_cons_of_mem _ h3
    · rcases List.mem_cons.1 hx with h | h
      · left; rw [h]
      · right; exact List.mem_cons_of_mem _ h

theorem insertL_sorted (k : K) (v : V) (l : List (K × V))
    (hl : l.Pairwise (fun a b => a.1 < b.1)) :
    (insertL k v l).Pairwise (fun a b => a.1 < b.1) := by
  induction l with
  | nil => simp [insertL]
  | cons hd tl ih =>
    obtain ⟨k', v'⟩ := hd
    rw [List.pairwise_cons] at hl
    obtain ⟨hhd, htl⟩ := hl
    simp only [insertL]
    split_ifs with h1 h2
    · refine List.pairwise_cons.2 ⟨?_, List.pairwise_cons.2 ⟨hhd, htl⟩⟩
      intro x hx
      rcases List.mem_cons.1 hx with h | h
      · rw [h]; exact h1
      · exact lt_trans h1 (hhd x h)
    · refine List.pairwise_cons.2 ⟨?_, ih htl⟩
      intro x hx
      rcases insertL_fst_mem k v tl x hx with h | h
      · rw [h]; exact h2
      · exact hhd x h
    · have hk : k = k' := le_antisymm (not_lt.1 h2) (not_lt.1 h1)
      refine List.pairwise_cons.2 ⟨?_, htl⟩
      intro x hx
      rw [hk]; exact hhd x hx

/-- The empty map. -/
def empty : OMap K V := ⟨[], List.Pairwise.nil⟩

/-- Lookup of a key (`find`, with `none` for `end()`). -/
def find (m : OMap K V) (k : K) : Option V := findL k m.entries

/-- Insertion or replacement of the value of `k`. -/
def insert (m : OMap K V) (k : K) (v : V) : OMap K V :=
  ⟨insertL k v m.entries, insertL_sorted k v m.entries m.sorted⟩

theorem ext_entries (m1 m2 : OMap K V) : m1 = m2 ↔ m1.entries = m2.entries := by
  cases m1
  cases m2
  simp

instance [DecidableEq V] : DecidableEq (OMap K V) :=
  fun m1 m2 => decidable_of_iff (m1.entries = m2.entries) (ext_entries m1 m2).symm

end OMap

/-! ## Doubles that may be infinite -/

/-- A `double` of the statistics and scoring code: a finite value, an infinity or NaN. -/
inductive Dbl where
  | nan : Dbl
  | ninf : Dbl
  | fin (x : ℚ) : Dbl
  | pinf : Dbl
  deriving DecidableEq

namespace Dbl

/-- Comparison `a < b` of doubles; false when either side is NaN. -/
def lt : Dbl → Dbl → Bool
  | ninf, fin _ => true
  | ninf, pinf => true
  | fin _, pinf => true
  | fin x, fin y => decide (x < y)
  | _, _ => false

/-- Comparison `a == b` of doubles; false when either side is NaN. -/
def eq : Dbl → Dbl → Bool
  | ninf, ninf => true
  | pinf, pinf => true
  | fin x, fin y => decide (x = y)
  | _, _ => false

/-- The result of `std::min(a, b)`, which is `(b < a) ? b : a`. -/
def min (a b : Dbl) : Dbl := if lt b a then b else a

/-- The result of `std::max(a, b)`, which is `(a < b) ? b : a`. -/
def max (a b : Dbl) : Dbl := if lt a b then b else a

/-- Unary minus. -/
def neg : Dbl → Dbl
  | nan => nan
  | ninf => pinf
  | fin x => fin (-x)
  | pinf => ninf

/-- Addition; opposite infinities give NaN. -/
def add : Dbl → Dbl → Dbl
  | nan, _ => nan
  | _, nan => nan
  | pinf, ninf => nan
  | ninf, pinf => nan
  | pinf, _ => pinf
  | _, pinf => pinf
  | ninf, _ => ninf
  | _, ninf => ninf
  | fin x, fin y => fin (x + y)

/-- Subtraction. -/
def sub (a b : Dbl) : Dbl := add a (neg b)

/-- The infinity with the sign of `s`, for `s` nonzero. -/
def signedInf (s : ℚ) : Dbl := if 0 < s then pinf else ninf

/-- Multiplication; zero times an infinity gives NaN. -/
def mul : Dbl → Dbl → Dbl
  | nan, _ => nan
  | _, nan => nan
  | fin x, fin y => fin (x * y)
  | fin x, pinf => if x = 0 then nan else signedInf x
  | fin x, ninf => if x = 0 then nan else signedInf (-x)
  | pinf, fin y => if y = 0 then nan else signedInf y
  | ninf, fin y => if y = 0 then nan else signedInf (-y)
  | pinf, pinf => pinf
  | ninf, ninf => pinf
  | pinf, ninf => ninf
  | ninf, pinf => ninf

/-- Division; a nonzero finite value over zero is an infinity, zero over zero
and infinity over infinity are NaN. -/
def div : Dbl → Dbl → Dbl
  | nan, _ => nan
  | _, nan => nan
  | fin x, fin y => if y = 0 then (if x = 0 then nan else signedInf x) else fin (x / y)
  | fin _, pinf => fin 0
  | fin _, ninf => fin 0
  | pinf, fin y => if 0 ≤ y then pinf else ninf
  | ninf, fin y => if 0 ≤ y then ninf else pinf
  | pinf, pinf => nan
  | pinf, ninf => nan
  | ninf, pinf => nan
  | ninf, ninf => nan

/-- Conversion `(double) n` of an unsigned integer. -/
def ofNat (n : Nat) : Dbl := fin (n : ℚ)

end Dbl

/-- The functions of the C math library that the score uses. -/
structure Libm where
  pow : Dbl → Dbl → Dbl
  sqrt : Dbl → Dbl
  log : Dbl → Dbl

/-! ## The data model of `QLearner` -/

/-- The record `qvalue_t` of one (state, action) pair. -/
structure qvalue_t where
  _value : ℚ := 0
  _count : Nat := 0
  _select : Bool := false
  _uncover : Bool := false
  deriving DecidableEq

/-- The map `qaction_t` from action identifiers to records. -/
abbrev qaction_t := OMap Nat qvalue_t

/-- The state key `qstate_t`: the discrete and the continuous vector, compared
lexicographically as `std::pair` of `std::vector` is. -/
abbrev qstate_t := List ℚ ×ₗ List ℚ

/-- The table `qtable_t` from state keys to action maps. -/
abbrev qtable_t := OMap qstate_t qaction_t

/-- The constant `min_reward`. -/
def min_reward : ℚ := -32767

/-- The result of `std::trunc`: rounding toward zero. -/
def trunc (x : ℚ) : ℚ := ((Int.tdiv x.num (x.den : Int) : Int) : ℚ)

/-- The learner object. -/
structure QLearner where
  _Q : qtable_t
  _is_minimization : Bool
  _d_size : Nat
  _c_size : Nat
  learning : Bool
  /-- Modelled from the spec: the member `uncovered` that
  `uppaal_external_learner_predict` appends state keys to is not declared in
  `external_learning.h` (the declaration is commented out); the spec describes it
  as a log of the state keys met during evaluation without coverage. -/
  uncovered : List qstate_t

namespace QLearner

/-- The constructor `QLearner(is_minimization, d_size, c_size)`. -/
def new (is_minimization : Bool) (d_size c_size : Nat) : QLearner :=
  { _Q := OMap.empty, _is_minimization := is_minimization, _d_size := d_size,
    _c_size := c_size, learning := true, uncovered := [] }

/-- Converts a raw observation into a state key (`make_state`). -/
def make_state (q : QLearner) (d_vars c_vars : Option (List ℚ)) : qstate_t :=
  let d_vector : List ℚ :=
    match d_vars with
    | none => []
    | some p => (List.range q._d_size).map (fun d => p.getD d 0)
  let c_vector : List ℚ :=
    match c_vars with
    | none => []
    | some p => (List.range q._c_size).map (fun c => trunc (p.getD c 0))
  toLex (d_vector, c_vector)

/-- One iteration of the loop of `best_value`. -/
def best_step (is_minimization : Bool) (best other : qvalue_t) : qvalue_t :=
  if other._count = 0 then best
  else
    let best1 := if best._count = 0 then other else best
    if is_minimization && decide (other._value < best1._value) then other
    else if !is_minimization && decide (other._value > best1._value) then other
    else best1

/-- The loop of `best_value` over the action map of one state. -/
def best_of (is_minimization : Bool) (state_table : qaction_t) : qvalue_t :=
  state_table.entries.foldl (fun best other => best_step is_minimization best other.2)
    { _value := 0, _count := 0 }

/-- Best known Q-value of a state over all actions (`best_value`). -/
def best_value (q : QLearner) (d_vars c_vars : Option (List ℚ)) : qvalue_t :=
  let state := q.make_state d_vars c_vars
  match q._Q.find state with
  | some state_table => best_of q._is_minimization state_table
  | none => { _value := 0, _count := 0 }

/-- The stored record of a pair, or the default record (`value`). -/
def value (q : QLearner) (d_vars c_vars : Option (List ℚ)) (action : Nat) : qvalue_t :=
  let state := q.make_state d_vars c_vars
  match q._Q.find state with
  | some state_table =>
    match state_table.find action with
    | some r => r
    | none => { _value := 0, _count := 0 }
  | none => { _value := 0, _count := 0 }

/-- The reference `_Q[from_state][action]`: the action map of the state and the
record of the pair, both default-constructed when absent. -/
def slot (q : QLearner) (from_state : qstate_t) (action : Nat) : qaction_t × qvalue_t :=
  let state_table := (q._Q.find from_state).getD OMap.empty
  (state_table, (state_table.find action).getD {})

/-- Writes `r` through the reference `_Q[from_state][action]`. -/
def store (q : QLearner) (from_state : qstate_t) (action : Nat) (r : qvalue_t) : QLearner :=
  { q with _Q := q._Q.insert from_state ((q.slot from_state action).1.insert action r) }

/-- Adds an observation (`add_sample`). -/
def add_sample (q : QLearner) (d_vars c_vars : Option (List ℚ)) (action : Nat)
    (t_d_vars t_c_vars : Option (List ℚ)) (v_reward : ℚ) : QLearner :=
  let gamma : ℚ := 99 / 100
  let alpha : ℚ := 2
  let reward := v_reward
  let from_state := q.make_state d_vars c_vars
  let future_estimate := q.best_value t_d_vars t_c_vars
  let q0 := (q.slot from_state action).2
  let learning_rate : ℚ := 1 / min alpha ((q0._count + 1 : Nat) : ℚ)
  let v : ℚ :=
    if q0._count = 0 then reward + gamma * future_estimate._value
    else q0._value + (learning_rate * (reward + (gamma * future_estimate._value) - q0._value))
  q.store from_state action { q0 with _value := v, _count := q0._count + 1 }

/-- Registers a pair as uncovered by learning (`add_uncovered`). -/
def add_uncovered (q : QLearner) (d_vars c_vars : Option (List ℚ)) (action : Nat) : QLearner :=
  let from_state := q.make_state d_vars c_vars
  let q0 := (q.slot from_state action).2
  q.store from_state action
    { q0 with _count := 1, _select := false, _value := min_reward, _uncover := true }

/-- One iteration of the loop of `search_statistics`. -/
def stats_step (acc : Dbl × Dbl × Nat × Nat) (stats : qvalue_t) : Dbl × Dbl × Nat × Nat :=
  if stats._count ≠ 0 then
    (Dbl.min acc.1 (Dbl.fin stats._value), Dbl.max acc.2.1 (Dbl.fin stats._value),
      acc.2.2.1 + stats._count, acc.2.2.2 + 1)
  else acc

/-- Range of the Q-values of a state, total of the counts and number of counted
actions (`search_statistics`), as `(lower, upper, sum_count, n_actions)`. -/
def search_statistics (q : QLearner) (d_vars c_vars : Option (List ℚ)) : Dbl × Dbl × Nat × Nat :=
  let state := q.make_state d_vars c_vars
  match q._Q.find state with
  | some state_table =>
    state_table.entries.foldl (fun acc stats => stats_step acc stats.2) (Dbl.pinf, Dbl.ninf, 0, 0)
  | none => (Dbl.pinf, Dbl.ninf, 0, 0)

/-- Whether the action is a best action of the state (`is_allowed`); the result
is `(allowed, found)`, the second component being the out-parameter `*found`. -/
def is_allowed (q : QLearner) (d_vars c_vars : Option (List ℚ)) (action : Nat) : Bool × Bool :=
  let current_v := q.value d_vars c_vars action
  let best_v := q.best_value d_vars c_vars
  if current_v._uncover then (false, true)
  else if decide (current_v._count > 0) && decide (current_v._value = best_v._value) then
    (true, true)
  else if best_v._count = 0 then (false, false)
  else (false, true)

/-- Empties the table (`clear_strategy`). -/
def clear_strategy (q : QLearner) : QLearner := { q with _Q := OMap.empty }

/-- Sets the select flag of an allowed pair (`mark`). -/
def mark (q : QLearner) (d_vars c_vars : Option (List ℚ)) (action : Nat) : QLearner :=
  if (q.is_allowed d_vars c_vars action).1 then
    let state := q.make_state d_vars c_vars
    match q._Q.find state with
    | some state_table =>
      match state_table.find action with
      | some r =>
        { q with _Q := q._Q.insert state (state_table.insert action { r with _select := true }) }
      | none => q
    | none => q
  else q

end QLearner

/-- The query entry point `uppaal_external_learner_predict`; the result is the
returned weight and the learner after the call. -/
def uppaal_external_learner_predict (m : Libm) (q : QLearner) (is_eval : Bool) (action : Nat)
    (d_vars c_vars : Option (List ℚ)) : Dbl × QLearner :=
  let from_state := q.make_state d_vars c_vars
  let q1 := if !q.learning then q.mark d_vars c_vars action else q
  if is_eval then
    let af := q1.is_allowed d_vars c_vars action
    if af.1 && af.2 then (Dbl.fin 1, q1)
    else if af.2 then (Dbl.fin 0, q1)
    else
      let q2 :=
        if !q1.learning then
          (if from_state ∈ q1.uncovered then q1
           else { q1 with uncovered := q1.uncovered ++ [from_state] })
        else q1
      (Dbl.fin 0, q2)
  else
    let st := q1.search_statistics d_vars c_vars
    let lower := st.1
    let upper := st.2.1
    let sum_count := st.2.2.1
    let nactions := st.2.2.2
    let value := q1.value d_vars c_vars action
    if sum_count = 0 then (Dbl.fin 0, q1)
    else
      let pr_action := Dbl.div (Dbl.ofNat sum_count) (Dbl.ofNat nactions)
      let difference := Dbl.sub upper lower
      if Dbl.eq difference (Dbl.fin 0) then (Dbl.fin 1, q1)
      else
        let relative0 :=
          if value._count ≠ 0 then Dbl.fin value._value
          else (if q1._is_minimization then lower else upper)
        let relative :=
          if q1._is_minimization then Dbl.div (Dbl.sub upper relative0) difference
          else Dbl.div (Dbl.sub relative0 lower) difference
        let lifted := m.pow relative
          (Dbl.min (Dbl.fin 1000) (m.sqrt (Dbl.max (Dbl.ofNat value._count) pr_action)))
        let r :=
          if value._count > 0 then
            m.sqrt (Dbl.div (m.log (Dbl.ofNat sum_count)) (Dbl.ofNat value._count))
          else Dbl.fin 1
        let C := Dbl.div (Dbl.fin 1) (Dbl.ofNat nactions)
        (Dbl.add lifted (Dbl.div (Dbl.mul r C) (Dbl.add (Dbl.fin 1) C)), q1)

/-! ## Serialization -/

/-- The content of a rendering of the table: the rendered states in the order
they are written, each with its rendered (action, value) pairs in order.  The
text of the source is this structure with its quotes, brackets and separators. -/
abbrev Rendering := List (qstate_t × List (Nat × ℚ))

namespace QLearner

/-- The full rendering (`print_complete_score_table`). -/
def print_complete_score_table (q : QLearner) : Rendering :=
  q._Q.entries.map (fun state_action =>
    (state_action.1,
      state_action.2.entries.map (fun action_value => (action_value.1, action_value.2._value))))

/-- The pairs written for one action by the second loop of
`print_partial_score_table`: once if it is selected and `compact` is set, and
once if it is uncovered and `uncovered` is set. -/
def rendered_action (compact uncovered : Bool) (action_value : Nat × qvalue_t) : List (Nat × ℚ) :=
  (if compact && action_value.2._select then [(action_value.1, action_value.2._value)] else []) ++
  (if uncovered && action_value.2._uncover then [(action_value.1, action_value.2._value)] else [])

/-- The variable `tag` of `print_partial_score_table` after its first loop. -/
def tagged (compact uncovered : Bool) (action_map : qaction_t) : Bool :=
  action_map.entries.any (fun action_value =>
    (compact && action_value.2._select) || (uncovered && action_value.2._uncover))

/-- The filtered rendering (`print_partial_score_table`). -/
def print_partial_score_table (q : QLearner) (compact uncovered : Bool) : Rendering :=
  (q._Q.entries.filter (fun state_action => tagged compact uncovered state_action.2)).map
    (fun state_action =>
      (state_action.1,
        (state_action.2.entries.map (rendered_action compact uncovered)).flatten))

/-- The method `print`, with `CEG` defined as in the header: the rendering
written to the stream and the learner after the call. -/
def print (q : QLearner) : Rendering × QLearner :=
  if q.learning then (q.print_complete_score_table, { q with learning := false })
  else (q.print_partial_score_table false true, q)

end QLearner

/-! ## Named parts of `add_sample` and of the query -/

namespace QLearner

/-- The learning rate computed by `add_sample` for a record with the given count. -/
def learning_rate (count : Nat) : ℚ := 1 / min 2 ((count + 1 : Nat) : ℚ)

/-- The learner on which a query computes its result: marked first when frozen. -/
def queried (q : QLearner) (d_vars c_vars : Option (List ℚ)) (action : Nat) : QLearner :=
  if !q.learning then q.mark d_vars c_vars action else q

end QLearner

/-! ## Observations of a table, used in the statements -/

namespace QLearner

/-- The stored record of a pair of a state key and an action, if there is one. -/
def record (q : QLearner) (s : qstate_t) (a : Nat) : Option qvalue_t :=
  (q._Q.find s).bind (fun state_table => state_table.find a)

/-- The entries of the action map of a state, in action order; none when the
state is not stored. -/
def counted_src (q : QLearner) (s : qstate_t) : List (Nat × qvalue_t) :=
  ((q._Q.find s).getD OMap.empty).entries

/-- The entries of a state that have a nonzero count, in action order. -/
def counted (q : QLearner) (s : qstate_t) : List (Nat × qvalue_t) :=
  (q.counted_src s).filter (fun x => decide (x.2._count ≠ 0))

/-- The entries of a list that have a nonzero count. -/
def countedL (l : List (Nat × qvalue_t)) : List (Nat × qvalue_t) :=
  l.filter (fun x => decide (x.2._count ≠ 0))

/-- Strict preference between two values: smaller under minimization, larger under maximization. -/
def better (is_minimization : Bool) (x y : ℚ) : Bool :=
  if is_minimization then decide (x < y) else decide (y < x)

/-- The loop of `best_value` over a list of entries. -/
def bestL (m : Bool) (l : List (Nat × qvalue_t)) : qvalue_t :=
  l.foldl (fun best other => best_step m best other.2) { _value := 0, _count := 0 }

/-- The loop of `search_statistics` over a list of entries. -/
def statsL (l : List (Nat × qvalue_t)) : Dbl × Dbl × Nat × Nat :=
  l.foldl (fun acc stats => stats_step acc stats.2) (Dbl.pinf, Dbl.ninf, 0, 0)

/-- Two records with the same value and the same count. -/
def sameEstimate (x y : qvalue_t) : Prop := x._value = y._value ∧ x._count = y._count

end QLearner

/-- The record written by `add_uncovered`. -/
def sentinel : qvalue_t :=
  { _value := min_reward, _count := 1, _select := false, _uncover := true }

/-- The invariant of the uncovered records that every operation keeps: a stored
record flagged uncover is not selected and has a count of at least 1. -/
def QLearner.uncoverInv (q : QLearner) : Prop :=
  ∀ s a r, q.record s a = some r → r._uncover = true → r._select = false ∧ 1 ≤ r._count

/-! ## Sequences of operations -/

/-- One call of `add_sample`: origin, action, destination and reward. -/
structure Sample where
  d_vars : Option (List ℚ)
  c_vars : Option (List ℚ)
  action : Nat
  t_d_vars : Option (List ℚ)
  t_c_vars : Option (List ℚ)
  v_reward : ℚ

/-- A finite sequence of `add_sample` calls, first call first. -/
def QLearner.add_samples (q : QLearner) (l : List Sample) : QLearner :=
  l.foldl (fun q1 x => q1.add_sample x.d_vars x.c_vars x.action x.t_d_vars x.t_c_vars x.v_reward) q

/-- One operation on a learner. -/
inductive Op where
  | add_sample (d_vars c_vars : Option (List ℚ)) (action : Nat)
      (t_d_vars t_c_vars : Option (List ℚ)) (v_reward : ℚ) : Op
  | add_uncovered (d_vars c_vars : Option (List ℚ)) (action : Nat) : Op
  | mark (d_vars c_vars : Option (List ℚ)) (action : Nat) : Op
  | print : Op
  | query (is_eval : Bool) (action : Nat) (d_vars c_vars : Option (List ℚ)) : Op
  | clear_strategy : Op

/-- The learner after one operation. -/
def step (m : Libm) (q : QLearner) : Op → QLearner
  | Op.add_sample d c a td tc r => q.add_sample d c a td tc r
  | Op.add_uncovered d c a => q.add_uncovered d c a
  | Op.mark d c a => q.mark d c a
  | Op.print => q.print.2
  | Op.query e a d c => (uppaal_external_learner_predict m q e a d c).2
  | Op.clear_strategy => q.clear_strategy

/-- The learner after a sequence of operations, first operation first. -/
def run (m : Libm) (q : QLearner) (ops : List Op) : QLearner := ops.foldl (step m) q

/-- Whether an operation overwrites the record of the pair `(s, a)` with sampled
data or removes it: an `add_sample` on that pair, or `clear_strategy`. -/
def Op.resets (q : QLearner) (s : qstate_t) (a : Nat) : Op → Bool
  | Op.add_sample d c a1 _ _ _ => decide (q.make_state d c = s) && decide (a1 = a)
  | Op.clear_strategy => true
  | _ => false

/-! ## Concrete learners -/

/-- A math library whose functions are constant, for stating results, which hold
for every math library, at a concrete one. -/
def constLibm : Libm :=
  { pow := fun _ _ => Dbl.fin 1, sqrt := fun _ => Dbl.fin 1, log := fun _ => Dbl.fin 0 }

/-- A minimizing learner with one sampled action at state `[0]`: action 0 with value 5. -/
def oneLearner : QLearner := (QLearner.new true 1 0).add_sample (some [0]) none 0 none none 5

/-- A minimizing learner with three actions at state `[0]`: action 0 sampled
twice and action 1 once, both with value 2, and action 2 once with value 7. -/
def tieLearner : QLearner :=
  ((((QLearner.new true 1 0).add_sample (some [0]) none 0 none none 2).add_sample
      (some [0]) none 0 none none 2).add_sample (some [0]) none 1 none none 2).add_sample
      (some [0]) none 2 none none 7

/-- A learner whose only record is an uncovered pair: state `[0]`, action 0. -/
def uncoveredLearner : QLearner := (QLearner.new true 1 0).add_uncovered (some [0]) none 0

/-- A learner with an uncovered action 0 and a sampled action 1 (value 3) at state `[0]`. -/
def mixedLearner : QLearner := uncoveredLearner.add_sample (some [0]) none 1 none none 3

/-- The learner `oneLearner` once frozen by a first `print`. -/
def frozenLearner : QLearner := oneLearner.print.2

/-- A maximizing learner whose only record is an uncovered pair: state `[0]`, action 0. -/
def maxUncoveredLearner : QLearner :=
  (QLearner.new false 1 0).add_uncovered (some [0]) none 0

/-- A learner with an uncovered action 0 and the sampled actions 1 (value 3) and
2 (value 8) at state `[0]`, minimizing or maximizing. -/
def blockedLearner (is_minimization : Bool) : QLearner :=
  (((QLearner.new is_minimization 1 0).add_uncovered (some [0]) none 0).add_sample
      (some [0]) none 1 none none 3).add_sample (some [0]) none 2 none none 8

/-! ## The assertions of the source and the invariant of the counts -/

namespace QLearner

/-- The two conditions asserted by `add_sample`: the learning rate is at most 1,
and the future estimate has value 0 or a nonzero count. -/
def add_sample_asserts (q : QLearner) (d_vars c_vars : Option (List ℚ)) (action : Nat)
    (t_d_vars t_c_vars : Option (List ℚ)) : Prop :=
  learning_rate (q.slot (q.make_state d_vars c_vars) action).2._count ≤ 1 ∧
  ((q.best_value t_d_vars t_c_vars)._value = 0 ∨ (q.best_value t_d_vars t_c_vars)._count ≠ 0)

/-- The condition asserted by `is_allowed`: the count of the pair is 0 or the
count of the best value is not 0. -/
def is_allowed_assert (q : QLearner) (d_vars c_vars : Option (List ℚ)) (action : Nat) : Prop :=
  (q.value d_vars c_vars action)._count = 0 ∨ (q.best_value d_vars c_vars)._count ≠ 0

/-- The condition asserted by the training-mode query in its branch
`sum_count == 0`: the count of the pair is 0. -/
def predict_assert (q : QLearner) (action : Nat) (d_vars c_vars : Option (List ℚ)) : Prop :=
  ((q.queried d_vars c_vars action).search_statistics d_vars c_vars).2.2.1 = 0 →
    ((q.queried d_vars c_vars action).value d_vars c_vars action)._count = 0

/-- The invariant of the counts that every operation keeps: a stored record has
a count of at least 1 and a stored state has at least one action. -/
def countInv (q : QLearner) : Prop :=
  (∀ s a r, q.record s a = some r → 1 ≤ r._count) ∧
  (∀ s t, q._Q.find s = some t → t.entries ≠ [])

end QLearner

/-! ## Binary64 doubles -/

/-- A `double` in the IEEE 754 binary64 format: NaN, an infinity, or a finite
value.  The two zeros are one value. -/
inductive F64 where
  | nan : F64
  | ninf : F64
  | fin (x : ℚ) : F64
  | pinf : F64
  deriving DecidableEq

namespace F64

/-- The power `2^z` as a rational. -/
def pow2 (z : ℤ) : ℚ :=
  if 0 ≤ z then ((2 ^ z.toNat : ℕ) : ℚ) else (((2 ^ (-z).toNat : ℕ) : ℚ))⁻¹

/-- The floor of the base-2 logarithm of a natural number, by halving at most
`fuel` times. -/
def nlog2Aux : Nat → Nat → Nat
  | 0, _ => 0
  | fuel + 1, n => if n < 2 then 0 else nlog2Aux fuel (n / 2) + 1

/-- The floor of the base-2 logarithm of a positive natural number. -/
def nlog2 (n : Nat) : Nat := nlog2Aux n n

/-- The floor of the base-2 logarithm of a positive rational. -/
def ilog2 (x : ℚ) : ℤ :=
  let a : ℤ := (nlog2 x.num.natAbs : ℤ) - (nlog2 x.den : ℤ)
  if pow2 a ≤ x then a else a - 1

/-- The nearest integer of a rational, ties to the even one. -/
def rne (x : ℚ) : ℤ :=
  let f := ⌊x⌋
  if x - f < 1 / 2 then f
  else if 1 / 2 < x - f then f + 1
  else if f % 2 = 0 then f else f + 1

/-- The exponent of the binade of a positive rational, not below the least
normal exponent. -/
def expo (x : ℚ) : ℤ := max (ilog2 x) (-1022)

/-- The nearest multiple of the unit in the last place of a positive rational:
53 significant bits, gradual underflow, exponent unbounded above. -/
def rnd (x : ℚ) : ℚ := (rne (x / pow2 (expo x - 52)) : ℚ) * pow2 (expo x - 52)

/-- Overflow: a rounded magnitude of `2^1024` or more is infinite. -/
def clamp (y : ℚ) : F64 := if pow2 1024 ≤ y then pinf else fin y

/-- Unary minus. -/
def neg : F64 → F64
  | nan => nan
  | ninf => pinf
  | fin x => fin (-x)
  | pinf => ninf

/-- The double nearest to a real number (round to nearest, ties to even). -/
def round (x : ℚ) : F64 :=
  if x = 0 then fin 0
  else if 0 < x then clamp (rnd x)
  else neg (clamp (rnd (-x)))

/-- Comparison `a < b`; false when either side is NaN. -/
def lt : F64 → F64 → Bool
  | ninf, fin _ => true
  | ninf, pinf => true
  | fin _, pinf => true
  | fin x, fin y => decide (x < y)
  | _, _ => false

/-- Comparison `a == b`; false when either side is NaN. -/
def eq : F64 → F64 → Bool
  | ninf, ninf => true
  | pinf, pinf => true
  | fin x, fin y => decide (x = y)
  | _, _ => false

/-- Comparison `a <= b`; false when either side is NaN. -/
def le (a b : F64) : Bool := lt a b || eq a b

/-- The result of `std::min(a, b)`, which is `(b < a) ? b : a`. -/
def min (a b : F64) : F64 := if lt b a then b else a

/-- The result of `std::max(a, b)`, which is `(a < b) ? b : a`. -/
def max (a b : F64) : F64 := if lt a b then b else a

/-- Addition, rounded; opposite infinities give NaN. -/
def add : F64 → F64 → F64
  | nan, _ => nan
  | _, nan => nan
  | pinf, ninf => nan
  | ninf, pinf => nan
  | pinf, _ => pinf
  | _, pinf => pinf
  | ninf, _ => ninf
  | _, ninf => ninf
  | fin x, fin y => round (x + y)

/-- Subtraction, rounded. -/
def sub (a b : F64) : F64 := add a (neg b)

/-- The infinity with the sign of `s`, for `s` nonzero. -/
def signedInf (s : ℚ) : F64 := if 0 < s then pinf else ninf

/-- Multiplication, rounded; zero times an infinity gives NaN. -/
def mul : F64 → F64 → F64
  | nan, _ => nan
  | _, nan => nan
  | fin x, fin y => round (x * y)
  | fin x, pinf => if x = 0 then nan else signedInf x
  | fin x, ninf => if x = 0 then nan else signedInf (-x)
  | pinf, fin y => if y = 0 then nan else signedInf y
  | ninf, fin y => if y = 0 then nan else signedInf (-y)
  | pinf, pinf => pinf
  | ninf, ninf => pinf
  | pinf, ninf => ninf
  | ninf, pinf => ninf

/-- Division, rounded; a nonzero finite value over zero is an infinity, zero
over zero and infinity over infinity are NaN. -/
def div : F64 → F64 → F64
  | nan, _ => nan
  | _, nan => nan
  | fin x, fin y => if y = 0 then (if x = 0 then nan else signedInf x) else round (x / y)
  | fin _, pinf => fin 0
  | fin _, ninf => fin 0
  | pinf, fin y => if 0 ≤ y then pinf else ninf
  | ninf, fin y => if 0 ≤ y then ninf else pinf
  | pinf, pinf => nan
  | pinf, ninf => nan
  | ninf, pinf => nan
  | ninf, ninf => nan

/-- Conversion `(double) n` of an unsigned integer. -/
def ofNat (n : Nat) : F64 := round (n : ℚ)

/-- The integer square root by bisection on the bits: the greatest `r` below
`2^bits` with `r * r <= n`, added to `r0`. -/
def isqrtAux (n : Nat) : Nat → Nat → Nat
  | 0, r => r
  | b + 1, r => if (r + 2 ^ b) * (r + 2 ^ b) ≤ n then isqrtAux n b (r + 2 ^ b) else isqrtAux n b r

/-- The integer square root. -/
def isqrt (n : Nat) : Nat := isqrtAux n (nlog2 n / 2 + 1) 0

/-- A rational that rounds as the square root of the positive rational `x`
does: the root truncated to at least 64 significant bits, with a half unit
added when the truncation is not exact. -/
def sqrtApprox (x : ℚ) : ℚ :=
  let s : ℤ := 64 - ilog2 x / 2
  let t : ℚ := x * pow2 (2 * s)
  let k : Nat := isqrt ⌊t⌋.toNat
  if ((k * k : Nat) : ℚ) = t then (k : ℚ) / pow2 s else ((2 * k + 1 : Nat) : ℚ) / pow2 (s + 1)

/-- The result of `std::sqrt`, which IEEE 754 requires to be correctly rounded. -/
def sqrt : F64 → F64
  | nan => nan
  | ninf => nan
  | pinf => pinf
  | fin x => if x < 0 then nan else if x = 0 then fin 0 else round (sqrtApprox x)

/-- Whether a double is finite: neither NaN nor an infinity. -/
def isFinite : F64 → Bool
  | fin _ => true
  | _ => false

end F64

/-! ## The learner on binary64 values

The same functions of `external_learning.h` and `external_learning.cpp`, with
every `double` value, reward and score a binary64 number (`F64`): arithmetic
rounds to nearest, overflows to an infinity and propagates NaN, and comparisons
with NaN are false.  State keys are vectors of finite values, as above. -/

namespace Ieee

/-- The record `qvalue_t` of one (state, action) pair. -/
structure qvalue_t where
  _value : F64 := F64.fin 0
  _count : Nat := 0
  _select : Bool := false
  _uncover : Bool := false
  deriving DecidableEq

/-- The map `qaction_t` from action identifiers to records. -/
abbrev qaction_t := OMap Nat qvalue_t

/-- The table `qtable_t` from state keys to action maps. -/
abbrev qtable_t := OMap qstate_t qaction_t

/-- The constant `min_reward`. -/
def min_reward : F64 := F64.fin (-32767)

/-- The learner object. -/
structure QLearner where
  _Q : qtable_t
  _is_minimization : Bool
  _d_size : Nat
  _c_size : Nat
  learning : Bool
  /-- Modelled from the spec: the member `uncovered` that
  `uppaal_external_learner_predict` appends state keys to is not declared in
  `external_learning.h` (the declaration is commented out); the spec describes it
  as a log of the state keys met during evaluation without coverage. -/
  uncovered : List qstate_t

namespace QLearner

/-- The constructor `QLearner(is_minimization, d_size, c_size)`. -/
def new (is_minimization : Bool) (d_size c_size : Nat) : QLearner :=
  { _Q := OMap.empty, _is_minimization := is_minimization, _d_size := d_size,
    _c_size := c_size, learning := true, uncovered := [] }

/-- Converts a raw observation into a state key (`make_state`). -/
def make_state (q : QLearner) (d_vars c_vars : Option (List ℚ)) : qstate_t :=
  let d_vector : List ℚ :=
    match d_vars with
    | none => []
    | some p => (List.range q._d_size).map (fun d => p.getD d 0)
  let c_vector : List ℚ :=
    match c_vars with
    | none => []
    | some p => (List.range q._c_size).map (fun c => trunc (p.getD c 0))
  toLex (d_vector, c_vector)

/-- One iteration of the loop of `best_value`. -/
def best_step (is_minimization : Bool) (best other : qvalue_t) : qvalue_t :=
  if other._count = 0 then best
  else
    let best1 := if best._count = 0 then other else best
    if is_minimization && F64.lt other._value best1._value then other
    else if !is_minimization && F64.lt best1._value other._value then other
    else best1

/-- The loop of `best_value` over the action map of one state. -/
def best_of (is_minimization : Bool) (state_table : qaction_t) : qvalue_t :=
  state_table.entries.foldl (fun best other => best_step is_minimization best other.2)
    { _value := F64.fin 0, _count := 0 }

/-- Best known Q-value of a state over all actions (`best_value`). -/
def best_value (q : QLearner) (d_vars c_vars : Option (List ℚ)) : qvalue_t :=
  let state := q.make_state d_vars c_vars
  match q._Q.find state with
  | some state_table => best_of q._is_minimization state_table
  | none => { _value := F64.fin 0, _count := 0 }

/-- The stored record of a pair, or the default record (`value`). -/
def value (q : QLearner) (d_vars c_vars : Option (List ℚ)) (action : Nat) : qvalue_t :=
  let state := q.make_state d_vars c_vars
  match q._Q.find state with
  | some state_table =>
    match state_table.find action with
    | some r => r
    | none => { _value := F64.fin 0, _count := 0 }
  | none => { _value := F64.fin 0, _count := 0 }

/-- The reference `_Q[from_state][action]`: the action map of the state and the
record of the pair, both default-constructed when absent. -/
def slot (q : QLearner) (from_state : qstate_t) (action : Nat) : qaction_t × qvalue_t :=
  let state_table := (q._Q.find from_state).getD OMap.empty
  (state_table, (state_table.find action).getD {})

/-- Writes `r` through the reference `_Q[from_state][action]`. -/
def store (q : QLearner) (from_state : qstate_t) (action : Nat) (r : qvalue_t) : QLearner :=
  { q with _Q := q._Q.insert from_state ((q.slot from_state action).1.insert action r) }

/-- Adds an observation (`add_sample`). -/
def add_sample (q : QLearner) (d_vars c_vars : Option (List ℚ)) (action : Nat)
    (t_d_vars t_c_vars : Option (List ℚ)) (v_reward : F64) : QLearner :=
  let gamma : F64 := F64.round (99 / 100)
  let alpha : F64 := F64.fin 2
  let reward := v_reward
  let from_state := q.make_state d_vars c_vars
  let future_estimate := q.best_value t_d_vars t_c_vars
  let q0 := (q.slot from_state action).2
  let learning_rate : F64 := F64.div (F64.fin 1) (F64.min alpha (F64.ofNat (q0._count + 1)))
  let v : F64 :=
    if q0._count = 0 then F64.add reward (F64.mul gamma future_estimate._value)
    else
      F64.add q0._value
        (F64.mul learning_rate
          (F64.sub (F64.add reward (F64.mul gamma future_estimate._value)) q0._value))
  q.store from_state action { q0 with _value := v, _count := q0._count + 1 }

/-- Registers a pair as uncovered by learning (`add_uncovered`). -/
def add_uncovered (q : QLearner) (d_vars c_vars : Option (List ℚ)) (action : Nat) : QLearner :=
  let from_state := q.make_state d_vars c_vars
  let q0 := (q.slot from_state action).2
  q.store from_state action
    { q0 with _count := 1, _select := false, _value := min_reward, _uncover := true }

/-- One iteration of the loop of `search_statistics`. -/
def stats_step (acc : F64 × F64 × Nat × Nat) (stats : qvalue_t) : F64 × F64 × Nat × Nat :=
  if stats._count ≠ 0 then
    (F64.min acc.1 stats._value, F64.max acc.2.1 stats._value,
      acc.2.2.1 + stats._count, acc.2.2.2 + 1)
  else acc

/-- Range of the Q-values of a state, total of the counts and number of counted
actions (`search_statistics`), as `(lower, upper, sum_count, n_actions)`. -/
def search_statistics (q : QLearner) (d_vars c_vars : Option (List ℚ)) : F64 × F64 × Nat × Nat :=
  let state := q.make_state d_vars c_vars
  match q._Q.find state with
  | some state_table =>
    state_table.entries.foldl (fun acc stats => stats_step acc stats.2) (F64.pinf, F64.ninf, 0, 0)
  | none => (F64.pinf, F64.ninf, 0, 0)

/-- Whether the action is a best action of the state (`is_allowed`); the result
is `(allowed, found)`, the second component being the out-parameter `*found`. -/
def is_allowed (q : QLearner) (d_vars c_vars : Option (List ℚ)) (action : Nat) : Bool × Bool :=
  let current_v := q.value d_vars c_vars action
  let best_v := q.best_value d_vars c_vars
  if current_v._uncover then (false, true)
  else if decide (current_v._count > 0) && F64.eq current_v._value best_v._value then
    (true, true)
  else if best_v._count = 0 then (false, false)
  else (false, true)

/-- Sets the select flag of an allowed pair (`mark`). -/
def mark (q : QLearner) (d_vars c_vars : Option (List ℚ)) (action : Nat) : QLearner :=
  if (q.is_allowed d_vars c_vars action).1 then
    let state := q.make_state d_vars c_vars
    match q._Q.find state with
    | some state_table =>
      match state_table.find action with
      | some r =>
        { q with _Q := q._Q.insert state (state_table.insert action { r with _select := true }) }
      | none => q
    | none => q
  else q

/-- The method `print` as far as the learner is concerned: the first call
clears `learning`; the table is not changed.  (The text written is not part of
this embedding.) -/
def print (q : QLearner) : QLearner :=
  if q.learning then { q with learning := false } else q

end QLearner

/-- The values of `std::pow` and `std::log` on the arguments for which the C
standard leaves the result to the implementation. -/
structure Libm where
  pow : F64 → F64 → F64
  log : F64 → F64

/-- The result of `std::pow(x, y)`: the cases fixed by the C standard (Annex F:
`pow(x, 0)` and `pow(1, y)` are 1 even for a NaN operand, any other NaN operand
gives NaN, a zero base with a positive exponent gives 0), else the library's
value. -/
def pow (m : Libm) (x y : F64) : F64 :=
  if F64.eq y (F64.fin 0) then F64.fin 1
  else if F64.eq x (F64.fin 1) then F64.fin 1
  else
    match x, y with
    | F64.nan, _ => F64.nan
    | _, F64.nan => F64.nan
    | _, _ =>
      if F64.eq x (F64.fin 0) && F64.lt (F64.fin 0) y then F64.fin 0 else m.pow x y

/-- The result of `std::log(x)`: the cases fixed by the C standard (Annex F: NaN
for NaN and for a negative argument, minus infinity at 0, 0 at 1, infinity at
infinity), else the library's value. -/
def log (m : Libm) (x : F64) : F64 :=
  match x with
  | F64.nan => F64.nan
  | F64.ninf => F64.nan
  | F64.pinf => F64.pinf
  | F64.fin v =>
    if v < 0 then F64.nan else if v = 0 then F64.ninf else if v = 1 then F64.fin 0 else m.log x

/-- The query entry point `uppaal_external_learner_predict`; the result is the
returned weight and the learner after the call, or `none` when the call reads
outside the vector `from_state.first` (the diagnostic of the not-found branch
reads its elements 0 and 1 without a check of its size). -/
def uppaal_external_learner_predict (m : Libm) (q : QLearner) (is_eval : Bool) (action : Nat)
    (d_vars c_vars : Option (List ℚ)) : Option (F64 × QLearner) :=
  let from_state := q.make_state d_vars c_vars
  let q1 := if !q.learning then q.mark d_vars c_vars action else q
  if is_eval then
    let af := q1.is_allowed d_vars c_vars action
    if af.1 && af.2 then some (F64.fin 1, q1)
    else if af.2 then some (F64.fin 0, q1)
    else
      if !q1.learning then
        if from_state ∈ q1.uncovered then some (F64.fin 0, q1)
        else if (ofLex from_state).1.length < 2 then none
        else some (F64.fin 0, { q1 with uncovered := q1.uncovered ++ [from_state] })
      else some (F64.fin 0, q1)
  else
    let st := q1.search_statistics d_vars c_vars
    let lower := st.1
    let upper := st.2.1
    let sum_count := st.2.2.1
    let nactions := st.2.2.2
    let value := q1.value d_vars c_vars action
    if sum_count = 0 then some (F64.fin 0, q1)
    else
      let pr_action := F64.div (F64.ofNat sum_count) (F64.ofNat nactions)
      let difference := F64.sub upper lower
      if F64.eq difference (F64.fin 0) then some (F64.fin 1, q1)
      else
        let relative0 :=
          if value._count ≠ 0 then value._value
          else (if q1._is_minimization then lower else upper)
        let relative :=
          if q1._is_minimization then F64.div (F64.sub upper relative0) difference
          else F64.div (F64.sub relative0 lower) difference
        let lifted := pow m relative
          (F64.min (F64.fin 1000) (F64.sqrt (F64.max (F64.ofNat value._count) pr_action)))
        let r :=
          if value._count > 0 then
            F64.sqrt (F64.div (log m (F64.ofNat sum_count)) (F64.ofNat value._count))
          else F64.fin 1
        let C := F64.div (F64.fin 1) (F64.ofNat nactions)
        some (F64.add lifted (F64.div (F64.mul r C) (F64.add (F64.fin 1) C)), q1)

end Ieee

/-! ## Observations and named parts of the learner on binary64 values -/

namespace Ieee

namespace QLearner

/-- The stored record of a pair of a state key and an action, if there is one. -/
def record (q : QLearner) (s : qstate_t) (a : Nat) : Option qvalue_t :=
  (q._Q.find s).bind (fun state_table => state_table.find a)

/-- The entries of the action map of a state, in action order; none when the
state is not stored. -/
def counted_src (q : QLearner) (s : qstate_t) : List (Nat × qvalue_t) :=
  ((q._Q.find s).getD OMap.empty).entries

/-- The entries of a state that have a nonzero count, in action order. -/
def counted (q : QLearner) (s : qstate_t) : List (Nat × qvalue_t) :=
  (q.counted_src s).filter (fun x => decide (x.2._count ≠ 0))

/-- The entries of a list that have a nonzero count. -/
def countedL (l : List (Nat × qvalue_t)) : List (Nat × qvalue_t) :=
  l.filter (fun x => decide (x.2._count ≠ 0))

/-- Strict preference between two values: smaller under minimization, larger
under maximization; false when either is NaN. -/
def better (is_minimization : Bool) (x y : F64) : Bool :=
  if is_minimization then F64.lt x y else F64.lt y x

/-- The loop of `best_value` over a list of entries. -/
def bestL (m : Bool) (l : List (Nat × qvalue_t)) : qvalue_t :=
  l.foldl (fun best other => best_step m best other.2) { _value := F64.fin 0, _count := 0 }

/-- The loop of `search_statistics` over a list of entries. -/
def statsL (l : List (Nat × qvalue_t)) : F64 × F64 × Nat × Nat :=
  l.foldl (fun acc stats => stats_step acc stats.2) (F64.pinf, F64.ninf, 0, 0)

/-- Two records with the same value and the same count. -/
def sameEstimate (x y : qvalue_t) : Prop := x._value = y._value ∧ x._count = y._count

/-- The learning rate computed by `add_sample` for a record with the given count. -/
def learning_rate (count : Nat) : F64 :=
  F64.div (F64.fin 1) (F64.min (F64.fin 2) (F64.ofNat (count + 1)))

/-- The learner on which a query computes its result: marked first when frozen. -/
def queried (q : QLearner) (d_vars c_vars : Option (List ℚ)) (action : Nat) : QLearner :=
  if !q.learning then q.mark d_vars c_vars action else q

/-- The normalised value `relative` computed by the training-mode score. -/
def relative (q : QLearner) (d_vars c_vars : Option (List ℚ)) (action : Nat) : F64 :=
  let st := q.search_statistics d_vars c_vars
  let lower := st.1
  let upper := st.2.1
  let value := q.value d_vars c_vars action
  let difference := F64.sub upper lower
  let relative0 :=
    if value._count ≠ 0 then value._value
    else (if q._is_minimization then lower else upper)
  if q._is_minimization then F64.div (F64.sub upper relative0) difference
  else F64.div (F64.sub relative0 lower) difference

/-- The sum `lifted + (r * C) / (1.0 + C)` that the training-mode query returns
when `sum_count` and `upper - lower` are not zero. -/
def score (m : Libm) (q : QLearner) (d_vars c_vars : Option (List ℚ)) (action : Nat) : F64 :=
  let st := q.search_statistics d_vars c_vars
  let value := q.value d_vars c_vars action
  let pr_action := F64.div (F64.ofNat st.2.2.1) (F64.ofNat st.2.2.2)
  let lifted := pow m (q.relative d_vars c_vars action)
    (F64.min (F64.fin 1000) (F64.sqrt (F64.max (F64.ofNat value._count) pr_action)))
  let r :=
    if value._count > 0 then
      F64.sqrt (F64.div (log m (F64.ofNat st.2.2.1)) (F64.ofNat value._count))
    else F64.fin 1
  let C := F64.div (F64.fin 1) (F64.ofNat st.2.2.2)
  F64.add lifted (F64.div (F64.mul r C) (F64.add (F64.fin 1) C))

/-- Whether the evaluation-mode query reads outside `from_state.first`: the
learner is frozen, the pair is not found, the state key is not yet in
`uncovered`, and the discrete vector of the key has fewer than two elements. -/
def reads_out_of_bounds (q : QLearner) (d_vars c_vars : Option (List ℚ)) (action : Nat) : Bool :=
  !q.learning && !(q.is_allowed d_vars c_vars action).2 &&
    !decide (q.make_state d_vars c_vars ∈ q.uncovered) &&
    decide ((ofLex (q.make_state d_vars c_vars)).1.length < 2)

/-- The learner after `n` terminal samples of the same pair with the same reward. -/
def repeat_sample (q : QLearner) (d_vars c_vars : Option (List ℚ)) (action : Nat)
    (v_reward : F64) (n : Nat) : QLearner :=
  (fun q1 : QLearner => q1.add_sample d_vars c_vars action none none v_reward)^[n] q

end QLearner

/-- A math library whose ordinary values are constant, for stating results,
which hold for every math library, at a concrete one. -/
def constLibm : Libm := { pow := fun _ _ => F64.fin 1, log := fun _ => F64.fin 0 }

/-- A minimizing learner with one sampled action at state `[0]`: action 0 with value 5. -/
def oneLearner : QLearner :=
  (QLearner.new true 1 0).add_sample (some [0]) none 0 none none (F64.fin 5)

/-- A minimizing learner with three actions at state `[0]`: action 0 sampled
twice and action 1 once, both with value 2, and action 2 once with value 7. -/
def tieLearner : QLearner :=
  ((((QLearner.new true 1 0).add_sample (some [0]) none 0 none none (F64.fin 2)).add_sample
      (some [0]) none 0 none none (F64.fin 2)).add_sample (some [0]) none 1 none none
      (F64.fin 2)).add_sample (some [0]) none 2 none none (F64.fin 7)

/-- A minimizing learner with two sampled actions of equal value at state `[0]`:
action 0 sampled twice and action 1 once, both with value 2. -/
def flatLearner : QLearner :=
  (((QLearner.new true 1 0).add_sample (some [0]) none 0 none none (F64.fin 2)).add_sample
      (some [0]) none 0 none none (F64.fin 2)).add_sample (some [0]) none 1 none none (F64.fin 2)

/-- A learner whose only record is an uncovered pair: state `[0]`, action 0. -/
def uncoveredLearner : QLearner := (QLearner.new true 1 0).add_uncovered (some [0]) none 0

/-- A minimizing learner after two terminal samples of action 0 at state `[0]`
with the rewards `2^1023` and `-2^1023`: the second update overflows and the
stored value is minus infinity. -/
def infLearner : QLearner :=
  ((QLearner.new true 1 0).add_sample (some [0]) none 0 none none (F64.fin (2 ^ 1023))).add_sample
    (some [0]) none 0 none none (F64.fin (-(2 ^ 1023)))

/-- The learner `infLearner` after a third terminal sample of action 0, with
reward 0: the stored value is NaN (infinity minus infinity). -/
def nanOnlyLearner : QLearner := infLearner.add_sample (some [0]) none 0 none none (F64.fin 0)

/-- The learner `nanOnlyLearner` after a terminal sample of action 1 with reward 5: the
records of state `[0]` are (NaN, 3) for action 0 and (5, 1) for action 1. -/
def nanLearner : QLearner := nanOnlyLearner.add_sample (some [0]) none 1 none none (F64.fin 5)

/-- A minimizing learner with two actions at state `[0]`, sampled once each
with the rewards `1e308` and `-1e308` (the doubles nearest to these). -/
def wideLearner : QLearner :=
  ((QLearner.new true 1 0).add_sample (some [0]) none 0 none none (F64.round (10 ^ 308))).add_sample
    (some [0]) none 1 none none (F64.round (-(10 ^ 308)))

/-- A minimizing learner with three actions at state `[0]`, sampled once each
with the rewards 0, `1e-17` (the double nearest to it) and 1. -/
def closeLearner : QLearner :=
  (((QLearner.new true 1 0).add_sample (some [0]) none 0 none none (F64.fin 0)).add_sample
      (some [0]) none 1 none none (F64.round (1 / 10 ^ 17))).add_sample
      (some [0]) none 2 none none (F64.fin 1)

/-- A learner with state vectors of size 0, frozen by a first `print`. -/
def frozenEmptyLearner : QLearner := (QLearner.new true 0 0).print

/-- A minimizing learner with one sampled action at state `[0]`: action 0 with
the value `1 + 2^-52`, the double next above 1. -/
def ulpLearner : QLearner :=
  (QLearner.new true 1 0).add_sample (some [0]) none 0 none none (F64.fin (1 + 1 / 2 ^ 52))

end Ieee

/-! ## Lemmas on ordered maps -/

namespace OMap

variable {K V : Type} [LinearOrder K]

theorem findL_insertL_self (k : K) (v : V) (l : List (K × V)) :
    findL k (insertL k v l) = some v := by
  induction l with
  | nil => simp [insertL, findL]
  | cons hd tl ih =>
    obtain ⟨k', v'⟩ := hd
    simp only [insertL]
    split_ifs with h1 h2
    · simp [findL]
    · simp only [findL]
      rw [if_neg (ne_of_lt h2), ih]
    · simp [findL]

theorem findL_insertL_ne (j k : K) (v : V) (l : List (K × V)) (hjk : j ≠ k) :
    findL j (insertL k v l) = findL j l := by
  induction l with
  | nil =>
    simp only [insertL, findL]
    rw [if_neg (fun h => hjk h.symm)]
  | cons hd tl ih =>
    obtain ⟨k', v'⟩ := hd
    simp only [insertL]
    split_ifs with h1 h2
    · simp only [findL]
      rw [if_neg (fun h => hjk h.symm)]
    · simp only [findL]
      rw [ih]
    · have hk : k = k' := le_antisymm (not_lt.1 h2) (not_lt.1 h1)
      simp only [findL]
      rw [if_neg (fun h => hjk h.symm), if_neg (fun h => hjk (h.symm.trans hk.symm))]

theorem find_insert_self (m : OMap K V) (k : K) (v : V) : (m.insert k v).find k = some v :=
  findL_insertL_self k v m.entries

theorem find_insert_ne (m : OMap K V) (j k : K) (v : V) (hjk : j ≠ k) :
    (m.insert k v).find j = m.find j :=
  findL_insertL_ne j k v m.entries hjk

theorem find_empty (k : K) : (empty : OMap K V).find k = none := rfl

theorem mem_of_findL (k : K) (v : V) (l : List (K × V)) (h : findL k l = some v) :
    (k, v) ∈ l := by
  induction l with
  | nil => simp [findL] at h
  | cons hd tl ih =>
    obtain ⟨k', v'⟩ := hd
    simp only [findL] at h
    split_ifs at h with h1
    · simp only [Option.some.injEq] at h
      rw [h1, h]
      exact List.mem_cons_self _ _
    · exact List.mem_cons_of_mem _ (ih h)

theorem findL_of_mem (k : K) (v : V) (l : List (K × V))
    (hl : l.Pairwise (fun a b => a.1 < b.1)) (h : (k, v) ∈ l) : findL k l = some v := by
  induction l with
  | nil => simp at h
  | cons hd tl ih =>
    obtain ⟨k', v'⟩ := hd
    rw [List.pairwise_cons] at hl
    simp only [findL]
    rcases List.mem_cons.1 h with h1 | h1
    · simp only [Prod.mk.injEq] at h1
      rw [if_pos h1.1.symm, h1.2]
    · have hlt : k' < k := hl.1 (k, v) h1
      rw [if_neg (ne_of_lt hlt)]
      exact ih hl.2 h1

theorem find_iff_mem (m : OMap K V) (k : K) (v : V) : m.find k = some v ↔ (k, v) ∈ m.entries :=
  ⟨mem_of_findL k v m.entries, findL_of_mem k v m.entries m.sorted⟩

end OMap

/-! ## Lemmas on the table operations -/

namespace QLearner

theorem slot_snd_eq_value (q : QLearner) (d c : Option (List ℚ)) (a : Nat) :
    (q.slot (q.make_state d c) a).2 = q.value d c a := by
  cases h : q._Q.find (q.make_state d c) with
  | none => simp [slot, value, h, OMap.find_empty]
  | some t =>
    cases h2 : t.find a with
    | none => simp [slot, value, h, h2]
    | some r => simp [slot, value, h, h2]

theorem value_eq_record (q : QLearner) (d c : Option (List ℚ)) (a : Nat) :
    q.value d c a = ((q.record (q.make_state d c) a).getD {}) := by
  cases h : q._Q.find (q.make_state d c) with
  | none => simp [value, record, h]
  | some t =>
    cases h2 : t.find a with
    | none => simp [value, record, h, h2]
    | some r => simp [value, record, h, h2]

theorem record_store_self (q : QLearner) (s : qstate_t) (a : Nat) (r : qvalue_t) :
    (q.store s a r).record s a = some r := by
  simp [record, store, OMap.find_insert_self]

theorem record_store_ne (q : QLearner) (s s' : qstate_t) (a a' : Nat) (r : qvalue_t)
    (h : s' ≠ s ∨ a' ≠ a) : (q.store s a r).record s' a' = q.record s' a' := by
  by_cases hs : s' = s
  · subst hs
    have ha : a' ≠ a := by
      rcases h with h | h
      · exact absurd rfl h
      · exact h
    cases h2 : q._Q.find s' with
    | none => simp [record, store, slot, h2, OMap.find_insert_self, OMap.find_insert_ne _ _ _ _ ha,
        OMap.find_empty]
    | some t => simp [record, store, slot, h2, OMap.find_insert_self, OMap.find_insert_ne _ _ _ _ ha]
  · simp only [record, store]
    rw [OMap.find_insert_ne _ _ _ _ hs]

theorem make_state_store (q : QLearner) (s : qstate_t) (a : Nat) (r : qvalue_t)
    (d c : Option (List ℚ)) : (q.store s a r).make_state d c = q.make_state d c := rfl

theorem value_store_self (q : QLearner) (d c : Option (List ℚ)) (a : Nat) (r : qvalue_t) :
    (q.store (q.make_state d c) a r).value d c a = r := by
  rw [value_eq_record, make_state_store, record_store_self]
  rfl

theorem better_trans {m : Bool} {x y z : ℚ} (h1 : better m x y) (h2 : better m y z) :
    better m x z := by
  cases m <;> simp only [better, if_true, Bool.false_eq_true, if_false, decide_eq_true_eq] at * <;>
    linarith

theorem better_of_not_better {m : Bool} {x y z : ℚ} (h1 : better m x y) (h2 : ¬ better m z y) :
    better m x z := by
  cases m <;>
    simp only [better, if_true, Bool.false_eq_true, if_false, decide_eq_true_eq, not_lt] at * <;>
    linarith

theorem best_step_eq (m : Bool) (best other : qvalue_t) :
    best_step m best other =
      if other._count = 0 then best
      else if better m other._value (if best._count = 0 then other else best)._value then other
      else (if best._count = 0 then other else best) := by
  unfold best_step
  by_cases h0 : other._count = 0
  · simp [h0]
  · cases m <;> simp [h0, better]

theorem bestL_snoc (m : Bool) (l : List (Nat × qvalue_t)) (x : Nat × qvalue_t) :
    bestL m (l ++ [x]) = best_step m (bestL m l) x.2 := by
  simp [bestL, List.foldl_append]

theorem bestL_inv (m : Bool) (l : List (Nat × qvalue_t)) :
    ((∀ x ∈ l, x.2._count = 0) ∧ bestL m l = { _value := 0, _count := 0 }) ∨
    (∃ pre a post, l = pre ++ (a, bestL m l) :: post ∧ (bestL m l)._count ≠ 0 ∧
      (∀ x ∈ pre, x.2._count ≠ 0 → better m (bestL m l)._value x.2._value) ∧
      (∀ x ∈ post, x.2._count ≠ 0 → ¬ better m x.2._value (bestL m l)._value)) := by
  induction l using List.reverseRecOn with
  | nil => left; exact ⟨by simp, rfl⟩
  | append_singleton l x ih =>
    rw [bestL_snoc, best_step_eq]
    by_cases hx : x.2._count = 0
    · rw [if_pos hx]
      rcases ih with ⟨h0, hr⟩ | ⟨pre, a, post, hl, hc, hpre, hpost⟩
      · left
        refine ⟨?_, hr⟩
        intro y hy
        rcases List.mem_append.1 hy with h | h
        · exact h0 y h
        · rw [List.mem_singleton.1 h]; exact hx
      · right
        refine ⟨pre, a, post ++ [x], ?_, hc, hpre, ?_⟩
        · conv_lhs => rw [hl]
          simp
        · intro y hy hyc
          rcases List.mem_append.1 hy with h | h
          · exact hpost y h hyc
          · rw [List.mem_singleton.1 h] at hyc; exact absurd hx hyc
    · rw [if_neg hx]
      right
      rcases ih with ⟨h0, hr⟩ | ⟨pre, a, post, hl, hc, hpre, hpost⟩
      · have hb : ¬ better m x.2._value x.2._value := by
          cases m <;> simp [better]
        rw [hr]
        simp only [if_true, if_neg hb]
        refine ⟨l, x.1, [], rfl, hx, ?_, by simp⟩
        intro y hy hyc
        exact absurd (h0 y hy) hyc
      · rw [if_neg hc]
        by_cases hbt : better m x.2._value (bestL m l)._value
        · rw [if_pos hbt]
          refine ⟨l, x.1, [], rfl, hx, ?_, by simp⟩
          intro y hy hyc
          rw [hl] at hy
          rcases List.mem_append.1 hy with h | h
          · exact better_trans hbt (hpre y h hyc)
          · rcases List.mem_cons.1 h with h | h
            · rw [h]; exact hbt
            · exact better_of_not_better hbt (hpost y h hyc)
        · rw [if_neg hbt]
          refine ⟨pre, a, post ++ [x], ?_, hc, hpre, ?_⟩
          · conv_lhs => rw [hl]
            simp
          · intro y hy hyc
            rcases List.mem_append.1 hy with h | h
            · exact hpost y h hyc
            · rw [List.mem_singleton.1 h]; exact hbt

theorem best_of_eq_bestL (m : Bool) (t : qaction_t) : best_of m t = bestL m t.entries := rfl

theorem best_of_extreme (m : Bool) (t : qaction_t)
    (h : ∃ a r, t.find a = some r ∧ 0 < r._count) :
    ∃ a, t.find a = some (best_of m t) ∧ 0 < (best_of m t)._count ∧
      ∀ b r, t.find b = some r → 0 < r._count →
        (if m then (best_of m t)._value ≤ r._value else r._value ≤ (best_of m t)._value) ∧
        (r._value = (best_of m t)._value → a ≤ b) := by
  rw [best_of_eq_bestL]
  rcases bestL_inv m t.entries with ⟨h0, _⟩ | ⟨pre, a, post, hl, hc, hpre, hpost⟩
  · exfalso
    obtain ⟨a, r, hf, hr⟩ := h
    have := h0 (a, r) ((OMap.find_iff_mem t a r).1 hf)
    simp only at this
    omega
  · refine ⟨a, ?_, Nat.pos_of_ne_zero hc, ?_⟩
    · rw [OMap.find_iff_mem]
      have hm : (a, bestL m t.entries) ∈ pre ++ (a, bestL m t.entries) :: post := by simp
      rw [← hl] at hm
      exact hm
    · intro b r hf hr
      have hs := t.sorted
      rw [hl, List.pairwise_append] at hs
      obtain ⟨_, hs2, hs3⟩ := hs
      rw [List.pairwise_cons] at hs2
      have hmem := (OMap.find_iff_mem t b r).1 hf
      rw [hl] at hmem
      have hr0 : r._count ≠ 0 := Nat.pos_iff_ne_zero.1 hr
      rcases List.mem_append.1 hmem with h1 | h1
      · have hb := hpre (b, r) h1 hr0
        cases m <;> simp only [better, if_true, Bool.false_eq_true, if_false, decide_eq_true_eq] at hb ⊢
        · exact ⟨le_of_lt hb, fun e => absurd e (ne_of_lt hb)⟩
        · exact ⟨le_of_lt hb, fun e => absurd e.symm (ne_of_lt hb)⟩
      · rcases List.mem_cons.1 h1 with h2 | h2
        · simp only [Prod.mk.injEq] at h2
          rw [h2.1, h2.2]
          refine ⟨?_, fun _ => le_refl _⟩
          split_ifs <;> exact le_refl _
        · have hb := hpost (b, r) h2 hr0
          have hab : a < b := hs2.1 (b, r) h2
          refine ⟨?_, fun _ => le_of_lt hab⟩
          cases m <;> simp only [better, if_true, Bool.false_eq_true, if_false, decide_eq_true_eq, not_lt] at hb ⊢ <;>
            exact hb

theorem best_value_counted (q : QLearner) (d c : Option (List ℚ))
    (h : ∃ a r, q.record (q.make_state d c) a = some r ∧ 0 < r._count) :
    ∃ a, q.record (q.make_state d c) a = some (q.best_value d c) ∧
      0 < (q.best_value d c)._count ∧
      ∀ b r, q.record (q.make_state d c) b = some r → 0 < r._count →
        (if q._is_minimization then (q.best_value d c)._value ≤ r._value
         else r._value ≤ (q.best_value d c)._value) := by
  obtain ⟨a, r, hr, hc⟩ := h
  cases hf : q._Q.find (q.make_state d c) with
  | none => simp [record, hf] at hr
  | some t =>
    have hb : q.best_value d c = best_of q._is_minimization t := by
      simp [best_value, hf]
    have hrec : ∀ a r, q.record (q.make_state d c) a = some r ↔ t.find a = some r := by
      intro a r
      simp [record, hf]
    rw [hb]
    obtain ⟨a0, h2, h3, h4⟩ := best_of_extreme q._is_minimization t ⟨a, r, (hrec a r).1 hr, hc⟩
    exact ⟨a0, (hrec _ _).2 h2, h3, fun b r' hf' hc' => (h4 b r' ((hrec b r').1 hf') hc').1⟩

end QLearner

/-! ## The update rule -/

/-- C2 (evaluation at the failing input): on a learner whose state vectors are
both of size 0, every state key is the empty key, which is also the key that an
absent destination is looked up under; after a first terminal sample of action 0
with reward 5, the best value of the absent destination is the record (5, 1)
and not the default record, and a first terminal sample of action 1 with reward
1 stores the value 1 + 0.99 * 5 = 5.95 instead of 1. -/
theorem add_sample_terminal_bootstraps_from_empty_key :
    ((QLearner.new true 0 0).add_sample (some []) (some []) 0 none none 5).best_value none none
      = { _value := 5, _count := 1 } ∧
    (((QLearner.new true 0 0).add_sample (some []) (some []) 0 none none 5).value
        (some []) (some []) 1)._count = 0 ∧
    (((QLearner.new true 0 0).add_sample (some []) (some []) 0 none none 5).add_sample
        (some []) (some []) 1 none none 1).value (some []) (some []) 1
      = { _value := 119 / 20, _count := 1 } := by
  refine ⟨by decide!, by decide!, by decide!⟩

/-! ## Registration of uncovered pairs -/

/-- C7: for every table, after `add_uncovered(state, action)` the record of the
pair is exactly (value -32767, count 1, select false, uncover true), whatever it
held before, and the record of every other pair is unchanged. -/
theorem add_uncovered_sets_record_only (q : QLearner) (d c : Option (List ℚ)) (a : Nat) :
    (q.add_uncovered d c a).record (q.make_state d c) a
      = some { _value := -32767, _count := 1, _select := false, _uncover := true } ∧
    (q.add_uncovered d c a).value d c a
      = { _value := -32767, _count := 1, _select := false, _uncover := true } ∧
    ∀ (s : qstate_t) (b : Nat), (s ≠ q.make_state d c ∨ b ≠ a) →
      (q.add_uncovered d c a).record s b = q.record s b := by
  refine ⟨?_, ?_, ?_⟩
  · unfold QLearner.add_uncovered
    simp only [QLearner.record_store_self, min_reward]
  · unfold QLearner.add_uncovered
    simp only [QLearner.value_store_self, min_reward]
  · intro s b h
    unfold QLearner.add_uncovered
    exact QLearner.record_store_ne q _ s a b _ h

/-- C7, at a concrete table: registering action 1 of state `[0]` of `tieLearner`
as uncovered overwrites its sampled record (2, 1) and leaves the record (2, 2)
of action 0 as it was. -/
theorem add_uncovered_sets_record_only_witness :
    (tieLearner.add_uncovered (some [0]) none 1).value (some [0]) none 1
      = { _value := -32767, _count := 1, _select := false, _uncover := true } ∧
    (tieLearner.add_uncovered (some [0]) none 1).record (tieLearner.make_state (some [0]) none) 0
      = some { _value := 2, _count := 2 } :=
  ⟨(add_uncovered_sets_record_only tieLearner (some [0]) none 1).2.1,
   ((add_uncovered_sets_record_only tieLearner (some [0]) none 1).2.2 _ 0
      (Or.inr (by decide))).trans (by decide!)⟩

/-! ## Best value of a state -/

namespace QLearner

theorem record_eq_some_iff (q : QLearner) (s : qstate_t) (a : Nat) (r : qvalue_t) :
    q.record s a = some r ↔ ∃ t, q._Q.find s = some t ∧ t.find a = some r := by
  unfold record
  cases h : q._Q.find s with
  | none => simp
  | some t => simp

end QLearner

/-! ## Statistics of a state -/

namespace QLearner

theorem statsL_snoc (l : List (Nat × qvalue_t)) (x : Nat × qvalue_t) :
    statsL (l ++ [x]) = stats_step (statsL l) x.2 := by
  simp [statsL, List.foldl_append]

theorem countedL_snoc (l : List (Nat × qvalue_t)) (x : Nat × qvalue_t) :
    countedL (l ++ [x]) = countedL l ++ (if x.2._count ≠ 0 then [x] else []) := by
  unfold countedL
  rw [List.filter_append]
  by_cases h : x.2._count = 0 <;> simp [List.filter, h]

theorem statsL_inv (l : List (Nat × qvalue_t)) :
    (statsL l).2.2.1 = ((countedL l).map (fun x => x.2._count)).sum ∧
    (statsL l).2.2.2 = (countedL l).length ∧
    (countedL l = [] → (statsL l).1 = Dbl.pinf ∧ (statsL l).2.1 = Dbl.ninf) ∧
    (countedL l ≠ [] → ∃ lo hi : ℚ, (statsL l).1 = Dbl.fin lo ∧ (statsL l).2.1 = Dbl.fin hi ∧
      (∃ x ∈ countedL l, x.2._value = lo) ∧ (∀ x ∈ countedL l, lo ≤ x.2._value) ∧
      (∃ x ∈ countedL l, x.2._value = hi) ∧ (∀ x ∈ countedL l, x.2._value ≤ hi)) := by
  induction l using List.reverseRecOn with
  | nil => simp [statsL, countedL]
  | append_singleton l x ih =>
    obtain ⟨hsum, hlen, hnil, hcons⟩ := ih
    rw [statsL_snoc, countedL_snoc]
    by_cases hx : x.2._count = 0
    · have e : stats_step (statsL l) x.2 = statsL l := by simp [stats_step, hx]
      rw [e]
      simp only [hx, ne_eq, not_true_eq_false, if_false, List.append_nil]
      exact ⟨hsum, hlen, hnil, hcons⟩
    · have e : stats_step (statsL l) x.2 =
          (Dbl.min (statsL l).1 (Dbl.fin x.2._value), Dbl.max (statsL l).2.1 (Dbl.fin x.2._value),
            (statsL l).2.2.1 + x.2._count, (statsL l).2.2.2 + 1) := by
        simp [stats_step, hx]
      rw [e]
      simp only [ne_eq, hx, not_false_eq_true, if_true]
      refine ⟨?_, ?_, ?_, ?_⟩
      · simp [hsum]
      · simp [hlen]
      · intro h
        simp at h
      · intro _
        by_cases hc : countedL l = []
        · obtain ⟨h1, h2⟩ := hnil hc
          refine ⟨x.2._value, x.2._value, ?_, ?_, ?_⟩
          · simp [h1, Dbl.min, Dbl.lt]
          · simp [h2, Dbl.max, Dbl.lt]
          · simp [hc]
        · obtain ⟨lo, hi, h1, h2, ⟨r1, hr1, e1⟩, hlo, ⟨r2, hr2, e2⟩, hhi⟩ := hcons hc
          refine ⟨if x.2._value < lo then x.2._value else lo,
            if hi < x.2._value then x.2._value else hi, ?_, ?_, ?_, ?_, ?_, ?_⟩
          · simp only [h1, Dbl.min, Dbl.lt]
            split_ifs <;> simp_all
          · simp only [h2, Dbl.max, Dbl.lt]
            split_ifs <;> simp_all
          · split_ifs with h
            · exact ⟨x, by simp, rfl⟩
            · exact ⟨r1, by simp [hr1], e1⟩
          · intro r hr
            rcases List.mem_append.1 hr with h | h
            · have := hlo r h
              split_ifs with h3
              · linarith
              · exact this
            · rw [List.mem_singleton.1 h]
              split_ifs with h3
              · exact le_refl _
              · exact not_lt.1 h3
          · split_ifs with h
            · exact ⟨x, by simp, rfl⟩
            · exact ⟨r2, by simp [hr2], e2⟩
          · intro r hr
            rcases List.mem_append.1 hr with h | h
            · have := hhi r h
              split_ifs with h3
              · linarith
              · exact this
            · rw [List.mem_singleton.1 h]
              split_ifs with h3
              · exact le_refl _
              · exact not_lt.1 h3

end QLearner

namespace QLearner

theorem search_statistics_eq_statsL (q : QLearner) (d c : Option (List ℚ)) :
    q.search_statistics d c = statsL (q.counted_src (q.make_state d c)) := by
  cases h : q._Q.find (q.make_state d c) with
  | none => simp [search_statistics, counted_src, h, statsL, OMap.empty]
  | some t => simp [search_statistics, counted_src, h, statsL]

theorem counted_eq_countedL (q : QLearner) (s : qstate_t) :
    q.counted s = countedL (q.counted_src s) := rfl

theorem mem_counted_iff (q : QLearner) (s : qstate_t) (a : Nat) (r : qvalue_t) :
    (a, r) ∈ q.counted s ↔ q.record s a = some r ∧ 0 < r._count := by
  unfold counted counted_src record
  cases h : q._Q.find s with
  | none => simp [OMap.empty]
  | some t =>
    simp only [Option.getD_some, List.mem_filter, Option.some_bind, OMap.find_iff_mem,
      decide_eq_true_eq, Nat.pos_iff_ne_zero]

theorem length_le_sum_counts (l : List (Nat × qvalue_t)) (h : ∀ x ∈ l, x.2._count ≠ 0) :
    l.length ≤ (l.map (fun x => x.2._count)).sum := by
  induction l with
  | nil => simp
  | cons hd tl ih =>
    have h1 := h hd (List.mem_cons_self _ _)
    have h2 := ih (fun x hx => h x (List.mem_cons_of_mem _ hx))
    simp only [List.length_cons, List.map_cons, List.sum_cons]
    omega

end QLearner

/-! ## Classification of pairs and marking -/

namespace QLearner

theorem is_allowed_fst (q : QLearner) (d c : Option (List ℚ)) (a : Nat) :
    (q.is_allowed d c a).1 = true ↔
      ((q.value d c a)._uncover = false ∧ 0 < (q.value d c a)._count ∧
        (q.value d c a)._value = (q.best_value d c)._value) := by
  unfold is_allowed
  by_cases hu : (q.value d c a)._uncover = true
  · simp [hu]
  · by_cases hc : 0 < (q.value d c a)._count ∧ (q.value d c a)._value = (q.best_value d c)._value
    · simp [hu, hc]
    · have hc2 : ¬ (decide ((q.value d c a)._count > 0) &&
          decide ((q.value d c a)._value = (q.best_value d c)._value)) = true := by
        simpa using hc
      simp only [hu, hc2, if_false, Bool.false_eq_true]
      constructor
      · intro h
        split_ifs at h
      · intro h
        exact absurd ⟨h.2.1, h.2.2⟩ hc

theorem record_of_value_count (q : QLearner) (d c : Option (List ℚ)) (a : Nat)
    (h : 0 < (q.value d c a)._count) : q.record (q.make_state d c) a = some (q.value d c a) := by
  rw [value_eq_record] at h ⊢
  cases hr : q.record (q.make_state d c) a with
  | none => rw [hr] at h; simp at h
  | some r => simp

theorem mark_of_not_allowed (q : QLearner) (d c : Option (List ℚ)) (a : Nat)
    (h : (q.is_allowed d c a).1 = false) : q.mark d c a = q := by
  unfold mark
  simp [h]

theorem mark_of_allowed (q : QLearner) (d c : Option (List ℚ)) (a : Nat)
    (h : (q.is_allowed d c a).1 = true) :
    q.mark d c a = q.store (q.make_state d c) a { q.value d c a with _select := true } := by
  have hc := ((is_allowed_fst q d c a).1 h).2.1
  have hr := record_of_value_count q d c a hc
  obtain ⟨t, ht, hta⟩ := (record_eq_some_iff q _ a _).1 hr
  unfold mark store slot
  simp [h, ht, hta]

theorem mark_of_unvisited (q : QLearner) (d c : Option (List ℚ)) (a : Nat)
    (h : ∀ b r, q.record (q.make_state d c) b = some r → r._count = 0) : q.mark d c a = q := by
  apply mark_of_not_allowed
  cases hal : (q.is_allowed d c a).1 with
  | false => rfl
  | true =>
    have hc := ((is_allowed_fst q d c a).1 hal).2.1
    have hr := record_of_value_count q d c a hc
    have := h a _ hr
    omega

theorem search_statistics_of_unvisited (q : QLearner) (d c : Option (List ℚ))
    (h : ∀ b r, q.record (q.make_state d c) b = some r → r._count = 0) :
    q.search_statistics d c = (Dbl.pinf, Dbl.ninf, 0, 0) := by
  have hc : q.counted (q.make_state d c) = [] := by
    apply List.eq_nil_iff_forall_not_mem.2
    rintro ⟨a, r⟩ hmem
    have h1 := (mem_counted_iff q _ a r).1 hmem
    have := h a r h1.1
    omega
  have hinv := statsL_inv (q.counted_src (q.make_state d c))
  rw [← search_statistics_eq_statsL, ← counted_eq_countedL, hc] at hinv
  obtain ⟨hsum, hlen, hnil, _⟩ := hinv
  obtain ⟨h1, h2⟩ := hnil rfl
  simp only [List.map_nil, List.sum_nil] at hsum
  simp only [List.length_nil] at hlen
  ext
  · exact h1
  · exact h2
  · exact hsum
  · exact hlen

end QLearner

/-- C10: for every state without a record of positive count (never visited),
`search_statistics` returns (+infinity, -infinity, 0, 0), and the training-mode
query (`is_eval = false`) returns 0 for every action at that state, whatever the
math library and whether the learner is learning or frozen. -/
theorem never_visited_statistics (m : Libm) (q : QLearner) (d c : Option (List ℚ)) (a : Nat)
    (h : ∀ b r, q.record (q.make_state d c) b = some r → r._count = 0) :
    q.search_statistics d c = (Dbl.pinf, Dbl.ninf, 0, 0) ∧
    (uppaal_external_learner_predict m q false a d c).1 = Dbl.fin 0 := by
  have hs := QLearner.search_statistics_of_unvisited q d c h
  refine ⟨hs, ?_⟩
  unfold uppaal_external_learner_predict
  simp only [QLearner.mark_of_unvisited q d c a h, ite_self, hs, Bool.false_eq_true, if_false,
    if_true]

/-- C10, at a concrete table: state `[1]` of `tieLearner` was never visited
(only state `[0]` was); its statistics are degenerate and the training-mode
query of action 0 returns 0. -/
theorem never_visited_statistics_witness :
    tieLearner.search_statistics (some [1]) none = (Dbl.pinf, Dbl.ninf, 0, 0) ∧
    (uppaal_external_learner_predict constLibm tieLearner false 0 (some [1]) none).1
      = Dbl.fin 0 :=
  never_visited_statistics constLibm tieLearner (some [1]) none 0 (by
    intro b r hr
    have hnone : tieLearner._Q.find (tieLearner.make_state (some [1]) none) = none := by decide!
    simp [QLearner.record, hnone] at hr)

namespace QLearner

theorem add_sample_eq_store (q : QLearner) (d c : Option (List ℚ)) (a : Nat)
    (td tc : Option (List ℚ)) (r : ℚ) :
    ∃ v n, q.add_sample d c a td tc r
      = q.store (q.make_state d c) a { q.value d c a with _value := v, _count := n } := by
  unfold add_sample
  simp only [slot_snd_eq_value]
  exact ⟨_, _, rfl⟩

theorem uncover_add_sample (q : QLearner) (d c : Option (List ℚ)) (a : Nat)
    (td tc : Option (List ℚ)) (r : ℚ) (d1 c1 : Option (List ℚ)) (a1 : Nat)
    (h : (q.value d1 c1 a1)._uncover = true) :
    ((q.add_sample d c a td tc r).value d1 c1 a1)._uncover = true := by
  obtain ⟨v, n, e⟩ := add_sample_eq_store q d c a td tc r
  rw [e]
  by_cases hp : q.make_state d1 c1 = q.make_state d c ∧ a1 = a
  · obtain ⟨hs, ha⟩ := hp
    rw [value_eq_record, make_state_store, hs, ha, record_store_self]
    simp only [Option.getD_some]
    have hv : q.value d1 c1 a1 = q.value d c a := by
      rw [value_eq_record, value_eq_record, hs, ha]
    rw [← hv]
    exact h
  · have hne : q.make_state d1 c1 ≠ q.make_state d c ∨ a1 ≠ a := by
      by_cases hs : q.make_state d1 c1 = q.make_state d c
      · right; exact fun ha => hp ⟨hs, ha⟩
      · left; exact hs
    rw [value_eq_record, make_state_store, record_store_ne _ _ _ _ _ _ hne, ← value_eq_record]
    exact h

theorem uncover_add_samples (q : QLearner) (l : List Sample) (d1 c1 : Option (List ℚ)) (a1 : Nat)
    (h : (q.value d1 c1 a1)._uncover = true) :
    ((q.add_samples l).value d1 c1 a1)._uncover = true := by
  induction l generalizing q with
  | nil => exact h
  | cons x tl ih =>
    simp only [add_samples, List.foldl_cons] at ih ⊢
    exact ih _ (uncover_add_sample q _ _ _ _ _ _ d1 c1 a1 h)

theorem is_allowed_of_uncover (q : QLearner) (d c : Option (List ℚ)) (a : Nat)
    (h : (q.value d c a)._uncover = true) : q.is_allowed d c a = (false, true) := by
  unfold is_allowed
  simp [h]

end QLearner

/-- C6: after `add_uncovered(state, action)`, whatever finite sequence of
`add_sample` calls follows (with any rewards and destinations, in particular
calls to other actions at that state), `is_allowed(state, action)` returns
`allowed = false` with `found = true`. -/
theorem uncovered_stays_disallowed (q : QLearner) (d c : Option (List ℚ)) (a : Nat)
    (l : List Sample) :
    ((q.add_uncovered d c a).add_samples l).is_allowed d c a = (false, true) := by
  apply QLearner.is_allowed_of_uncover
  apply QLearner.uncover_add_samples
  unfold QLearner.add_uncovered
  rw [QLearner.value_store_self]

/-- C6, at a concrete sequence: after registering action 0 of state `[0]` as
uncovered, samples of action 1 at that state (one terminal, one looping back to
the state) leave action 0 disallowed. -/
theorem uncovered_stays_disallowed_witness :
    (((QLearner.new true 1 0).add_uncovered (some [0]) none 0).add_samples
        [⟨some [0], none, 1, none, none, 3⟩, ⟨some [0], none, 1, some [0], none, -40000⟩]).is_allowed
      (some [0]) none 0 = (false, true) :=
  uncovered_stays_disallowed (QLearner.new true 1 0) (some [0]) none 0
    [⟨some [0], none, 1, none, none, 3⟩, ⟨some [0], none, 1, some [0], none, -40000⟩]

namespace OMap

variable {K V : Type} [LinearOrder K]

theorem insertL_forall2 (R : V → V → Prop) (hR : ∀ v, R v v) (k : K) (v v' : V)
    (l : List (K × V)) (hl : l.Pairwise (fun a b => a.1 < b.1)) (hf : findL k l = some v)
    (hv : R v' v) :
    List.Forall₂ (fun x y => R x.2 y.2) (insertL k v' l) l := by
  induction l with
  | nil => simp [findL] at hf
  | cons hd tl ih =>
    obtain ⟨k', w⟩ := hd
    rw [List.pairwise_cons] at hl
    have hrefl : List.Forall₂ (fun x y : K × V => R x.2 y.2) tl tl :=
      List.forall₂_same.2 (fun x _ => hR x.2)
    simp only [insertL]
    simp only [findL] at hf
    split_ifs with h1 h2
    · exfalso
      rw [if_neg (ne_of_gt h1)] at hf
      have hm := mem_of_findL k v tl hf
      exact lt_asymm h1 (hl.1 (k, v) hm)
    · rw [if_neg (ne_of_lt h2)] at hf
      exact List.Forall₂.cons (hR w) (ih hl.2 hf)
    · have hk : k' = k := le_antisymm (not_lt.1 h1) (not_lt.1 h2)
      rw [if_pos hk] at hf
      simp only [Option.some.injEq] at hf
      refine List.Forall₂.cons ?_ hrefl
      simp only
      rw [hf]
      exact hv

end OMap

namespace QLearner

theorem best_step_same (m : Bool) (b b' o o' : qvalue_t) (hb : sameEstimate b b')
    (ho : sameEstimate o o') : sameEstimate (best_step m b o) (best_step m b' o') := by
  obtain ⟨hb1, hb2⟩ := hb
  obtain ⟨ho1, ho2⟩ := ho
  unfold best_step
  rw [hb2, ho2]
  by_cases h0 : o'._count = 0
  · simp only [h0, if_true]
    exact ⟨hb1, hb2⟩
  · simp only [h0, if_false]
    by_cases hbc : b'._count = 0
    · simp only [hbc, if_true, ho1]
      cases m <;> simp [sameEstimate, ho1, ho2]
    · simp only [hbc, if_false, ho1, hb1]
      cases m <;> simp only [Bool.true_and, Bool.false_and, Bool.not_true, Bool.not_false,
        Bool.false_eq_true, if_false, decide_eq_true_eq] <;> split_ifs <;>
        simp [sameEstimate, ho1, ho2, hb1, hb2]

theorem foldl_best_same (m : Bool) (l l' : List (Nat × qvalue_t))
    (h : List.Forall₂ (fun x y => sameEstimate x.2 y.2) l l') (b b' : qvalue_t)
    (hb : sameEstimate b b') :
    sameEstimate (l.foldl (fun best other => best_step m best other.2) b)
      (l'.foldl (fun best other => best_step m best other.2) b') := by
  induction h generalizing b b' with
  | nil => exact hb
  | cons hxy _ ih =>
    simp only [List.foldl_cons]
    exact ih _ _ (best_step_same m _ _ _ _ hb hxy)

theorem best_value_store_same (q : QLearner) (d c : Option (List ℚ)) (a : Nat) (r r' : qvalue_t)
    (hr : q.record (q.make_state d c) a = some r) (hs : sameEstimate r' r) :
    sameEstimate ((q.store (q.make_state d c) a r').best_value d c) (q.best_value d c) := by
  obtain ⟨t, ht, hta⟩ := (record_eq_some_iff q _ a r).1 hr
  have e1 : (q.store (q.make_state d c) a r').best_value d c
      = best_of q._is_minimization (t.insert a r') := by
    unfold best_value
    rw [make_state_store]
    simp [store, slot, ht, OMap.find_insert_self]
  have e2 : q.best_value d c = best_of q._is_minimization t := by
    simp [best_value, ht]
  rw [e1, e2]
  unfold best_of
  apply foldl_best_same
  · exact OMap.insertL_forall2 sameEstimate (fun v => ⟨rfl, rfl⟩) a r r' t.entries t.sorted hta hs
  · exact ⟨rfl, rfl⟩

theorem is_allowed_eq (q : QLearner) (d c : Option (List ℚ)) (a : Nat) :
    q.is_allowed d c a =
      if (q.value d c a)._uncover = true then (false, true)
      else if (decide ((q.value d c a)._count > 0) &&
          decide ((q.value d c a)._value = (q.best_value d c)._value)) = true then (true, true)
      else if (q.best_value d c)._count = 0 then (false, false)
      else (false, true) := rfl

theorem is_allowed_mark (q : QLearner) (d c : Option (List ℚ)) (a : Nat) :
    (q.mark d c a).is_allowed d c a = q.is_allowed d c a := by
  cases hal : (q.is_allowed d c a).1 with
  | false => rw [mark_of_not_allowed q d c a hal]
  | true =>
    have hc := ((is_allowed_fst q d c a).1 hal).2.1
    have hr := record_of_value_count q d c a hc
    have hb := best_value_store_same q d c a (q.value d c a)
      { q.value d c a with _select := true } hr ⟨rfl, rfl⟩
    rw [mark_of_allowed q d c a hal]
    rw [is_allowed_eq, is_allowed_eq, value_store_self, hb.1, hb.2]

end QLearner

/-- C8: `mark(state, action)` changes at most the select flag of the addressed
pair.  If `is_allowed` reports true, the pair is stored and its record
afterwards is the old one with select set; if it reports false the learner is
unchanged.  In both cases every other pair keeps its record, the stored pairs
and the stored states are the same before and after (no entry is created), and
no value, count or uncover field changes. -/
theorem mark_sets_select_only (q : QLearner) (d c : Option (List ℚ)) (a : Nat) :
    ((q.is_allowed d c a).1 = true →
      ∃ r, q.record (q.make_state d c) a = some r ∧
        (q.mark d c a).record (q.make_state d c) a = some { r with _select := true }) ∧
    ((q.is_allowed d c a).1 = false → q.mark d c a = q) ∧
    (∀ s b, (s ≠ q.make_state d c ∨ b ≠ a) → (q.mark d c a).record s b = q.record s b) ∧
    (∀ s b, ((q.mark d c a).record s b).isSome = (q.record s b).isSome) ∧
    (∀ s, ((q.mark d c a)._Q.find s).isSome = (q._Q.find s).isSome) ∧
    (∀ s b, ((q.mark d c a).record s b).map (fun r => (r._value, r._count, r._uncover))
      = (q.record s b).map (fun r => (r._value, r._count, r._uncover))) := by
  cases hal : (q.is_allowed d c a).1 with
  | false =>
    have e := QLearner.mark_of_not_allowed q d c a hal
    rw [e]
    simp
  | true =>
    have hc := ((QLearner.is_allowed_fst q d c a).1 hal).2.1
    have hr := QLearner.record_of_value_count q d c a hc
    have e := QLearner.mark_of_allowed q d c a hal
    have hne : ∀ s b, (s ≠ q.make_state d c ∨ b ≠ a) →
        (q.mark d c a).record s b = q.record s b := by
      intro s b h
      rw [e]
      exact QLearner.record_store_ne q _ s a b _ h
    have hself : (q.mark d c a).record (q.make_state d c) a
        = some { q.value d c a with _select := true } := by
      rw [e, QLearner.record_store_self]
    refine ⟨fun _ => ⟨q.value d c a, hr, hself⟩, fun h => by simp at h, hne, ?_, ?_, ?_⟩
    · intro s b
      by_cases hp : s = q.make_state d c ∧ b = a
      · rw [hp.1, hp.2, hself, hr]
        rfl
      · have : s ≠ q.make_state d c ∨ b ≠ a := by
          by_cases hs : s = q.make_state d c
          · right; exact fun hb => hp ⟨hs, hb⟩
          · left; exact hs
        rw [hne s b this]
    · intro s
      rw [e]
      by_cases hs : s = q.make_state d c
      · obtain ⟨t, ht, _⟩ := (QLearner.record_eq_some_iff q _ a _).1 hr
        rw [hs]
        simp [QLearner.store, OMap.find_insert_self, ht]
      · simp only [QLearner.store]
        rw [OMap.find_insert_ne _ _ _ _ hs]
    · intro s b
      by_cases hp : s = q.make_state d c ∧ b = a
      · rw [hp.1, hp.2, hself, hr]
        rfl
      · have : s ≠ q.make_state d c ∨ b ≠ a := by
          by_cases hs : s = q.make_state d c
          · right; exact fun hb => hp ⟨hs, hb⟩
          · left; exact hs
        rw [hne s b this]

/-- C8, at concrete tables: in `oneLearner` the only sampled action is allowed
and `mark` sets its select flag; marking the unsampled action 1 changes nothing. -/
theorem mark_sets_select_only_witness :
    (∃ r, oneLearner.record (oneLearner.make_state (some [0]) none) 0 = some r ∧
      (oneLearner.mark (some [0]) none 0).record (oneLearner.make_state (some [0]) none) 0
        = some { r with _select := true }) ∧
    oneLearner.mark (some [0]) none 1 = oneLearner ∧
    (oneLearner.mark (some [0]) none 0).record (oneLearner.make_state (some [0]) none) 0
      = some { _value := 5, _count := 1, _select := true, _uncover := false } :=
  ⟨(mark_sets_select_only oneLearner (some [0]) none 0).1 (by decide!),
   (mark_sets_select_only oneLearner (some [0]) none 1).2.1 (by decide!),
   by decide!⟩

/-! ## State keys -/

theorem trunc_intCast (n : Int) : trunc (n : ℚ) = (n : ℚ) := by
  simp [trunc]

theorem trunc_trunc (x : ℚ) : trunc (trunc x) = trunc x := by
  conv_lhs => rw [trunc]
  conv_rhs => rw [trunc]
  have h := trunc_intCast (Int.tdiv x.num (x.den : Int))
  unfold trunc at h ⊢
  exact h

theorem map_range_getD_map (n : Nat) (f : Nat → ℚ) (g : ℚ → ℚ) (hg : ∀ x, g (g x) = g x) :
    (List.range n).map (fun i => g (((List.range n).map (fun j => g (f j))).getD i 0))
      = (List.range n).map (fun j => g (f j)) := by
  apply List.map_congr_left
  intro i hi
  have hi2 : i < n := List.mem_range.1 hi
  rw [List.getD_eq_getElem _ _ (by simpa using hi2)]
  simp [hg]

/-- C14: truncation is idempotent.  For every learner, discrete pointer `d` and
continuous vector `v`, `make_state(d, c1)` with `c1` the continuous half of
`make_state(d, v)` is `make_state(d, v)` again; and for a discrete vector of the
declared size the discrete half of the key is that vector itself, both times. -/
theorem make_state_idempotent (q : QLearner) (d : Option (List ℚ)) (v : List ℚ)
    (dv : List ℚ) (hd : dv.length = q._d_size) :
    q.make_state d (some (ofLex (q.make_state d (some v))).2) = q.make_state d (some v) ∧
    (ofLex (q.make_state (some dv) (some v))).1 = dv ∧
    (ofLex (q.make_state (some dv) (some (ofLex (q.make_state (some dv) (some v))).2))).1 = dv := by
  have hdv : (List.range q._d_size).map (fun i => dv.getD i 0) = dv := by
    apply List.ext_getElem
    · simp [hd]
    · intro i h1 h2
      simp [List.getElem?_eq_getElem h2]
  refine ⟨?_, ?_, ?_⟩
  · unfold QLearner.make_state
    simp only [ofLex_toLex]
    congr 1
    rw [map_range_getD_map q._c_size (fun j => v.getD j 0) trunc trunc_trunc]
  · simp only [QLearner.make_state, ofLex_toLex]
    exact hdv
  · simp only [QLearner.make_state, ofLex_toLex]
    exact hdv

/-- C14, at a concrete input: with sizes 2 and 3, the vectors `[4, 7]` and
`[5/2, -7/2, 3]` give the key with continuous half `[2, -3, 3]`, and making a
state from that half again gives the same key. -/
theorem make_state_idempotent_witness :
    (QLearner.new true 2 3).make_state (some [4, 7]) (some [5 / 2, -7 / 2, 3])
      = toLex ([4, 7], [2, -3, 3]) ∧
    ((QLearner.new true 2 3).make_state (some [4, 7])
        (some (ofLex ((QLearner.new true 2 3).make_state (some [4, 7])
          (some [5 / 2, -7 / 2, 3]))).2)
      = (QLearner.new true 2 3).make_state (some [4, 7]) (some [5 / 2, -7 / 2, 3]) ∧
    (ofLex ((QLearner.new true 2 3).make_state (some [4, 7]) (some [5 / 2, -7 / 2, 3]))).1
      = [4, 7] ∧
    (ofLex ((QLearner.new true 2 3).make_state (some [4, 7])
        (some (ofLex ((QLearner.new true 2 3).make_state (some [4, 7])
          (some [5 / 2, -7 / 2, 3]))).2))).1 = [4, 7]) :=
  ⟨by decide!, make_state_idempotent (QLearner.new true 2 3) (some [4, 7]) [5 / 2, -7 / 2, 3]
    [4, 7] rfl⟩

/-! ## Effect of the operations on the stored records -/

namespace QLearner

theorem value_add_sample (q : QLearner) (d c : Option (List ℚ)) (a : Nat)
    (td tc : Option (List ℚ)) (r : ℚ) :
    (q.add_sample d c a td tc r).value d c a =
      { q.value d c a with
        _value :=
          if (q.value d c a)._count = 0 then r + 99 / 100 * (q.best_value td tc)._value
          else (q.value d c a)._value +
            learning_rate (q.value d c a)._count *
              (r + 99 / 100 * (q.best_value td tc)._value - (q.value d c a)._value),
        _count := (q.value d c a)._count + 1 } := by
  unfold add_sample
  simp only [value_store_self, slot_snd_eq_value, learning_rate]

theorem add_sample_Q (q : QLearner) (d c : Option (List ℚ)) (a : Nat)
    (td tc : Option (List ℚ)) (r : ℚ) :
    q.add_sample d c a td tc r
      = q.store (q.make_state d c) a ((q.add_sample d c a td tc r).value d c a) := by
  obtain ⟨v, n, e⟩ := add_sample_eq_store q d c a td tc r
  rw [e, value_store_self]

theorem record_congr (q1 q2 : QLearner) (h : q1._Q = q2._Q) (s : qstate_t) (b : Nat) :
    q1.record s b = q2.record s b := by
  unfold record
  rw [h]

theorem record_store_isSome (q : QLearner) (s s' : qstate_t) (a a' : Nat) (r : qvalue_t)
    (h : (q.record s' a').isSome = true) : ((q.store s a r).record s' a').isSome = true := by
  by_cases hp : s' = s ∧ a' = a
  · rw [hp.1, hp.2, record_store_self]
    rfl
  · have hne : s' ≠ s ∨ a' ≠ a := by
      by_cases hs : s' = s
      · right; exact fun ha => hp ⟨hs, ha⟩
      · left; exact hs
    rw [record_store_ne q s s' a a' r hne]
    exact h

theorem mark_eq_or_store (q : QLearner) (d c : Option (List ℚ)) (a : Nat) :
    q.mark d c a = q ∨
    ((q.is_allowed d c a).1 = true ∧
      q.record (q.make_state d c) a = some (q.value d c a) ∧
      q.mark d c a = q.store (q.make_state d c) a { q.value d c a with _select := true }) := by
  cases hal : (q.is_allowed d c a).1 with
  | false => left; exact mark_of_not_allowed q d c a hal
  | true =>
    right
    have hc := ((is_allowed_fst q d c a).1 hal).2.1
    exact ⟨rfl, record_of_value_count q d c a hc, mark_of_allowed q d c a hal⟩

theorem predict_snd_Q (m : Libm) (q : QLearner) (e : Bool) (a : Nat) (d c : Option (List ℚ)) :
    (uppaal_external_learner_predict m q e a d c).2._Q
      = (if q.learning then q else q.mark d c a)._Q := by
  unfold uppaal_external_learner_predict
  cases hl : q.learning <;> cases e <;> simp only [Bool.not_true, Bool.not_false, if_true,
    Bool.false_eq_true, if_false] <;> split_ifs <;> rfl

theorem print_snd_Q (q : QLearner) : q.print.2._Q = q._Q := by
  unfold print
  split_ifs <;> rfl

end QLearner

/-! ## The learning rate -/

namespace QLearner

theorem learning_rate_of_pos (c : Nat) (h : 1 ≤ c) : learning_rate c = 1 / 2 := by
  unfold learning_rate
  have h2 : (2 : ℚ) ≤ ((c + 1 : Nat) : ℚ) := by
    have : (2 : Nat) ≤ c + 1 := by omega
    exact_mod_cast this
  rw [min_eq_left h2]

theorem learning_rate_zero : learning_rate 0 = 1 := by
  unfold learning_rate
  norm_num

end QLearner

/-- C19 (as stated, refuted): the learning rate of the blended branch does not
get strictly smaller as the count grows: at the counts 1 and 2 it is 1/2 both
times. -/
theorem learning_rate_not_strictly_decreasing :
    ¬ (∀ c1 c2 : Nat, 1 ≤ c1 → c1 < c2 →
        QLearner.learning_rate c2 < QLearner.learning_rate c1) := by
  intro h
  have h1 := h 1 2 (le_refl 1) (by decide)
  rw [QLearner.learning_rate_of_pos 1 (le_refl 1), QLearner.learning_rate_of_pos 2 (by decide)]
    at h1
  exact lt_irrefl _ h1

/-- C19 (amended): the step size is capped, not decaying.  The learning rate
`1 / min(alpha, count + 1)` that `add_sample` applies in its blended branch (the
branch taken when the count of the pair is not zero) never grows with the
count, and it is the constant 1/2 for every count from 1 on, so that for all
counts `1 <= c1 < c2` the two rates are equal. -/
theorem learning_rate_constant :
    (∀ (q : QLearner) (d c : Option (List ℚ)) (a : Nat) (td tc : Option (List ℚ)) (r : ℚ),
      (q.value d c a)._count ≠ 0 →
      ((q.add_sample d c a td tc r).value d c a)._value =
        (q.value d c a)._value +
          QLearner.learning_rate (q.value d c a)._count *
            (r + 99 / 100 * (q.best_value td tc)._value - (q.value d c a)._value)) ∧
    (∀ c : Nat, QLearner.learning_rate c = 1 / min 2 ((c : ℚ) + 1)) ∧
    (∀ c1 c2 : Nat, c1 ≤ c2 → QLearner.learning_rate c2 ≤ QLearner.learning_rate c1) ∧
    (∀ c : Nat, 1 ≤ c → QLearner.learning_rate c = 1 / 2) ∧
    (∀ c1 c2 : Nat, 1 ≤ c1 → c1 < c2 →
      QLearner.learning_rate c2 = QLearner.learning_rate c1) := by
  refine ⟨?_, ?_, ?_, QLearner.learning_rate_of_pos, ?_⟩
  · intro q d c a td tc r h
    rw [QLearner.value_add_sample]
    simp only [h, if_false]
  · intro c
    unfold QLearner.learning_rate
    push_cast
    rfl
  · intro c1 c2 h
    rcases Nat.eq_zero_or_pos c1 with h0 | hpos
    · rw [h0, QLearner.learning_rate_zero]
      rcases Nat.eq_zero_or_pos c2 with h2 | h2
      · rw [h2, QLearner.learning_rate_zero]
      · rw [QLearner.learning_rate_of_pos c2 h2]
        norm_num
    · rw [QLearner.learning_rate_of_pos c1 hpos, QLearner.learning_rate_of_pos c2 (by omega)]
  · intro c1 c2 h1 h2
    rw [QLearner.learning_rate_of_pos c1 h1, QLearner.learning_rate_of_pos c2 (by omega)]

/-- C19 (amended), at a concrete table: the second and the third sample of a
pair are both blended with the rate 1/2: after the rewards 5, 1, 1 the values
are 5, 3 and 2. -/
theorem learning_rate_constant_witness :
    QLearner.learning_rate 1 = 1 / 2 ∧ QLearner.learning_rate 2 = 1 / 2 ∧
    ((oneLearner.add_sample (some [0]) none 0 none none 1).value (some [0]) none 0)._value = 3 ∧
    (((oneLearner.add_sample (some [0]) none 0 none none 1).add_sample
        (some [0]) none 0 none none 1).value (some [0]) none 0)._value = 2 :=
  ⟨learning_rate_constant.2.2.2.1 1 (le_refl 1), learning_rate_constant.2.2.2.1 2 (by decide),
   by decide!, by decide!⟩

/-! ## Frame of the operations -/

namespace QLearner

theorem step_record_isSome (m : Libm) (q : QLearner) (op : Op) (hop : op ≠ Op.clear_strategy)
    (s : qstate_t) (b : Nat) (h : (q.record s b).isSome = true) :
    ((step m q op).record s b).isSome = true := by
  have hmark : ∀ d c a, ((q.mark d c a).record s b).isSome = true := by
    intro d c a
    rcases mark_eq_or_store q d c a with e | ⟨_, _, e⟩
    · rw [e]; exact h
    · rw [e]; exact record_store_isSome q _ s _ b _ h
  cases op with
  | add_sample d c a td tc r =>
    simp only [step]
    rw [add_sample_Q]
    exact record_store_isSome q _ s _ b _ h
  | add_uncovered d c a =>
    simp only [step, add_uncovered]
    exact record_store_isSome q _ s _ b _ h
  | mark d c a => exact hmark d c a
  | print =>
    simp only [step]
    rw [record_congr _ q (print_snd_Q q)]
    exact h
  | query e a d c =>
    simp only [step]
    rw [record_congr _ _ (predict_snd_Q m q e a d c)]
    split_ifs
    · exact h
    · exact hmark d c a
  | clear_strategy => exact absurd rfl hop

end QLearner

/-- C17: `add_sample(s, a, t, r)` changes only the addressed record.  Every pair
stored before the call is stored after it, the record of every pair other than
`(s, a)` is unchanged, and the select and uncover flags of `(s, a)` are unchanged
(false when the record is new).  Moreover no operation other than
`clear_strategy` (add_sample, add_uncovered, mark, print, a query in either
mode) removes a stored pair. -/
theorem add_sample_frame :
    (∀ (q : QLearner) (d c : Option (List ℚ)) (a : Nat) (td tc : Option (List ℚ)) (r : ℚ),
      (∀ s b, (q.record s b).isSome = true →
        ((q.add_sample d c a td tc r).record s b).isSome = true) ∧
      (∀ s b, (s ≠ q.make_state d c ∨ b ≠ a) →
        (q.add_sample d c a td tc r).record s b = q.record s b) ∧
      ((q.add_sample d c a td tc r).record (q.make_state d c) a).isSome = true ∧
      ((q.add_sample d c a td tc r).value d c a)._select = (q.value d c a)._select ∧
      ((q.add_sample d c a td tc r).value d c a)._uncover = (q.value d c a)._uncover ∧
      (q.record (q.make_state d c) a = none →
        ((q.add_sample d c a td tc r).value d c a)._select = false ∧
        ((q.add_sample d c a td tc r).value d c a)._uncover = false)) ∧
    (∀ (m : Libm) (q : QLearner) (op : Op), op ≠ Op.clear_strategy →
      ∀ s b, (q.record s b).isSome = true → ((step m q op).record s b).isSome = true) := by
  refine ⟨?_, fun m q op hop s b h => QLearner.step_record_isSome m q op hop s b h⟩
  intro q d c a td tc r
  have hsel : ((q.add_sample d c a td tc r).value d c a)._select = (q.value d c a)._select := by
    rw [QLearner.value_add_sample]
  have hunc : ((q.add_sample d c a td tc r).value d c a)._uncover = (q.value d c a)._uncover := by
    rw [QLearner.value_add_sample]
  refine ⟨?_, ?_, ?_, hsel, hunc, ?_⟩
  · intro s b h
    rw [QLearner.add_sample_Q]
    exact QLearner.record_store_isSome q _ s _ b _ h
  · intro s b h
    rw [QLearner.add_sample_Q]
    exact QLearner.record_store_ne q _ s a b _ h
  · rw [QLearner.add_sample_Q, QLearner.record_store_self]
    rfl
  · intro hnone
    have hv : q.value d c a = {} := by
      rw [QLearner.value_eq_record, hnone]
      rfl
    rw [hsel, hunc, hv]
    exact ⟨rfl, rfl⟩

/-- C17, at a concrete table: a sample of the new action 3 at state `[0]` of
`tieLearner` creates a record with both flags false and leaves the record (2, 2)
of action 0 in place. -/
theorem add_sample_frame_witness :
    (((tieLearner.add_sample (some [0]) none 3 none none 9).value (some [0]) none 3)._select
        = false ∧
      ((tieLearner.add_sample (some [0]) none 3 none none 9).value (some [0]) none 3)._uncover
        = false) ∧
    (tieLearner.add_sample (some [0]) none 3 none none 9).record
        (tieLearner.make_state (some [0]) none) 0 = some { _value := 2, _count := 2 } :=
  ⟨(add_sample_frame.1 tieLearner (some [0]) none 3 none none 9).2.2.2.2.2 (by decide!),
   ((add_sample_frame.1 tieLearner (some [0]) none 3 none none 9).2.1 _ 0
      (Or.inr (by decide))).trans (by decide!)⟩

/-! ## Serialization and the learning flag -/

namespace QLearner

theorem mark_learning (q : QLearner) (d c : Option (List ℚ)) (a : Nat) :
    (q.mark d c a).learning = q.learning := by
  rcases mark_eq_or_store q d c a with e | ⟨_, _, e⟩
  · rw [e]
  · rw [e]; rfl

theorem predict_snd_cases (m : Libm) (q : QLearner) (e : Bool) (a : Nat)
    (d c : Option (List ℚ)) :
    (uppaal_external_learner_predict m q e a d c).2
        = (if (!q.learning) = true then q.mark d c a else q) ∨
    (uppaal_external_learner_predict m q e a d c).2
        = { (if (!q.learning) = true then q.mark d c a else q) with
            uncovered := (if (!q.learning) = true then q.mark d c a else q).uncovered ++
              [q.make_state d c] } := by
  unfold uppaal_external_learner_predict
  simp only []
  generalize (if (!q.learning) = true then q.mark d c a else q) = q1
  cases e
  · simp only [Bool.false_eq_true, if_false]
    left
    split_ifs <;> rfl
  · simp only [if_true]
    split_ifs
    · left; rfl
    · left; rfl
    · left; rfl
    · right; rfl
    · left; rfl

theorem predict_snd_learning (m : Libm) (q : QLearner) (e : Bool) (a : Nat)
    (d c : Option (List ℚ)) :
    (uppaal_external_learner_predict m q e a d c).2.learning = q.learning := by
  have hq1 : (if (!q.learning) = true then q.mark d c a else q).learning = q.learning := by
    split_ifs
    · exact mark_learning q d c a
    · rfl
  rcases predict_snd_cases m q e a d c with h | h
  · rw [h]; exact hq1
  · rw [h]; exact hq1

theorem step_learning_false (m : Libm) (q : QLearner) (op : Op) (h : q.learning = false) :
    (step m q op).learning = false := by
  cases op with
  | add_sample d c a td tc r => exact h
  | add_uncovered d c a => exact h
  | mark d c a => simp only [step]; rw [mark_learning]; exact h
  | print =>
    simp only [step, print]
    split_ifs <;> first | rfl | exact h
  | query e a d c => simp only [step]; rw [predict_snd_learning]; exact h
  | clear_strategy => exact h

theorem mem_complete_iff (q : QLearner) (s : qstate_t) (a : Nat) (v : ℚ) :
    (∃ acts, (s, acts) ∈ q.print_complete_score_table ∧ (a, v) ∈ acts) ↔
      ∃ r, q.record s a = some r ∧ r._value = v := by
  unfold print_complete_score_table
  constructor
  · rintro ⟨acts, hs, ha⟩
    obtain ⟨⟨s1, t⟩, hst, e⟩ := List.mem_map.1 hs
    simp only [Prod.mk.injEq] at e
    obtain ⟨e1, e2⟩ := e
    rw [← e2] at ha
    obtain ⟨⟨a1, r⟩, har, e3⟩ := List.mem_map.1 ha
    simp only [Prod.mk.injEq] at e3
    refine ⟨r, ?_, e3.2⟩
    rw [record_eq_some_iff]
    refine ⟨t, ?_, ?_⟩
    · rw [← e1]; exact (OMap.find_iff_mem _ _ _).2 hst
    · rw [← e3.1]; exact (OMap.find_iff_mem _ _ _).2 har
  · rintro ⟨r, hr, hv⟩
    obtain ⟨t, ht, hta⟩ := (record_eq_some_iff q s a r).1 hr
    refine ⟨t.entries.map (fun action_value => (action_value.1, action_value.2._value)), ?_, ?_⟩
    · exact List.mem_map.2 ⟨(s, t), (OMap.find_iff_mem _ _ _).1 ht, rfl⟩
    · exact List.mem_map.2 ⟨(a, r), (OMap.find_iff_mem _ _ _).1 hta, by simp [hv]⟩

theorem mem_rendered_uncovered (av : Nat × qvalue_t) (a : Nat) (v : ℚ) :
    (a, v) ∈ rendered_action false true av ↔ (av.2._uncover = true ∧ a = av.1 ∧ v = av.2._value) := by
  unfold rendered_action
  by_cases h : av.2._uncover = true <;> simp [h]

theorem mem_uncovered_iff (q : QLearner) (s : qstate_t) (a : Nat) (v : ℚ) :
    (∃ acts, (s, acts) ∈ q.print_partial_score_table false true ∧ (a, v) ∈ acts) ↔
      ∃ r, q.record s a = some r ∧ r._uncover = true ∧ r._value = v := by
  unfold print_partial_score_table
  constructor
  · rintro ⟨acts, hs, ha⟩
    obtain ⟨⟨s1, t⟩, hst, e⟩ := List.mem_map.1 hs
    simp only [Prod.mk.injEq] at e
    obtain ⟨e1, e2⟩ := e
    rw [← e2] at ha
    obtain ⟨l, hl, hal⟩ := List.mem_flatten.1 ha
    obtain ⟨⟨a1, r⟩, har, e3⟩ := List.mem_map.1 hl
    rw [← e3] at hal
    obtain ⟨hu, h1, h2⟩ := (mem_rendered_uncovered (a1, r) a v).1 hal
    simp only at hu h1 h2
    refine ⟨r, ?_, hu, h2.symm⟩
    rw [record_eq_some_iff]
    refine ⟨t, ?_, ?_⟩
    · rw [← e1]; exact (OMap.find_iff_mem _ _ _).2 (List.mem_filter.1 hst).1
    · rw [h1]; exact (OMap.find_iff_mem _ _ _).2 har
  · rintro ⟨r, hr, hu, hv⟩
    obtain ⟨t, ht, hta⟩ := (record_eq_some_iff q s a r).1 hr
    have hmem : (a, r) ∈ t.entries := (OMap.find_iff_mem _ _ _).1 hta
    refine ⟨(t.entries.map (rendered_action false true)).flatten, ?_, ?_⟩
    · refine List.mem_map.2 ⟨(s, t), List.mem_filter.2 ⟨(OMap.find_iff_mem _ _ _).1 ht, ?_⟩, rfl⟩
      unfold tagged
      rw [List.any_eq_true]
      exact ⟨(a, r), hmem, by simp [hu]⟩
    · refine List.mem_flatten.2 ⟨rendered_action false true (a, r),
        List.mem_map.2 ⟨(a, r), hmem, rfl⟩, ?_⟩
      exact (mem_rendered_uncovered (a, r) a v).2 ⟨hu, rfl, hv.symm⟩

theorem uncovered_rendering_nonempty (q : QLearner) (s : qstate_t) (acts : List (Nat × ℚ))
    (h : (s, acts) ∈ q.print_partial_score_table false true) : acts ≠ [] := by
  unfold print_partial_score_table at h
  obtain ⟨⟨s1, t⟩, hst, e⟩ := List.mem_map.1 h
  simp only [Prod.mk.injEq] at e
  have htag := (List.mem_filter.1 hst).2
  unfold tagged at htag
  rw [List.any_eq_true] at htag
  obtain ⟨av, hav, hflag⟩ := htag
  simp only [Bool.false_and, Bool.true_and, Bool.false_or] at hflag
  intro hnil
  have hmem : (av.1, av.2._value) ∈ acts := by
    rw [← e.2]
    refine List.mem_flatten.2 ⟨rendered_action false true av, List.mem_map.2 ⟨av, hav, rfl⟩, ?_⟩
    exact (mem_rendered_uncovered av av.1 av.2._value).2 ⟨hflag, rfl, rfl⟩
  rw [hnil] at hmem
  exact List.not_mem_nil _ hmem

end QLearner

/-- C13: the freeze transition of `print`.  On a learner with `learning = true`
it renders the full table (every stored state, in order, and for each stored
pair its action and value) and sets `learning = false`, leaving the table as it
is.  On a learner with `learning = false` it renders exactly the pairs flagged
uncover (the build of the header defines `CEG`), omits every state without such
a pair, renders nothing when no pair is flagged, and leaves the learner as it is.
No operation (add_sample, add_uncovered, mark, print, a query, clear_strategy)
sets `learning` back to true. -/
theorem print_freeze :
    (∀ q : QLearner, q.learning = true →
      q.print.2.learning = false ∧ q.print.2._Q = q._Q ∧
      q.print.1.map Prod.fst = q._Q.entries.map Prod.fst ∧
      (∀ s a v, (∃ acts, (s, acts) ∈ q.print.1 ∧ (a, v) ∈ acts) ↔
        ∃ r, q.record s a = some r ∧ r._value = v)) ∧
    (∀ q : QLearner, q.learning = false →
      q.print.2 = q ∧
      (∀ s a v, (∃ acts, (s, acts) ∈ q.print.1 ∧ (a, v) ∈ acts) ↔
        ∃ r, q.record s a = some r ∧ r._uncover = true ∧ r._value = v) ∧
      (∀ s acts, (s, acts) ∈ q.print.1 → acts ≠ []) ∧
      ((∀ s a r, q.record s a = some r → r._uncover = false) → q.print.1 = [])) ∧
    (∀ (m : Libm) (q : QLearner) (op : Op), q.learning = false →
      (step m q op).learning = false) := by
  refine ⟨?_, ?_, fun m q op h => QLearner.step_learning_false m q op h⟩
  · intro q h
    have e : q.print = (q.print_complete_score_table, { q with learning := false }) := by
      simp [QLearner.print, h]
    rw [e]
    refine ⟨rfl, rfl, ?_, fun s a v => QLearner.mem_complete_iff q s a v⟩
    simp [QLearner.print_complete_score_table]
  · intro q h
    have e : q.print = (q.print_partial_score_table false true, q) := by
      simp [QLearner.print, h]
    rw [e]
    refine ⟨rfl, fun s a v => QLearner.mem_uncovered_iff q s a v,
      fun s acts hm => QLearner.uncovered_rendering_nonempty q s acts hm, ?_⟩
    intro hnone
    apply List.eq_nil_iff_forall_not_mem.2
    rintro ⟨s, acts⟩ hm
    have hne := QLearner.uncovered_rendering_nonempty q s acts hm
    obtain ⟨⟨a, v⟩, hav⟩ := List.exists_mem_of_ne_nil acts hne
    obtain ⟨r, hr, hu, _⟩ := (QLearner.mem_uncovered_iff q s a v).1 ⟨acts, hm, hav⟩
    rw [hnone s a r hr] at hu
    exact Bool.false_ne_true hu

/-- C13, at concrete tables: the first `print` of `mixedLearner` renders both
actions of state `[0]` and freezes the learner, the second renders only the
uncovered action 0; the second `print` of `oneLearner`, which has no flagged
pair, renders nothing. -/
theorem print_freeze_witness :
    mixedLearner.print.2.learning = false ∧
    mixedLearner.print.1 = [(toLex ([0], []), [(0, -32767), (1, 3)])] ∧
    mixedLearner.print.2.print.1 = [(toLex ([0], []), [(0, -32767)])] ∧
    mixedLearner.print.2.print.2.learning = false ∧
    oneLearner.print.2.print.1 = [] :=
  ⟨(print_freeze.1 mixedLearner rfl).1, by decide!, by decide!,
   print_freeze.2.2 constLibm mixedLearner.print.2 Op.print (print_freeze.1 mixedLearner rfl).1,
   by decide!⟩

/-! ## Queries and the select flags -/

namespace QLearner

theorem mark_record_ne (q : QLearner) (d c : Option (List ℚ)) (a : Nat) (s : qstate_t) (b : Nat)
    (h : s ≠ q.make_state d c ∨ b ≠ a) : (q.mark d c a).record s b = q.record s b := by
  rcases mark_eq_or_store q d c a with e | ⟨_, _, e⟩
  · rw [e]
  · rw [e]; exact record_store_ne q _ s a b _ h

theorem mark_record_fields (q : QLearner) (d c : Option (List ℚ)) (a : Nat) (s : qstate_t)
    (b : Nat) :
    ((q.mark d c a).record s b).map (fun r => (r._value, r._count, r._uncover))
      = (q.record s b).map (fun r => (r._value, r._count, r._uncover)) := by
  rcases mark_eq_or_store q d c a with e | ⟨_, hr, e⟩
  · rw [e]
  · by_cases hp : s = q.make_state d c ∧ b = a
    · rw [e, hp.1, hp.2, record_store_self, hr]
      rfl
    · have hne : s ≠ q.make_state d c ∨ b ≠ a := by
        by_cases hs : s = q.make_state d c
        · right; exact fun hb => hp ⟨hs, hb⟩
        · left; exact hs
      rw [mark_record_ne q d c a s b hne]

end QLearner

/-- C18 (as stated, refuted): a training-mode query can change the table.  On
`frozenLearner` (a learner frozen by `print`, whose only record is the sampled
action 0 of state `[0]`) the query with `is_eval = false` for that action sets
the select flag of its record. -/
theorem training_query_marks_counterexample :
    ¬ (∀ (m : Libm) (q : QLearner) (a : Nat) (d c : Option (List ℚ)),
        (uppaal_external_learner_predict m q false a d c).2._Q = q._Q) := by
  intro h
  have h1 := h constLibm frozenLearner 0 (some [0]) none
  have h2 : ((uppaal_external_learner_predict constLibm frozenLearner false 0 (some [0])
      none).2.value (some [0]) none 0)._select = true := by decide!
  have h3 : (frozenLearner.value (some [0]) none 0)._select = false := by decide!
  have h4 : (uppaal_external_learner_predict constLibm frozenLearner false 0 (some [0])
      none).2.value (some [0]) none 0 = frozenLearner.value (some [0]) none 0 := by
    have hms : (uppaal_external_learner_predict constLibm frozenLearner false 0 (some [0])
        none).2.make_state (some [0]) none = frozenLearner.make_state (some [0]) none := by
      decide!
    rw [QLearner.value_eq_record, QLearner.value_eq_record, QLearner.record_congr _ _ h1, hms]
  rw [h4, h3] at h2
  exact Bool.false_ne_true h2

/-- C18 (amended): queries write flags only on a frozen learner, in either mode.
On a learner with `learning = true` a query, training or evaluation, leaves the
value table unchanged.  On a learner with `learning = false` a query in either
mode leaves the table as `mark(state, action)` leaves it: it may set the select
flag of the queried pair, the record of every other pair is unchanged, and no
value, count or uncover field changes. -/
theorem query_marks_when_frozen (m : Libm) (q : QLearner) (e : Bool) (a : Nat)
    (d c : Option (List ℚ)) :
    (q.learning = true → (uppaal_external_learner_predict m q e a d c).2._Q = q._Q) ∧
    (q.learning = false →
      (uppaal_external_learner_predict m q e a d c).2._Q = (q.mark d c a)._Q) ∧
    (∀ s b, (s ≠ q.make_state d c ∨ b ≠ a) →
      (uppaal_external_learner_predict m q e a d c).2.record s b = q.record s b) ∧
    (∀ s b, ((uppaal_external_learner_predict m q e a d c).2.record s b).map
        (fun r => (r._value, r._count, r._uncover))
      = (q.record s b).map (fun r => (r._value, r._count, r._uncover))) := by
  have hQ := QLearner.predict_snd_Q m q e a d c
  refine ⟨?_, ?_, ?_, ?_⟩
  · intro h
    rw [hQ, if_pos h]
  · intro h
    rw [hQ, if_neg (by simp [h])]
  · intro s b hne
    rw [QLearner.record_congr _ _ hQ]
    split_ifs
    · rfl
    · exact QLearner.mark_record_ne q d c a s b hne
  · intro s b
    rw [QLearner.record_congr _ _ hQ]
    split_ifs
    · rfl
    · exact QLearner.mark_record_fields q d c a s b

/-- C18 (amended), at concrete tables: a training-mode query of the sampled
action leaves `oneLearner` (still learning) as it is and sets the select flag in
`frozenLearner`. -/
theorem query_marks_when_frozen_witness :
    (uppaal_external_learner_predict constLibm oneLearner false 0 (some [0]) none).2._Q
      = oneLearner._Q ∧
    (uppaal_external_learner_predict constLibm frozenLearner false 0 (some [0]) none).2._Q
      = (frozenLearner.mark (some [0]) none 0)._Q ∧
    (uppaal_external_learner_predict constLibm frozenLearner false 0 (some [0]) none).2.record
        (frozenLearner.make_state (some [0]) none) 0
      = some { _value := 5, _count := 1, _select := true, _uncover := false } :=
  ⟨(query_marks_when_frozen constLibm oneLearner false 0 (some [0]) none).1 rfl,
   (query_marks_when_frozen constLibm frozenLearner false 0 (some [0]) none).2.1 (by decide!),
   by decide!⟩

/-! ## Reachable tables and the uncovered records -/

namespace QLearner

theorem step_make_state (m : Libm) (q : QLearner) (op : Op) (d c : Option (List ℚ)) :
    (step m q op).make_state d c = q.make_state d c := by
  have hmark : ∀ d1 c1 a1, (q.mark d1 c1 a1).make_state d c = q.make_state d c := by
    intro d1 c1 a1
    rcases mark_eq_or_store q d1 c1 a1 with e | ⟨_, _, e⟩
    · rw [e]
    · rw [e]; rfl
  cases op with
  | add_sample d1 c1 a1 td tc r => rfl
  | add_uncovered d1 c1 a1 => rfl
  | mark d1 c1 a1 => exact hmark d1 c1 a1
  | print =>
    simp only [step, print]
    split_ifs <;> rfl
  | query e a1 d1 c1 =>
    simp only [step]
    rcases predict_snd_cases m q e a1 d1 c1 with h | h
    · rw [h]
      split_ifs
      · exact hmark d1 c1 a1
      · rfl
    · rw [h]
      show (if (!q.learning) = true then q.mark d1 c1 a1 else q).make_state d c = _
      split_ifs
      · exact hmark d1 c1 a1
      · rfl
  | clear_strategy => rfl

theorem record_new (is_min : Bool) (dsz csz : Nat) (s : qstate_t) (a : Nat) :
    (QLearner.new is_min dsz csz).record s a = none := rfl

theorem uncoverInv_store (q : QLearner) (s : qstate_t) (a : Nat) (r : qvalue_t)
    (h : q.uncoverInv) (hr : r._uncover = true → r._select = false ∧ 1 ≤ r._count) :
    (q.store s a r).uncoverInv := by
  intro s1 a1 r1 h1 hu
  by_cases hp : s1 = s ∧ a1 = a
  · rw [hp.1, hp.2, record_store_self] at h1
    rw [← Option.some.inj h1]
    rw [← Option.some.inj h1] at hu
    exact hr hu
  · have hne : s1 ≠ s ∨ a1 ≠ a := by
      by_cases hs : s1 = s
      · right; exact fun ha => hp ⟨hs, ha⟩
      · left; exact hs
    rw [record_store_ne q s s1 a a1 r hne] at h1
    exact h s1 a1 r1 h1 hu

theorem uncoverInv_congr (q1 q2 : QLearner) (hQ : q1._Q = q2._Q) (h : q2.uncoverInv) :
    q1.uncoverInv := by
  intro s a r hr hu
  rw [record_congr q1 q2 hQ] at hr
  exact h s a r hr hu

theorem value_uncover_stored (q : QLearner) (d c : Option (List ℚ)) (a : Nat)
    (hu : (q.value d c a)._uncover = true) :
    q.record (q.make_state d c) a = some (q.value d c a) := by
  rw [value_eq_record] at hu ⊢
  cases hr : q.record (q.make_state d c) a with
  | none => rw [hr] at hu; exact absurd hu (by decide)
  | some r => rfl

theorem uncoverInv_mark (q : QLearner) (d c : Option (List ℚ)) (a : Nat) (h : q.uncoverInv) :
    (q.mark d c a).uncoverInv := by
  rcases mark_eq_or_store q d c a with e | ⟨hal, _, e⟩
  · rw [e]; exact h
  · rw [e]
    apply uncoverInv_store q _ _ _ h
    intro hu
    have h1 := ((is_allowed_fst q d c a).1 hal).1
    simp only at hu
    rw [h1] at hu
    exact absurd hu (by decide)

theorem uncoverInv_step (m : Libm) (q : QLearner) (op : Op) (h : q.uncoverInv) :
    (step m q op).uncoverInv := by
  cases op with
  | add_sample d c a td tc r =>
    simp only [step]
    rw [add_sample_Q]
    apply uncoverInv_store q _ _ _ h
    intro hu
    rw [value_add_sample] at hu ⊢
    simp only at hu ⊢
    have hst := value_uncover_stored q d c a hu
    exact ⟨(h _ _ _ hst hu).1, by omega⟩
  | add_uncovered d c a =>
    simp only [step, add_uncovered]
    apply uncoverInv_store q _ _ _ h
    intro _
    exact ⟨rfl, le_refl 1⟩
  | mark d c a => exact uncoverInv_mark q d c a h
  | print => exact uncoverInv_congr _ q (print_snd_Q q) h
  | query e a d c =>
    apply uncoverInv_congr _ _ (predict_snd_Q m q e a d c)
    split_ifs
    · exact h
    · exact uncoverInv_mark q d c a h
  | clear_strategy =>
    intro s a r hr
    exact absurd hr (by simp [step, clear_strategy, record, OMap.find_empty])

theorem uncoverInv_run (m : Libm) (q : QLearner) (ops : List Op) (h : q.uncoverInv) :
    (run m q ops).uncoverInv := by
  induction ops generalizing q with
  | nil => exact h
  | cons op tl ih =>
    simp only [run, List.foldl_cons] at ih ⊢
    exact ih _ (uncoverInv_step m q op h)

theorem sentinel_step (m : Libm) (q : QLearner) (op : Op) (s : qstate_t) (a : Nat)
    (hop : Op.resets q s a op = false) (h : q.record s a = some sentinel) :
    (step m q op).record s a = some sentinel := by
  have hmark : ∀ d1 c1 a1, (q.mark d1 c1 a1).record s a = some sentinel := by
    intro d1 c1 a1
    rcases mark_eq_or_store q d1 c1 a1 with e | ⟨hal, _, e⟩
    · rw [e]; exact h
    · have hne : s ≠ q.make_state d1 c1 ∨ a ≠ a1 := by
        by_contra hcon
        push_neg at hcon
        have hv : q.value d1 c1 a1 = sentinel := by
          rw [value_eq_record, ← hcon.1, ← hcon.2, h]
          rfl
        have hu := ((is_allowed_fst q d1 c1 a1).1 hal).1
        rw [hv] at hu
        exact absurd hu (by decide)
      rw [mark_record_ne q d1 c1 a1 s a hne]
      exact h
  cases op with
  | add_sample d1 c1 a1 td tc r =>
    simp only [Op.resets, Bool.and_eq_false_iff, decide_eq_false_iff_not] at hop
    have hne : s ≠ q.make_state d1 c1 ∨ a ≠ a1 := by
      rcases hop with h1 | h1
      · left; exact fun e => h1 e.symm
      · right; exact fun e => h1 e.symm
    simp only [step]
    rw [add_sample_Q, record_store_ne q _ s a1 a _ hne]
    exact h
  | add_uncovered d1 c1 a1 =>
    simp only [step, add_uncovered]
    by_cases hp : s = q.make_state d1 c1 ∧ a = a1
    · rw [hp.1, hp.2, record_store_self]
      rfl
    · have hne : s ≠ q.make_state d1 c1 ∨ a ≠ a1 := by
        by_cases hs : s = q.make_state d1 c1
        · right; exact fun ha => hp ⟨hs, ha⟩
        · left; exact hs
      rw [record_store_ne q _ s a1 a _ hne]
      exact h
  | mark d1 c1 a1 => exact hmark d1 c1 a1
  | print =>
    simp only [step]
    rw [record_congr _ q (print_snd_Q q)]
    exact h
  | query e a1 d1 c1 =>
    simp only [step]
    rw [record_congr _ _ (predict_snd_Q m q e a1 d1 c1)]
    split_ifs
    · exact h
    · exact hmark d1 c1 a1
  | clear_strategy => simp [Op.resets] at hop

theorem resets_step (m : Libm) (q : QLearner) (op0 : Op) (s : qstate_t) (a : Nat) (op : Op) :
    Op.resets (step m q op0) s a op = Op.resets q s a op := by
  cases op <;> simp only [Op.resets, step_make_state]

theorem sentinel_run (m : Libm) (q : QLearner) (ops : List Op) (s : qstate_t) (a : Nat)
    (hops : ∀ op ∈ ops, Op.resets q s a op = false) (h : q.record s a = some sentinel) :
    (run m q ops).record s a = some sentinel := by
  induction ops generalizing q with
  | nil => exact h
  | cons op tl ih =>
    simp only [run, List.foldl_cons] at ih ⊢
    apply ih
    · intro op1 h1
      rw [resets_step]
      exact hops op1 (List.mem_cons_of_mem _ h1)
    · exact sentinel_step m q op s a (hops op (List.mem_cons_self _ _)) h

end QLearner

/-- C15 (as stated, refuted): a reachable record flagged uncover need not hold
the sentinel.  After `add_uncovered` and then `add_sample` on the same pair with
reward 5, the record of the pair is (value -16381, count 2, uncover true). -/
theorem uncovered_record_sampled_counterexample :
    ¬ (∀ (m : Libm) (is_min : Bool) (dsz csz : Nat) (ops : List Op) (s : qstate_t) (a : Nat)
        (r : qvalue_t),
        (run m (QLearner.new is_min dsz csz) ops).record s a = some r → r._uncover = true →
        r._value = -32767 ∧ r._count = 1 ∧ r._select = false) := by
  intro h
  have h1 := h constLibm true 1 0
    [Op.add_uncovered (some [0]) none 0, Op.add_sample (some [0]) none 0 none none 5]
    (toLex ([0], [])) 0 { _value := -16381, _count := 2, _select := false, _uncover := true }
    (by decide!) rfl
  exact absurd h1.2.1 (by decide)

/-- C15 (amended): in every table reachable from a fresh learner by any
sequence of add_sample, add_uncovered, mark, print, query and clear_strategy
calls, every record with `uncover == true` has `select == false` and a count of
at least 1; and the record of a pair registered by `add_uncovered` is exactly
(value -32767, count 1, select false, uncover true) after every sequence of
these operations that contains no `add_sample` on that pair and no
`clear_strategy`. -/
theorem uncovered_record_invariant (m : Libm) :
    (∀ (is_min : Bool) (dsz csz : Nat) (ops : List Op) (s : qstate_t) (a : Nat) (r : qvalue_t),
      (run m (QLearner.new is_min dsz csz) ops).record s a = some r → r._uncover = true →
      r._select = false ∧ 1 ≤ r._count) ∧
    (∀ (q : QLearner) (d c : Option (List ℚ)) (a : Nat) (ops : List Op),
      (∀ op ∈ ops, Op.resets q (q.make_state d c) a op = false) →
      (run m (q.add_uncovered d c a) ops).record (q.make_state d c) a
        = some { _value := -32767, _count := 1, _select := false, _uncover := true }) := by
  refine ⟨?_, ?_⟩
  · intro is_min dsz csz ops s a r hr hu
    have h0 : (QLearner.new is_min dsz csz).uncoverInv := by
      intro s1 a1 r1 h1
      rw [QLearner.record_new] at h1
      exact absurd h1 (by simp)
    exact QLearner.uncoverInv_run m _ ops h0 s a r hr hu
  · intro q d c a ops hops
    have h1 : (q.add_uncovered d c a).record (q.make_state d c) a = some sentinel := by
      simp only [QLearner.add_uncovered, QLearner.record_store_self, sentinel]
    have h2 := QLearner.sentinel_run m (q.add_uncovered d c a) ops (q.make_state d c) a
      (fun op hop => hops op hop) h1
    rw [h2]
    simp [sentinel, min_reward]

/-- C15 (amended), at a concrete sequence: after registering action 0 of state
`[0]` as uncovered, a sample of action 1, a `print`, a frozen evaluation query
of action 0 and a `mark` leave the record of action 0 at the sentinel; and after
a sample of action 0 itself its flagged record is not selected and has a count of
at least 1. -/
theorem uncovered_record_invariant_witness :
    (run constLibm ((QLearner.new true 1 0).add_uncovered (some [0]) none 0)
        [Op.add_sample (some [0]) none 1 none none 3, Op.print,
         Op.query true 0 (some [0]) none, Op.mark (some [0]) none 0]).record
        ((QLearner.new true 1 0).make_state (some [0]) none) 0
      = some { _value := -32767, _count := 1, _select := false, _uncover := true } ∧
    (∀ r : qvalue_t,
      (run constLibm (QLearner.new true 1 0)
        [Op.add_uncovered (some [0]) none 0, Op.add_sample (some [0]) none 0 none none 5]).record
        (toLex ([0], [])) 0 = some r → r._uncover = true → r._select = false ∧ 1 ≤ r._count) :=
  ⟨(uncovered_record_invariant constLibm).2 (QLearner.new true 1 0) (some [0]) none 0
      [Op.add_sample (some [0]) none 1 none none 3, Op.print,
       Op.query true 0 (some [0]) none, Op.mark (some [0]) none 0]
      (by
        intro op hop
        simp only [List.mem_cons, List.mem_singleton, List.not_mem_nil, or_false] at hop
        rcases hop with h | h | h | h <;> rw [h] <;> decide!),
   (uncovered_record_invariant constLibm).1 true 1 0
      [Op.add_uncovered (some [0]) none 0, Op.add_sample (some [0]) none 0 none none 5]
      (toLex ([0], [])) 0⟩

/-! ## Statistics of a state with counted actions -/

namespace QLearner

theorem stats_shape (q : QLearner) (d c : Option (List ℚ))
    (hne : q.counted (q.make_state d c) ≠ []) :
    ∃ lo hi : ℚ, (q.search_statistics d c).1 = Dbl.fin lo ∧
      (q.search_statistics d c).2.1 = Dbl.fin hi ∧ lo ≤ hi ∧
      1 ≤ (q.search_statistics d c).2.2.2 ∧
      (q.search_statistics d c).2.2.2 ≤ (q.search_statistics d c).2.2.1 ∧
      (∀ x ∈ q.counted (q.make_state d c), lo ≤ x.2._value ∧ x.2._value ≤ hi) ∧
      (∃ x ∈ q.counted (q.make_state d c), x.2._value = lo) ∧
      (∃ x ∈ q.counted (q.make_state d c), x.2._value = hi) ∧
      (q.best_value d c)._value = (if q._is_minimization then lo else hi) := by
  have hinv := statsL_inv (q.counted_src (q.make_state d c))
  rw [← search_statistics_eq_statsL, ← counted_eq_countedL] at hinv
  obtain ⟨hsum, hlen, _, hcons⟩ := hinv
  obtain ⟨lo, hi, h1, h2, ⟨x1, hx1, e1⟩, hlo, ⟨x2, hx2, e2⟩, hhi⟩ := hcons hne
  have hx1r := (mem_counted_iff q _ x1.1 x1.2).1 hx1
  have hx2r := (mem_counted_iff q _ x2.1 x2.2).1 hx2
  refine ⟨lo, hi, h1, h2, ?_, ?_, ?_, fun x hx => ⟨hlo x hx, hhi x hx⟩, ⟨x1, hx1, e1⟩,
    ⟨x2, hx2, e2⟩, ?_⟩
  · rw [← e1]; exact hhi x1 hx1
  · rw [hlen]
    exact List.length_pos.2 hne
  · rw [hsum, hlen]
    apply length_le_sum_counts
    intro x hx
    have := ((mem_counted_iff q _ x.1 x.2).1 hx).2
    omega
  · obtain ⟨a0, hb1, hb2, hb3⟩ := best_value_counted q d c ⟨x1.1, x1.2, hx1r.1, hx1r.2⟩
    have hbm : (a0, q.best_value d c) ∈ q.counted (q.make_state d c) :=
      (mem_counted_iff q _ _ _).2 ⟨hb1, hb2⟩
    cases hm : q._is_minimization with
    | true =>
      have h3 := hb3 x1.1 x1.2 hx1r.1 hx1r.2
      rw [hm] at h3
      simp only [if_true] at h3 ⊢
      rw [e1] at h3
      exact le_antisymm h3 (hlo _ hbm)
    | false =>
      have h3 := hb3 x2.1 x2.2 hx2r.1 hx2r.2
      rw [hm] at h3
      simp only [Bool.false_eq_true, if_false] at h3 ⊢
      rw [e2] at h3
      exact le_antisymm (hhi _ hbm) h3

theorem value_mem_counted (q : QLearner) (d c : Option (List ℚ)) (a : Nat)
    (h : (q.value d c a)._count ≠ 0) : (a, q.value d c a) ∈ q.counted (q.make_state d c) := by
  have hpos : 0 < (q.value d c a)._count := Nat.pos_of_ne_zero h
  exact (mem_counted_iff q _ _ _).2 ⟨record_of_value_count q d c a hpos, hpos⟩

end QLearner

/-! ## Exclusion of the two flags -/

namespace QLearner

theorem rendered_action_cases (compact uncovered : Bool) (av : Nat × qvalue_t)
    (h : ¬ (av.2._select = true ∧ av.2._uncover = true)) :
    rendered_action compact uncovered av = [] ∨
    rendered_action compact uncovered av = [(av.1, av.2._value)] := by
  unfold rendered_action
  cases compact <;> cases uncovered <;> cases hs : av.2._select <;> cases hu : av.2._uncover <;>
    simp_all

theorem rendered_keys_sublist (compact uncovered : Bool) (l : List (Nat × qvalue_t))
    (h : ∀ av ∈ l, ¬ (av.2._select = true ∧ av.2._uncover = true)) :
    (((l.map (rendered_action compact uncovered)).flatten).map Prod.fst).Sublist
      (l.map Prod.fst) := by
  induction l with
  | nil => simp
  | cons hd tl ih =>
    have ih1 := ih (fun av hav => h av (List.mem_cons_of_mem _ hav))
    simp only [List.map_cons, List.flatten_cons, List.map_append]
    rcases rendered_action_cases compact uncovered hd (h hd (List.mem_cons_self _ _)) with e | e
    · rw [e]
      simp only [List.map_nil, List.nil_append]
      exact List.Sublist.cons _ ih1
    · rw [e]
      simp only [List.map_cons, List.map_nil, List.singleton_append]
      exact List.Sublist.cons₂ _ ih1

theorem entries_keys_nodup (t : qaction_t) : (t.entries.map Prod.fst).Nodup := by
  rw [List.Nodup, List.pairwise_map]
  exact t.sorted.imp (fun h => ne_of_lt h)

end QLearner

/-- C24: select and uncover are mutually exclusive.  In every table reachable
from a fresh learner by add_sample, add_uncovered, mark, print, query and
clear_strategy, no record has both `select == true` and `uncover == true`; so a
filtered rendering, whatever its two switches, never writes the same action of a
state twice. -/
theorem select_uncover_exclusive (m : Libm) (is_min : Bool) (dsz csz : Nat) (ops : List Op) :
    (∀ s a r, (run m (QLearner.new is_min dsz csz) ops).record s a = some r →
      ¬ (r._select = true ∧ r._uncover = true)) ∧
    (∀ (compact uncovered : Bool) s acts,
      (s, acts) ∈ (run m (QLearner.new is_min dsz csz) ops).print_partial_score_table
        compact uncovered →
      (acts.map Prod.fst).Nodup) := by
  have h0 : (QLearner.new is_min dsz csz).uncoverInv := by
    intro s1 a1 r1 h1
    rw [QLearner.record_new] at h1
    exact absurd h1 (by simp)
  have hinv := QLearner.uncoverInv_run m _ ops h0
  have hex : ∀ s a r, (run m (QLearner.new is_min dsz csz) ops).record s a = some r →
      ¬ (r._select = true ∧ r._uncover = true) := by
    intro s a r hr ⟨hs, hu⟩
    have := (hinv s a r hr hu).1
    rw [hs] at this
    exact Bool.noConfusion this
  refine ⟨hex, ?_⟩
  intro compact uncovered s acts hmem
  unfold QLearner.print_partial_score_table at hmem
  obtain ⟨⟨s1, t⟩, hst, e⟩ := List.mem_map.1 hmem
  simp only [Prod.mk.injEq] at e
  have hfind := (OMap.find_iff_mem _ s1 t).2 (List.mem_filter.1 hst).1
  rw [← e.2]
  apply List.Nodup.sublist (QLearner.rendered_keys_sublist compact uncovered t.entries ?_)
    (QLearner.entries_keys_nodup t)
  intro av hav
  apply hex s1 av.1 av.2
  rw [QLearner.record_eq_some_iff]
  exact ⟨t, hfind, (OMap.find_iff_mem _ _ _).2 hav⟩

/-- C24, at a concrete sequence: after an uncovered registration, samples, a
`print` and evaluation queries that mark the best sampled action, the uncovered
action 0 is not selected, the selected action 1 is not uncovered, and no record
has both flags. -/
theorem select_uncover_exclusive_witness :
    (run constLibm (QLearner.new false 1 0)
        [Op.add_uncovered (some [0]) none 0, Op.add_sample (some [0]) none 1 none none 3,
         Op.print, Op.query true 1 (some [0]) none, Op.query true 0 (some [0]) none]).record
        (toLex ([0], [])) 1
      = some { _value := 3, _count := 1, _select := true, _uncover := false } ∧
    (run constLibm (QLearner.new false 1 0)
        [Op.add_uncovered (some [0]) none 0, Op.add_sample (some [0]) none 1 none none 3,
         Op.print, Op.query true 1 (some [0]) none, Op.query true 0 (some [0]) none]).record
        (toLex ([0], [])) 0
      = some { _value := -32767, _count := 1, _select := false, _uncover := true } ∧
    (∀ s a r, (run constLibm (QLearner.new false 1 0)
        [Op.add_uncovered (some [0]) none 0, Op.add_sample (some [0]) none 1 none none 3,
         Op.print, Op.query true 1 (some [0]) none, Op.query true 0 (some [0]) none]).record s a
        = some r → ¬ (r._select = true ∧ r._uncover = true)) :=
  ⟨by decide!, by decide!,
   (select_uncover_exclusive constLibm false 1 0
      [Op.add_uncovered (some [0]) none 0, Op.add_sample (some [0]) none 1 none none 3,
       Op.print, Op.query true 1 (some [0]) none, Op.query true 0 (some [0]) none]).1⟩

/-! ## Counts of the stored records -/

namespace OMap

variable {K V : Type} [LinearOrder K]

theorem insertL_ne_nil (k : K) (v : V) (l : List (K × V)) : insertL k v l ≠ [] := by
  cases l with
  | nil => simp [insertL]
  | cons hd tl =>
    obtain ⟨k', v'⟩ := hd
    simp only [insertL]
    split_ifs <;> simp

end OMap

namespace QLearner

theorem countInv_store (q : QLearner) (s : qstate_t) (a : Nat) (r : qvalue_t)
    (h : q.countInv) (hr : 1 ≤ r._count) : (q.store s a r).countInv := by
  refine ⟨?_, ?_⟩
  · intro s1 a1 r1 h1
    by_cases hp : s1 = s ∧ a1 = a
    · rw [hp.1, hp.2, record_store_self] at h1
      rw [← Option.some.inj h1]
      exact hr
    · have hne : s1 ≠ s ∨ a1 ≠ a := by
        by_cases hs : s1 = s
        · right; exact fun ha => hp ⟨hs, ha⟩
        · left; exact hs
      rw [record_store_ne q s s1 a a1 r hne] at h1
      exact h.1 s1 a1 r1 h1
  · intro s1 t ht
    by_cases hs : s1 = s
    · rw [hs] at ht
      simp only [store, OMap.find_insert_self, Option.some.injEq] at ht
      rw [← ht]
      exact OMap.insertL_ne_nil _ _ _
    · simp only [store] at ht
      rw [OMap.find_insert_ne _ _ _ _ hs] at ht
      exact h.2 s1 t ht

theorem countInv_congr (q1 q2 : QLearner) (hQ : q1._Q = q2._Q) (h : q2.countInv) :
    q1.countInv := by
  refine ⟨?_, ?_⟩
  · intro s a r hr
    rw [record_congr q1 q2 hQ] at hr
    exact h.1 s a r hr
  · intro s t ht
    rw [hQ] at ht
    exact h.2 s t ht

theorem countInv_mark (q : QLearner) (d c : Option (List ℚ)) (a : Nat) (h : q.countInv) :
    (q.mark d c a).countInv := by
  rcases mark_eq_or_store q d c a with e | ⟨_, hr, e⟩
  · rw [e]; exact h
  · rw [e]
    exact countInv_store q _ _ _ h (h.1 _ _ (q.value d c a) hr)

theorem countInv_step (m : Libm) (q : QLearner) (op : Op) (h : q.countInv) :
    (step m q op).countInv := by
  cases op with
  | add_sample d c a td tc r =>
    simp only [step]
    rw [add_sample_Q]
    apply countInv_store q _ _ _ h
    rw [value_add_sample]
    exact Nat.le_add_left 1 _
  | add_uncovered d c a =>
    simp only [step, add_uncovered]
    exact countInv_store q _ _ _ h (le_refl 1)
  | mark d c a => exact countInv_mark q d c a h
  | print => exact countInv_congr _ q (print_snd_Q q) h
  | query e a d c =>
    apply countInv_congr _ _ (predict_snd_Q m q e a d c)
    split_ifs
    · exact h
    · exact countInv_mark q d c a h
  | clear_strategy =>
    refine ⟨?_, ?_⟩
    · intro s a r hr
      exact absurd hr (by simp [step, clear_strategy, record, OMap.find_empty])
    · intro s t ht
      exact absurd ht (by simp [step, clear_strategy, OMap.find_empty])

theorem countInv_run (m : Libm) (q : QLearner) (ops : List Op) (h : q.countInv) :
    (run m q ops).countInv := by
  induction ops generalizing q with
  | nil => exact h
  | cons op tl ih =>
    simp only [run, List.foldl_cons] at ih ⊢
    exact ih _ (countInv_step m q op h)

theorem countInv_new (is_min : Bool) (dsz csz : Nat) : (QLearner.new is_min dsz csz).countInv := by
  refine ⟨?_, ?_⟩
  · intro s a r hr
    rw [record_new] at hr
    exact absurd hr (by simp)
  · intro s t ht
    exact absurd ht (by simp [QLearner.new, OMap.find_empty])

end QLearner

/-- C22: every stored record has been counted.  In every table reachable from a
fresh learner by add_sample, add_uncovered, mark, print, query and
clear_strategy, every stored record has a count of at least 1 and every stored
state has a non-empty action map; hence the count of `value(state, action)` is 0
exactly when the pair is not stored, and the count of `best_value(state)` is 0
exactly when the state is not stored. -/
theorem stored_records_counted (m : Libm) (is_min : Bool) (dsz csz : Nat) (ops : List Op) :
    (∀ s a r, (run m (QLearner.new is_min dsz csz) ops).record s a = some r → 1 ≤ r._count) ∧
    (∀ s t, (run m (QLearner.new is_min dsz csz) ops)._Q.find s = some t → t.entries ≠ []) ∧
    (∀ d c a, ((run m (QLearner.new is_min dsz csz) ops).value d c a)._count = 0 ↔
      (run m (QLearner.new is_min dsz csz) ops).record
        ((run m (QLearner.new is_min dsz csz) ops).make_state d c) a = none) ∧
    (∀ d c, ((run m (QLearner.new is_min dsz csz) ops).best_value d c)._count = 0 ↔
      (run m (QLearner.new is_min dsz csz) ops)._Q.find
        ((run m (QLearner.new is_min dsz csz) ops).make_state d c) = none) := by
  have hinv := QLearner.countInv_run m _ ops (QLearner.countInv_new is_min dsz csz)
  generalize run m (QLearner.new is_min dsz csz) ops = q at hinv ⊢
  refine ⟨hinv.1, hinv.2, ?_, ?_⟩
  · intro d c a
    rw [QLearner.value_eq_record]
    cases hr : q.record (q.make_state d c) a with
    | none => simp
    | some r =>
      have := hinv.1 _ _ _ hr
      simp only [Option.getD_some, reduceCtorEq, iff_false]
      omega
  · intro d c
    cases hf : q._Q.find (q.make_state d c) with
    | none => simp [QLearner.best_value, hf]
    | some t =>
      simp only [reduceCtorEq, iff_false]
      obtain ⟨⟨a, r⟩, hmem⟩ := List.exists_mem_of_ne_nil _ (hinv.2 _ t hf)
      have hrec : q.record (q.make_state d c) a = some r := by
        rw [QLearner.record_eq_some_iff]
        exact ⟨t, hf, (OMap.find_iff_mem _ _ _).2 hmem⟩
      have hpos : 0 < r._count := hinv.1 _ _ _ hrec
      obtain ⟨_, _, hb, _⟩ := QLearner.best_value_counted q d c ⟨a, r, hrec, hpos⟩
      omega

/-- C22, at a concrete sequence: after an uncovered registration, two samples,
a `print`, a query and a `mark`, the three stored records have the counts 1, 2
and 1, and the pair of the unsampled action 2 is not stored. -/
theorem stored_records_counted_witness :
    (∀ s a r, (run constLibm (QLearner.new true 1 0)
        [Op.add_uncovered (some [0]) none 0, Op.add_sample (some [0]) none 1 none none 3,
         Op.add_sample (some [0]) none 1 none none 4, Op.add_sample (some [1]) none 0 none none 2,
         Op.print, Op.query true 1 (some [0]) none, Op.mark (some [1]) none 0]).record s a
        = some r → 1 ≤ r._count) ∧
    ((run constLibm (QLearner.new true 1 0)
        [Op.add_uncovered (some [0]) none 0, Op.add_sample (some [0]) none 1 none none 3,
         Op.add_sample (some [0]) none 1 none none 4, Op.add_sample (some [1]) none 0 none none 2,
         Op.print, Op.query true 1 (some [0]) none, Op.mark (some [1]) none 0]).value
        (some [0]) none 1)._count = 2 ∧
    ((run constLibm (QLearner.new true 1 0)
        [Op.add_uncovered (some [0]) none 0, Op.add_sample (some [0]) none 1 none none 3,
         Op.add_sample (some [0]) none 1 none none 4, Op.add_sample (some [1]) none 0 none none 2,
         Op.print, Op.query true 1 (some [0]) none, Op.mark (some [1]) none 0]).value
        (some [0]) none 2)._count = 0 :=
  ⟨(stored_records_counted constLibm true 1 0
      [Op.add_uncovered (some [0]) none 0, Op.add_sample (some [0]) none 1 none none 3,
       Op.add_sample (some [0]) none 1 none none 4, Op.add_sample (some [1]) none 0 none none 2,
       Op.print, Op.query true 1 (some [0]) none, Op.mark (some [1]) none 0]).1,
   by decide!, by decide!⟩

/-! ## The assertions never fire -/

namespace QLearner

theorem learning_rate_le_one (c : Nat) : learning_rate c ≤ 1 := by
  rcases Nat.eq_zero_or_pos c with h | h
  · rw [h, learning_rate_zero]
  · rw [learning_rate_of_pos c h]
    norm_num

theorem best_of_value_or_count (m : Bool) (t : qaction_t) :
    (best_of m t)._value = 0 ∨ (best_of m t)._count ≠ 0 := by
  rw [best_of_eq_bestL]
  rcases bestL_inv m t.entries with ⟨_, hr⟩ | ⟨_, _, _, _, hc, _, _⟩
  · left; rw [hr]
  · right; exact hc

theorem best_value_value_or_count (q : QLearner) (d c : Option (List ℚ)) :
    (q.best_value d c)._value = 0 ∨ (q.best_value d c)._count ≠ 0 := by
  cases hf : q._Q.find (q.make_state d c) with
  | none => left; simp [best_value, hf]
  | some t =>
    have hb : q.best_value d c = best_of q._is_minimization t := by
      simp [best_value, hf]
    rw [hb]
    exact best_of_value_or_count _ t

theorem best_count_of_value_count (q : QLearner) (d c : Option (List ℚ)) (a : Nat)
    (h : (q.value d c a)._count ≠ 0) : (q.best_value d c)._count ≠ 0 := by
  have hpos : 0 < (q.value d c a)._count := Nat.pos_of_ne_zero h
  obtain ⟨_, _, hb, _⟩ :=
    best_value_counted q d c ⟨a, q.value d c a, record_of_value_count q d c a hpos, hpos⟩
  omega

theorem value_count_of_sum_zero (q : QLearner) (d c : Option (List ℚ)) (a : Nat)
    (h : (q.search_statistics d c).2.2.1 = 0) : (q.value d c a)._count = 0 := by
  by_contra hc
  have hmem := value_mem_counted q d c a hc
  have hne : q.counted (q.make_state d c) ≠ [] := by
    intro e
    rw [e] at hmem
    exact List.not_mem_nil _ hmem
  obtain ⟨_, _, _, _, _, hn, hsum, _, _, _, _⟩ := stats_shape q d c hne
  omega

end QLearner

/-- C21: the internal consistency assertions never fire, on any table (so on
every table reachable from a fresh learner) and for every argument, with visit
counts as unbounded naturals: (1) in `add_sample` the learning rate is at most 1
and the future estimate has value 0 whenever its count is 0; (2) in `is_allowed`,
a positive count of `value(state, action)` implies a positive count of
`best_value(state)`; (3) in the training-mode query, `sum_count == 0` implies
that the count of `value(state, action)` is 0. -/
theorem assertions_never_fire (q : QLearner) (d c : Option (List ℚ)) (a : Nat)
    (td tc : Option (List ℚ)) :
    q.add_sample_asserts d c a td tc ∧
    (QLearner.learning_rate (q.value d c a)._count ≤ 1 ∧
      ((q.best_value td tc)._count = 0 → (q.best_value td tc)._value = 0)) ∧
    q.is_allowed_assert d c a ∧
    (0 < (q.value d c a)._count → 0 < (q.best_value d c)._count) ∧
    q.predict_assert a d c ∧
    ((q.search_statistics d c).2.2.1 = 0 → (q.value d c a)._count = 0) ∧
    (∀ (m : Libm) (is_min : Bool) (dsz csz : Nat) (ops : List Op),
      (run m (QLearner.new is_min dsz csz) ops).add_sample_asserts d c a td tc ∧
      (run m (QLearner.new is_min dsz csz) ops).is_allowed_assert d c a ∧
      (run m (QLearner.new is_min dsz csz) ops).predict_assert a d c) := by
  have h1 : ∀ q1 : QLearner, q1.add_sample_asserts d c a td tc := by
    intro q1
    exact ⟨QLearner.learning_rate_le_one _, QLearner.best_value_value_or_count q1 td tc⟩
  have h2 : ∀ q1 : QLearner, q1.is_allowed_assert d c a := by
    intro q1
    unfold QLearner.is_allowed_assert
    by_cases hc : (q1.value d c a)._count = 0
    · left; exact hc
    · right; exact QLearner.best_count_of_value_count q1 d c a hc
  have h3 : ∀ q1 : QLearner, q1.predict_assert a d c := by
    intro q1 hs
    exact QLearner.value_count_of_sum_zero (q1.queried d c a) d c a hs
  refine ⟨h1 q, ⟨QLearner.learning_rate_le_one _, ?_⟩, h2 q, ?_, h3 q,
    QLearner.value_count_of_sum_zero q d c a, fun m is_min dsz csz ops => ⟨h1 _, h2 _, h3 _⟩⟩
  · intro hc
    rcases QLearner.best_value_value_or_count q td tc with h | h
    · exact h
    · exact absurd hc h
  · intro hpos
    have := QLearner.best_count_of_value_count q d c a (by omega)
    omega

/-- C21, at a concrete table: the asserted conditions hold for a sample of
action 0 at state `[0]` of `tieLearner` with that same state as destination, and
for the classification and the training-mode query of that pair. -/
theorem assertions_never_fire_witness :
    tieLearner.add_sample_asserts (some [0]) none 0 (some [0]) none ∧
    tieLearner.is_allowed_assert (some [0]) none 0 ∧
    tieLearner.predict_assert 0 (some [0]) none :=
  ⟨(assertions_never_fire tieLearner (some [0]) none 0 (some [0]) none).1,
   (assertions_never_fire tieLearner (some [0]) none 0 (some [0]) none).2.2.1,
   (assertions_never_fire tieLearner (some [0]) none 0 (some [0]) none).2.2.2.2.1⟩

/-! ## An uncovered pair and the other actions of its state -/

namespace QLearner

theorem predict_eval_of_not_allowed (m : Libm) (q : QLearner) (a : Nat) (d c : Option (List ℚ))
    (h : (q.is_allowed d c a).1 = false) :
    (uppaal_external_learner_predict m q true a d c).1 = Dbl.fin 0 := by
  have hq1 : (if (!q.learning) = true then q.mark d c a else q) = q := by
    split_ifs
    · exact mark_of_not_allowed q d c a h
    · rfl
  unfold uppaal_external_learner_predict
  simp only [if_true, hq1, h, Bool.false_and, Bool.false_eq_true, if_false]
  split_ifs <;> rfl

theorem allowed_of_extreme (q : QLearner) (d c : Option (List ℚ)) (b : Nat) (r : qvalue_t)
    (hr : q.record (q.make_state d c) b = some r) (hc : 0 < r._count) (hu : r._uncover = false)
    (hext : ∀ b1 r1, q.record (q.make_state d c) b1 = some r1 → 0 < r1._count →
      (if q._is_minimization then r._value ≤ r1._value else r1._value ≤ r._value)) :
    q.is_allowed d c b = (true, true) := by
  obtain ⟨a0, hb1, hb2, hb3⟩ := best_value_counted q d c ⟨b, r, hr, hc⟩
  have h1 := hb3 b r hr hc
  have h2 := hext a0 _ hb1 hb2
  have hval : q.value d c b = r := by
    rw [value_eq_record, hr]
    rfl
  have heq : r._value = (q.best_value d c)._value := by
    cases hm : q._is_minimization <;> rw [hm] at h1 h2 <;>
      simp only [if_true, Bool.false_eq_true, if_false] at h1 h2 <;>
      exact le_antisymm (by assumption) (by assumption)
  rw [is_allowed_eq, hval, hu, heq]
  have hc2 : r._count > 0 := hc
  simp [hc2]

end QLearner

namespace QLearner

theorem predict_eval_of_allowed (m : Libm) (q : QLearner) (a : Nat) (d c : Option (List ℚ))
    (h : q.is_allowed d c a = (true, true)) :
    (uppaal_external_learner_predict m q true a d c).1 = Dbl.fin 1 := by
  have hm : (if (!q.learning) = true then q.mark d c a else q).is_allowed d c a = (true, true) := by
    split_ifs
    · rw [is_allowed_mark]; exact h
    · exact h
  unfold uppaal_external_learner_predict
  simp only [if_true, hm, Bool.and_self]

end QLearner

/-- C23 (as stated, refuted): under maximization an action with the greatest
value need not be allowed.  In `maxUncoveredLearner` the only stored action of
state `[0]` is the uncovered action 0 (value -32767, count 1): it has the
greatest value of the state and `is_allowed` returns (false, true) for it. -/
theorem greatest_value_not_allowed_counterexample :
    ¬ (∀ (q : QLearner) (d c : Option (List ℚ)) (a : Nat) (r : qvalue_t) (b : Nat)
        (rb : qvalue_t),
        q._is_minimization = false →
        q.record (q.make_state d c) a = some r → r._uncover = true → r._value = -32767 →
        r._count = 1 →
        (∀ b1 r1, b1 ≠ a → q.record (q.make_state d c) b1 = some r1 → -32767 < r1._value) →
        q.record (q.make_state d c) b = some rb →
        (∀ b1 r1, q.record (q.make_state d c) b1 = some r1 → r1._value ≤ rb._value) →
        (q.is_allowed d c b).1 = true) := by
  intro h
  have ht : maxUncoveredLearner._Q.find (maxUncoveredLearner.make_state (some [0]) none)
      = some ⟨[(0, { _value := -32767, _count := 1, _select := false, _uncover := true })],
          by simp⟩ := by decide!
  have hall : ∀ b1 r1, maxUncoveredLearner.record
      (maxUncoveredLearner.make_state (some [0]) none) b1 = some r1 →
      b1 = 0 ∧ r1 = { _value := -32767, _count := 1, _select := false, _uncover := true } := by
    intro b1 r1 hr
    unfold QLearner.record at hr
    rw [ht] at hr
    simp only [Option.some_bind, OMap.find, OMap.findL] at hr
    split_ifs at hr with h0
    · simp only [Option.some.injEq] at hr
      exact ⟨h0.symm, hr.symm⟩
  have h1 := h maxUncoveredLearner (some [0]) none 0
    { _value := -32767, _count := 1, _select := false, _uncover := true } 0
    { _value := -32767, _count := 1, _select := false, _uncover := true }
    rfl (by decide!) rfl rfl rfl
    (fun b1 r1 hb hr => absurd (hall b1 r1 hr).1 hb)
    (by decide!)
    (fun b1 r1 hr => by rw [(hall b1 r1 hr).2])
  have h2 : (maxUncoveredLearner.is_allowed (some [0]) none 0).1 = false := by decide!
  rw [h2] at h1
  exact Bool.noConfusion h1

/-- C23 (amended): an uncovered pair blocks its whole state under minimization.
If the record of `(s, a)` is flagged uncover with value -32767 and count 1, as
`add_uncovered` leaves it, and every other stored action at `s` has a value above
-32767, then for a minimizing learner `best_value(s)` is that record,
`is_allowed(s, b)` returns (false, true) for every action `b`, `a` included, and
the evaluation-mode query returns 0.0 for every action at `s`.  For a maximizing
learner with the same table, every action with a positive count and no uncover
flag whose value is the greatest among the counted records of `s` is another
action than `a`, is allowed, and scores 1.0 in evaluation mode. -/
theorem uncovered_blocks_minimization (m : Libm) (q : QLearner) (d c : Option (List ℚ))
    (a : Nat) (r : qvalue_t) (hr : q.record (q.make_state d c) a = some r)
    (hu : r._uncover = true) (hv : r._value = -32767) (hc : r._count = 1)
    (hothers : ∀ b r1, b ≠ a → q.record (q.make_state d c) b = some r1 → -32767 < r1._value) :
    (q._is_minimization = true →
      q.best_value d c = r ∧ (∀ b, q.is_allowed d c b = (false, true)) ∧
      (∀ b, (uppaal_external_learner_predict m q true b d c).1 = Dbl.fin 0)) ∧
    (q._is_minimization = false →
      ∀ b rb, q.record (q.make_state d c) b = some rb → 0 < rb._count → rb._uncover = false →
        (∀ b1 r1, q.record (q.make_state d c) b1 = some r1 → 0 < r1._count →
          r1._value ≤ rb._value) →
        b ≠ a ∧ q.is_allowed d c b = (true, true) ∧
        (uppaal_external_learner_predict m q true b d c).1 = Dbl.fin 1) := by
  have hcpos : 0 < r._count := by omega
  have hval : q.value d c a = r := by
    rw [QLearner.value_eq_record, hr]
    rfl
  refine ⟨?_, ?_⟩
  · intro hmin
    obtain ⟨a0, hb1, hb2, hb3⟩ := QLearner.best_value_counted q d c ⟨a, r, hr, hcpos⟩
    have hle := hb3 a r hr hcpos
    rw [hmin] at hle
    simp only [if_true] at hle
    have ha0 : a0 = a := by
      by_contra hne
      have := hothers a0 _ hne hb1
      rw [hv] at hle
      linarith
    rw [ha0, hr] at hb1
    have hbest : q.best_value d c = r := (Option.some.inj hb1).symm
    have hall : ∀ b, q.is_allowed d c b = (false, true) := by
      intro b
      by_cases hba : b = a
      · rw [hba]
        apply QLearner.is_allowed_of_uncover
        rw [hval]
        exact hu
      · rw [QLearner.is_allowed_eq, hbest]
        by_cases hub : (q.value d c b)._uncover = true
        · rw [if_pos hub]
        · rw [if_neg hub]
          have hcond : ¬ (decide ((q.value d c b)._count > 0) &&
              decide ((q.value d c b)._value = r._value)) = true := by
            simp only [Bool.and_eq_true, decide_eq_true_eq, not_and]
            intro hpos heq
            have hrb := QLearner.record_of_value_count q d c b hpos
            have := hothers b _ hba hrb
            rw [heq, hv] at this
            exact lt_irrefl _ this
          rw [if_neg hcond, if_neg (by omega)]
    refine ⟨hbest, hall, fun b => ?_⟩
    apply QLearner.predict_eval_of_not_allowed
    rw [hall b]
  · intro hmax b rb hrb hcb hub hgreat
    have hba : b ≠ a := by
      intro e
      rw [e, hr] at hrb
      rw [← Option.some.inj hrb, hu] at hub
      exact Bool.noConfusion hub
    have hal : q.is_allowed d c b = (true, true) := by
      apply QLearner.allowed_of_extreme q d c b rb hrb hcb hub
      intro b1 r1 h1 h2
      rw [hmax]
      simp only [Bool.false_eq_true, if_false]
      exact hgreat b1 r1 h1 h2
    exact ⟨hba, hal, QLearner.predict_eval_of_allowed m q b d c hal⟩

namespace QLearner

theorem blockedLearner_records (is_min : Bool) (b : Nat) (r1 : qvalue_t)
    (h : (blockedLearner is_min).record ((blockedLearner is_min).make_state (some [0]) none) b
      = some r1) :
    (b = 0 ∧ r1 = { _value := -32767, _count := 1, _select := false, _uncover := true }) ∨
    (b = 1 ∧ r1 = { _value := 3, _count := 1 }) ∨ (b = 2 ∧ r1 = { _value := 8, _count := 1 }) := by
  have ht : (blockedLearner is_min)._Q.find ((blockedLearner is_min).make_state (some [0]) none)
      = some ⟨[(0, { _value := -32767, _count := 1, _select := false, _uncover := true }),
               (1, { _value := 3, _count := 1 }), (2, { _value := 8, _count := 1 })],
          by simp⟩ := by
    cases is_min <;> decide!
  unfold record at h
  rw [ht] at h
  simp only [Option.some_bind, OMap.find, OMap.findL] at h
  split_ifs at h with h0 h1 h2
  · left; exact ⟨h0.symm, (Option.some.inj h).symm⟩
  · right; left; exact ⟨h1.symm, (Option.some.inj h).symm⟩
  · right; right; exact ⟨h2.symm, (Option.some.inj h).symm⟩

end QLearner

/-- C23 (amended), at concrete tables: in `blockedLearner` (uncovered action 0,
sampled actions 1 and 2 with values 3 and 8) minimization allows no action of
state `[0]` and every evaluation-mode query scores 0, while maximization allows
action 2, which scores 1. -/
theorem uncovered_blocks_minimization_witness :
    ((blockedLearner true).best_value (some [0]) none
        = { _value := -32767, _count := 1, _select := false, _uncover := true } ∧
      (∀ b, (blockedLearner true).is_allowed (some [0]) none b = (false, true)) ∧
      (∀ b, (uppaal_external_learner_predict constLibm (blockedLearner true) true b
        (some [0]) none).1 = Dbl.fin 0)) ∧
    (2 ≠ 0 ∧ (blockedLearner false).is_allowed (some [0]) none 2 = (true, true) ∧
      (uppaal_external_learner_predict constLibm (blockedLearner false) true 2
        (some [0]) none).1 = Dbl.fin 1) := by
  have hoth : ∀ (is_min : Bool) b r1, b ≠ 0 →
      (blockedLearner is_min).record ((blockedLearner is_min).make_state (some [0]) none) b
        = some r1 → (-32767 : ℚ) < r1._value := by
    intro is_min b r1 hb h
    rcases QLearner.blockedLearner_records is_min b r1 h with ⟨h0, _⟩ | ⟨_, e⟩ | ⟨_, e⟩
    · exact absurd h0 hb
    · rw [e]; norm_num
    · rw [e]; norm_num
  refine ⟨(uncovered_blocks_minimization constLibm (blockedLearner true) (some [0]) none 0
      { _value := -32767, _count := 1, _select := false, _uncover := true }
      (by decide!) rfl rfl rfl (hoth true)).1 rfl,
    (uncovered_blocks_minimization constLibm (blockedLearner false) (some [0]) none 0
      { _value := -32767, _count := 1, _select := false, _uncover := true }
      (by decide!) rfl rfl rfl (hoth false)).2 rfl 2 { _value := 8, _count := 1 }
      (by decide!) (by decide) rfl ?_⟩
  intro b1 r1 h _
  rcases QLearner.blockedLearner_records false b1 r1 h with ⟨_, e⟩ | ⟨_, e⟩ | ⟨_, e⟩ <;>
    rw [e] <;> norm_num

/-! ## Rounding to the nearest double -/

namespace F64

theorem pow2_eq (z : ℤ) : pow2 z = (2 : ℚ) ^ z := by
  unfold pow2
  split_ifs with h
  · have hz : z = (z.toNat : ℤ) := (Int.toNat_of_nonneg h).symm
    conv_rhs => rw [hz]
    rw [zpow_natCast]
    push_cast
    rfl
  · have hz : z = -((-z).toNat : ℤ) := by
      have := Int.toNat_of_nonneg (show 0 ≤ -z by omega)
      omega
    conv_rhs => rw [hz]
    rw [zpow_neg, zpow_natCast]
    push_cast
    rfl

theorem pow2_pos (z : ℤ) : 0 < pow2 z := by
  rw [pow2_eq]
  positivity

theorem pow2_add (a b : ℤ) : pow2 (a + b) = pow2 a * pow2 b := by
  rw [pow2_eq, pow2_eq, pow2_eq, zpow_add₀ (two_ne_zero)]

theorem pow2_sub (a b : ℤ) : pow2 (a - b) = pow2 a / pow2 b := by
  rw [pow2_eq, pow2_eq, pow2_eq, zpow_sub₀ (two_ne_zero)]

theorem pow2_le (a b : ℤ) (h : a ≤ b) : pow2 a ≤ pow2 b := by
  rw [pow2_eq, pow2_eq]
  exact zpow_le_zpow_right₀ (by norm_num) h

theorem pow2_lt (a b : ℤ) (h : a < b) : pow2 a < pow2 b := by
  rw [pow2_eq, pow2_eq]
  exact zpow_lt_zpow_right₀ (by norm_num) h

theorem pow2_natCast (n : Nat) : pow2 (n : ℤ) = (2 : ℚ) ^ n := by
  rw [pow2_eq, zpow_natCast]

theorem pow2_succ (a : ℤ) : pow2 (a + 1) = 2 * pow2 a := by
  rw [pow2_add, mul_comm]
  congr 1

theorem nlog2Aux_spec (fuel n : Nat) (hn : 0 < n) (hf : n ≤ fuel) :
    2 ^ nlog2Aux fuel n ≤ n ∧ n < 2 ^ (nlog2Aux fuel n + 1) := by
  induction fuel generalizing n with
  | zero => omega
  | succ f ih =>
    unfold nlog2Aux
    by_cases h2 : n < 2
    · rw [if_pos h2]
      simp only [pow_zero, zero_add, pow_one]
      omega
    · rw [if_neg h2]
      have := ih (n / 2) (by omega) (by omega)
      obtain ⟨h3, h4⟩ := this
      rw [pow_succ, pow_succ, pow_succ] at *
      constructor <;> omega

theorem nlog2_spec (n : Nat) (hn : 0 < n) : 2 ^ nlog2 n ≤ n ∧ n < 2 ^ (nlog2 n + 1) :=
  nlog2Aux_spec n n hn (le_refl n)

theorem ratio_bounds (P Q A B : ℚ) (hA : 0 < A) (hB : 0 < B) (h1 : A ≤ P) (h2 : P < 2 * A)
    (h3 : B ≤ Q) (h4 : Q < 2 * B) : P / Q < 2 * (A / B) ∧ A / B / 2 ≤ P / Q := by
  have hQ : 0 < Q := lt_of_lt_of_le hB h3
  have hP : 0 < P := lt_of_lt_of_le hA h1
  constructor
  · rw [div_lt_iff₀ hQ]
    have e : 2 * (A / B) * Q = 2 * A * (Q / B) := by
      field_simp
    rw [e]
    have hq1 : 1 ≤ Q / B := by
      rw [le_div_iff₀ hB]
      linarith
    nlinarith
  · rw [div_div, div_le_div_iff₀ (by positivity) hQ]
    nlinarith

theorem ilog2_spec (x : ℚ) (hx : 0 < x) : pow2 (ilog2 x) ≤ x ∧ x < pow2 (ilog2 x + 1) := by
  have hnum : 0 < x.num := Rat.num_pos.2 hx
  have hp : 0 < x.num.natAbs := Int.natAbs_pos.2 (ne_of_gt hnum)
  have hq : 0 < x.den := x.den_pos
  obtain ⟨p1, p2⟩ := nlog2_spec _ hp
  obtain ⟨q1, q2⟩ := nlog2_spec _ hq
  have hnat : (x.num.natAbs : ℤ) = x.num := Int.natAbs_of_nonneg (le_of_lt hnum)
  have hcast : (x.num.natAbs : ℚ) = (x.num : ℚ) := by
    rw [Nat.cast_natAbs, abs_of_pos hnum]
  have hxe : (x.num.natAbs : ℚ) / (x.den : ℚ) = x := by
    rw [hcast]
    exact Rat.num_div_den x
  have P1 : (2 : ℚ) ^ nlog2 x.num.natAbs ≤ (x.num.natAbs : ℚ) := by exact_mod_cast p1
  have P2 : (x.num.natAbs : ℚ) < 2 * (2 : ℚ) ^ nlog2 x.num.natAbs := by
    have : (x.num.natAbs : ℚ) < (2 : ℚ) ^ (nlog2 x.num.natAbs + 1) := by exact_mod_cast p2
    rw [pow_succ] at this
    linarith
  have Q1 : (2 : ℚ) ^ nlog2 x.den ≤ (x.den : ℚ) := by exact_mod_cast q1
  have Q2 : (x.den : ℚ) < 2 * (2 : ℚ) ^ nlog2 x.den := by
    have : (x.den : ℚ) < (2 : ℚ) ^ (nlog2 x.den + 1) := by exact_mod_cast q2
    rw [pow_succ] at this
    linarith
  have hA : pow2 ((nlog2 x.num.natAbs : ℤ) - (nlog2 x.den : ℤ))
      = (2 : ℚ) ^ nlog2 x.num.natAbs / (2 : ℚ) ^ nlog2 x.den := by
    rw [pow2_sub, pow2_natCast, pow2_natCast]
  obtain ⟨b1, b2⟩ := ratio_bounds _ _ _ _ (by positivity) (by positivity) P1 P2 Q1 Q2
  rw [hxe] at b1 b2
  unfold ilog2
  simp only []
  split_ifs with h
  · refine ⟨h, ?_⟩
    rw [pow2_succ, hA]
    exact b1
  · push_neg at h
    refine ⟨?_, ?_⟩
    · have e : pow2 ((nlog2 x.num.natAbs : ℤ) - (nlog2 x.den : ℤ) - 1)
          = (2 : ℚ) ^ nlog2 x.num.natAbs / (2 : ℚ) ^ nlog2 x.den / 2 := by
        rw [pow2_sub, hA]
        have : pow2 1 = 2 := by decide!
        rw [this]
      rw [e]
      exact b2
    · have : (nlog2 x.num.natAbs : ℤ) - (nlog2 x.den : ℤ) - 1 + 1
          = (nlog2 x.num.natAbs : ℤ) - (nlog2 x.den : ℤ) := by ring
      rw [this]
      exact h

theorem ilog2_unique (x : ℚ) (k : ℤ) (h1 : pow2 k ≤ x) (h2 : x < pow2 (k + 1)) :
    ilog2 x = k := by
  have hx : 0 < x := lt_of_lt_of_le (pow2_pos k) h1
  obtain ⟨s1, s2⟩ := ilog2_spec x hx
  by_contra hne
  rcases lt_or_gt_of_ne hne with h | h
  · have : pow2 (ilog2 x + 1) ≤ pow2 k := pow2_le _ _ (by omega)
    linarith
  · have : pow2 (k + 1) ≤ pow2 (ilog2 x) := pow2_le _ _ (by omega)
    linarith

theorem ilog2_mono (x y : ℚ) (hx : 0 < x) (hxy : x ≤ y) : ilog2 x ≤ ilog2 y := by
  obtain ⟨s1, _⟩ := ilog2_spec x hx
  obtain ⟨_, t2⟩ := ilog2_spec y (lt_of_lt_of_le hx hxy)
  by_contra h
  push_neg at h
  have : pow2 (ilog2 y + 1) ≤ pow2 (ilog2 x) := pow2_le _ _ (by omega)
  linarith

theorem rne_floor_le (x : ℚ) : ⌊x⌋ ≤ rne x := by
  unfold rne
  simp only []
  split_ifs <;> omega

theorem rne_le_floor_succ (x : ℚ) : rne x ≤ ⌊x⌋ + 1 := by
  unfold rne
  simp only []
  split_ifs <;> omega

theorem rne_intCast (n : ℤ) : rne (n : ℚ) = n := by
  unfold rne
  simp

theorem rne_mono (x y : ℚ) (h : x ≤ y) : rne x ≤ rne y := by
  have hfg : ⌊x⌋ ≤ ⌊y⌋ := Int.floor_mono h
  rcases lt_or_eq_of_le hfg with hlt | heq
  · have h1 := rne_le_floor_succ x
    have h2 := rne_floor_le y
    omega
  · unfold rne
    simp only []
    rw [heq]
    split_ifs <;> first | omega | (exfalso; linarith)

theorem rne_lower (x : ℚ) : x - 1 / 2 ≤ (rne x : ℚ) := by
  have h1 : (⌊x⌋ : ℚ) ≤ x := Int.floor_le x
  have h2 : x < (⌊x⌋ : ℚ) + 1 := Int.lt_floor_add_one x
  unfold rne
  simp only []
  split_ifs with a b c
  · linarith
  · push_cast; linarith
  · linarith
  · push_cast; linarith

theorem rne_upper (x : ℚ) : (rne x : ℚ) ≤ x + 1 / 2 := by
  have h1 : (⌊x⌋ : ℚ) ≤ x := Int.floor_le x
  have h2 : x < (⌊x⌋ : ℚ) + 1 := Int.lt_floor_add_one x
  unfold rne
  simp only []
  split_ifs with a b c
  · linarith
  · push_cast; linarith
  · linarith
  · push_cast
    push_neg at a b
    have : x - (⌊x⌋ : ℚ) = 1 / 2 := le_antisymm b a
    linarith

theorem rne_nonneg (x : ℚ) (h : 0 ≤ x) : 0 ≤ rne x := by
  have := rne_mono 0 x h
  have h0 : rne (0 : ℚ) = 0 := by
    have := rne_intCast 0
    simpa using this
  omega

theorem expo_ge (x : ℚ) : -1022 ≤ expo x := le_max_right _ _

theorem expo_mono (x y : ℚ) (hx : 0 < x) (hxy : x ≤ y) : expo x ≤ expo y :=
  max_le_max (ilog2_mono x y hx hxy) (le_refl _)

theorem lt_pow2_expo (x : ℚ) (hx : 0 < x) : x < pow2 (expo x + 1) := by
  have h1 := (ilog2_spec x hx).2
  have h2 : pow2 (ilog2 x + 1) ≤ pow2 (expo x + 1) :=
    pow2_le _ _ (by have := le_max_left (ilog2 x) (-1022); unfold expo; omega)
  linarith

theorem pow2_53 : pow2 53 = (((2 : ℤ) ^ 53 : ℤ) : ℚ) := by decide!

theorem pow2_52 : pow2 52 = (((2 : ℤ) ^ 52 : ℤ) : ℚ) := by decide!

theorem pow2_expo_succ (e : ℤ) : pow2 (e + 1) = pow2 53 * pow2 (e - 52) := by
  rw [← pow2_add]
  congr 1
  ring

theorem pow2_expo (e : ℤ) : pow2 e = pow2 52 * pow2 (e - 52) := by
  rw [← pow2_add]
  congr 1
  ring

theorem rnd_le (x : ℚ) (hx : 0 < x) : rnd x ≤ pow2 (expo x + 1) := by
  have hu := pow2_pos (expo x - 52)
  have h1 := lt_pow2_expo x hx
  rw [pow2_expo_succ] at h1 ⊢
  unfold rnd
  apply mul_le_mul_of_nonneg_right _ (le_of_lt hu)
  have h2 : x / pow2 (expo x - 52) ≤ pow2 53 := by
    rw [div_le_iff₀ hu]
    exact le_of_lt h1
  rw [pow2_53] at h2 ⊢
  have := rne_mono _ _ h2
  rw [rne_intCast] at this
  exact_mod_cast this

theorem rnd_ge (x : ℚ) (hx : 0 < x) (hn : -1022 ≤ ilog2 x) : pow2 (expo x) ≤ rnd x := by
  have hu := pow2_pos (expo x - 52)
  have he : expo x = ilog2 x := max_eq_left hn
  have h1 := (ilog2_spec x hx).1
  rw [← he] at h1
  rw [pow2_expo] at h1 ⊢
  unfold rnd
  apply mul_le_mul_of_nonneg_right _ (le_of_lt hu)
  have h2 : pow2 52 ≤ x / pow2 (expo x - 52) := by
    rw [le_div_iff₀ hu]
    exact h1
  rw [pow2_52] at h2 ⊢
  have := rne_mono _ _ h2
  rw [rne_intCast] at this
  exact_mod_cast this

theorem rnd_nonneg (x : ℚ) (hx : 0 < x) : 0 ≤ rnd x := by
  unfold rnd
  apply mul_nonneg _ (le_of_lt (pow2_pos _))
  have : 0 ≤ rne (x / pow2 (expo x - 52)) :=
    rne_nonneg _ (div_nonneg (le_of_lt hx) (le_of_lt (pow2_pos _)))
  exact_mod_cast this

theorem rnd_mono (x y : ℚ) (hx : 0 < x) (hxy : x ≤ y) : rnd x ≤ rnd y := by
  have hy : 0 < y := lt_of_lt_of_le hx hxy
  rcases lt_or_eq_of_le (expo_mono x y hx hxy) with hlt | heq
  · have h1 := rnd_le x hx
    have hn : -1022 ≤ ilog2 y := by
      by_contra hcon
      push_neg at hcon
      have : expo y = -1022 := max_eq_right (le_of_lt hcon)
      have := expo_ge x
      omega
    have h2 := rnd_ge y hy hn
    have h3 : pow2 (expo x + 1) ≤ pow2 (expo y) := pow2_le _ _ (by omega)
    linarith
  · unfold rnd
    rw [heq]
    have hu := pow2_pos (expo y - 52)
    apply mul_le_mul_of_nonneg_right _ (le_of_lt hu)
    have : rne (x / pow2 (expo y - 52)) ≤ rne (y / pow2 (expo y - 52)) :=
      rne_mono _ _ (div_le_div_of_nonneg_right hxy (le_of_lt hu))
    exact_mod_cast this

theorem le_fin (x y : ℚ) : le (fin x) (fin y) = decide (x ≤ y) := by
  unfold le lt eq
  by_cases h : x ≤ y
  · rcases lt_or_eq_of_le h with h1 | h1
    · simp [h, h1]
    · simp [h, h1]
  · have h1 : ¬ x < y := fun h2 => h (le_of_lt h2)
    have h2 : ¬ x = y := fun h2 => h (le_of_eq h2)
    simp [h, h1, h2]

theorem le_fin_iff (x y : ℚ) : le (fin x) (fin y) = true ↔ x ≤ y := by
  rw [le_fin]
  simp

theorem neg_twice (a : F64) : neg (neg a) = a := by
  cases a <;> simp [neg]

theorem clamp_mono (a b : ℚ) (h : a ≤ b) : le (clamp a) (clamp b) = true := by
  unfold clamp
  split_ifs with h1 h2 h2
  · rfl
  · exfalso; linarith
  · rfl
  · exact (le_fin_iff a b).2 h

theorem neg_clamp_mono (a b : ℚ) (h : a ≤ b) : le (neg (clamp b)) (neg (clamp a)) = true := by
  unfold clamp
  split_ifs with h1 h2 h2
  · rfl
  · rfl
  · exfalso; linarith
  · simp only [neg]
    exact (le_fin_iff _ _).2 (by linarith)

theorem neg_clamp_le_clamp (a b : ℚ) (ha : 0 ≤ a) (hb : 0 ≤ b) :
    le (neg (clamp a)) (clamp b) = true := by
  unfold clamp
  split_ifs with h1 h2 h2
  · rfl
  · rfl
  · rfl
  · simp only [neg]
    exact (le_fin_iff _ _).2 (by linarith)

theorem zero_le_clamp (b : ℚ) (hb : 0 ≤ b) : le (fin 0) (clamp b) = true := by
  unfold clamp
  split_ifs
  · rfl
  · exact (le_fin_iff _ _).2 hb

theorem neg_clamp_le_zero (a : ℚ) (ha : 0 ≤ a) : le (neg (clamp a)) (fin 0) = true := by
  unfold clamp
  split_ifs
  · rfl
  · simp only [neg]
    exact (le_fin_iff _ _).2 (by linarith)

theorem round_zero : round 0 = fin 0 := by
  unfold round
  simp

theorem round_pos (x : ℚ) (hx : 0 < x) : round x = clamp (rnd x) := by
  unfold round
  rw [if_neg (ne_of_gt hx), if_pos hx]

theorem round_neg_arg (x : ℚ) (hx : x < 0) : round x = neg (clamp (rnd (-x))) := by
  unfold round
  rw [if_neg (ne_of_lt hx), if_neg (not_lt.2 (le_of_lt hx))]

theorem round_neg (x : ℚ) : round (-x) = neg (round x) := by
  rcases lt_trichotomy x 0 with h | h | h
  · rw [round_pos (-x) (by linarith), round_neg_arg x h, neg_twice]
  · rw [h]
    simp [round_zero, neg]
  · rw [round_neg_arg (-x) (by linarith), round_pos x h]
    simp

theorem round_mono (x y : ℚ) (h : x ≤ y) : le (round x) (round y) = true := by
  rcases lt_trichotomy x 0 with hx | hx | hx
  · rw [round_neg_arg x hx]
    rcases lt_trichotomy y 0 with hy | hy | hy
    · rw [round_neg_arg y hy]
      exact neg_clamp_mono _ _ (rnd_mono _ _ (by linarith) (by linarith))
    · rw [hy, round_zero]
      exact neg_clamp_le_zero _ (rnd_nonneg _ (by linarith))
    · rw [round_pos y hy]
      exact neg_clamp_le_clamp _ _ (rnd_nonneg _ (by linarith)) (rnd_nonneg _ hy)
  · rw [hx, round_zero]
    rcases lt_or_eq_of_le (show (0 : ℚ) ≤ y by linarith) with hy | hy
    · rw [round_pos y hy]
      exact zero_le_clamp _ (rnd_nonneg _ hy)
    · rw [← hy, round_zero]
      rfl
  · have hy : 0 < y := lt_of_lt_of_le hx h
    rw [round_pos x hx, round_pos y hy]
    exact clamp_mono _ _ (rnd_mono x y hx h)

theorem clamp_eq_fin (a y : ℚ) : clamp a = fin y ↔ a < pow2 1024 ∧ y = a := by
  unfold clamp
  split_ifs with h
  · simp only [reduceCtorEq, false_iff, not_and]
    intro h1
    linarith
  · simp only [fin.injEq]
    constructor
    · intro e
      exact ⟨not_le.1 h, e.symm⟩
    · intro e
      exact e.2.symm

theorem ilog2_pow2 (k : ℤ) : ilog2 (pow2 k) = k :=
  ilog2_unique _ k (le_refl _) (pow2_lt _ _ (by omega))

theorem rnd_of_multiple (y : ℚ) (k : ℤ) (hk : y = (k : ℚ) * pow2 (expo y - 52)) : rnd y = y := by
  have hu := pow2_pos (expo y - 52)
  unfold rnd
  have : y / pow2 (expo y - 52) = (k : ℚ) := by
    rw [div_eq_iff (ne_of_gt hu)]
    exact hk
  rw [this, rne_intCast]
  exact hk.symm

theorem rnd_idem (x : ℚ) (hx : 0 < x) (hr : 0 < rnd x) : rnd (rnd x) = rnd x := by
  have hle := rnd_le x hx
  rcases lt_or_eq_of_le hle with hlt | heq
  · have h1 : ilog2 (rnd x) < expo x + 1 := by
      by_contra hcon
      push_neg at hcon
      have := pow2_le _ _ hcon
      have := (ilog2_spec _ hr).1
      linarith
    have he : expo (rnd x) = expo x := by
      by_cases hn : -1022 ≤ ilog2 x
      · have h2 := rnd_ge x hx hn
        have h3 : expo x ≤ ilog2 (rnd x) := by
          have := ilog2_mono _ _ (pow2_pos (expo x)) h2
          rw [ilog2_pow2] at this
          exact this
        have h4 : ilog2 (rnd x) = expo x := by omega
        unfold expo at h4 ⊢
        rw [h4]
        exact max_eq_left (le_max_right _ _)
      · push_neg at hn
        have h5 : expo x = -1022 := max_eq_right (le_of_lt hn)
        rw [h5] at h1 ⊢
        exact max_eq_right (by omega)
    apply rnd_of_multiple (rnd x) (rne (x / pow2 (expo x - 52)))
    rw [he]
    rfl
  · have h1 : ilog2 (rnd x) = expo x + 1 := by
      rw [heq]
      exact ilog2_pow2 _
    have he : expo (rnd x) = expo x + 1 := by
      unfold expo at h1 ⊢
      rw [h1]
      exact max_eq_left (by have := le_max_right (ilog2 x) (-1022); omega)
    apply rnd_of_multiple (rnd x) ((2 : ℤ) ^ 52)
    rw [he, ← pow2_52, ← pow2_expo]
    exact heq

theorem round_idem (x y : ℚ) (h : round x = fin y) : round y = fin y := by
  rcases lt_trichotomy x 0 with hx | hx | hx
  · rw [round_neg_arg x hx] at h
    have hcl : clamp (rnd (-x)) = fin (-y) := by
      have := congrArg neg h
      rw [neg_twice] at this
      simpa [neg] using this
    obtain ⟨h1, h2⟩ := (clamp_eq_fin _ _).1 hcl
    have hnn := rnd_nonneg (-x) (by linarith)
    rcases lt_or_eq_of_le hnn with hp | hz
    · have e : y = -(rnd (-x)) := by linarith
      rw [e, round_neg, round_pos _ hp, rnd_idem _ (by linarith) hp]
      have : clamp (rnd (-x)) = fin (rnd (-x)) := (clamp_eq_fin _ _).2 ⟨h1, rfl⟩
      rw [this]
      simp [neg]
    · have e : y = 0 := by linarith
      rw [e, round_zero]
  · rw [hx, round_zero] at h
    simp only [fin.injEq] at h
    rw [← h, round_zero]
  · rw [round_pos x hx] at h
    obtain ⟨h1, h2⟩ := (clamp_eq_fin _ _).1 h
    have hnn := rnd_nonneg x hx
    rcases lt_or_eq_of_le hnn with hp | hz
    · rw [h2, round_pos _ hp, rnd_idem x hx hp]
      exact (clamp_eq_fin _ _).2 ⟨h1, rfl⟩
    · rw [h2, ← hz, round_zero]

theorem rnd_pow2 (k : ℤ) (hk : -1022 ≤ k) : rnd (pow2 k) = pow2 k := by
  have he : expo (pow2 k) = k := by
    unfold expo
    rw [ilog2_pow2]
    exact max_eq_left hk
  apply rnd_of_multiple (pow2 k) ((2 : ℤ) ^ 52)
  rw [he, ← pow2_52, ← pow2_expo]

theorem rne_half_rne (t : ℚ) (ht : 0 ≤ t) : ((rne ((rne t : ℚ) / 2) : ℤ) : ℚ) ≤ t := by
  by_cases h : 3 / 2 ≤ t
  · have h1 := rne_upper t
    have h2 := rne_upper ((rne t : ℚ) / 2)
    linarith
  · push_neg at h
    have h1 := rne_upper t
    have h0 := rne_nonneg t ht
    have h2 : rne t < 2 := by
      have : (rne t : ℚ) < 2 := by linarith
      exact_mod_cast this
    have h3 : rne t = 0 ∨ rne t = 1 := by omega
    rcases h3 with e | e
    · rw [e]
      have : rne (((0 : ℤ) : ℚ) / 2) = 0 := by decide!
      rw [this]
      simpa using ht
    · rw [e]
      have : rne (((1 : ℤ) : ℚ) / 2) = 0 := by decide!
      rw [this]
      simpa using ht

theorem rnd_half_le (x : ℚ) (hx : 0 < x) (hd : 0 < rnd x) : rnd (rnd x / 2) ≤ x := by
  by_cases hn : -1022 ≤ ilog2 x
  · have he : expo x = ilog2 x := max_eq_left hn
    have h1 := rnd_le x hx
    rw [pow2_succ] at h1
    have h2 : rnd x / 2 ≤ pow2 (expo x) := by linarith
    have h3 := rnd_mono _ _ (by linarith) h2
    rw [rnd_pow2 _ (expo_ge x)] at h3
    have h4 := (ilog2_spec x hx).1
    rw [← he] at h4
    linarith
  · push_neg at hn
    have he : expo x = -1022 := max_eq_right (le_of_lt hn)
    have hu := pow2_pos (-1022 - 52)
    have hxlt : x < pow2 (-1022) := by
      have := (ilog2_spec x hx).2
      have h5 : pow2 (ilog2 x + 1) ≤ pow2 (-1022) := pow2_le _ _ (by omega)
      linarith
    have hrx : rnd x = (rne (x / pow2 (-1022 - 52)) : ℚ) * pow2 (-1022 - 52) := by
      unfold rnd
      rw [he]
    have hrle : rnd x ≤ pow2 (-1022) := by
      have h52 : x / pow2 (-1022 - 52) ≤ pow2 52 := by
        rw [div_le_iff₀ hu, ← pow2_expo]
        exact le_of_lt hxlt
      rw [pow2_52] at h52
      have := rne_mono _ _ h52
      rw [rne_intCast] at this
      rw [hrx, pow2_expo (-1022), pow2_52]
      apply mul_le_mul_of_nonneg_right _ (le_of_lt hu)
      exact_mod_cast this
    have hhalf : rnd x / 2 < pow2 (-1022) := by
      have := pow2_pos (-1022)
      linarith
    have he2 : expo (rnd x / 2) = -1022 := by
      unfold expo
      apply max_eq_right
      by_contra hcon
      push_neg at hcon
      have h6 := (ilog2_spec (rnd x / 2) (by linarith)).1
      have h7 : pow2 (-1022) ≤ pow2 (ilog2 (rnd x / 2)) := pow2_le _ _ (le_of_lt hcon)
      linarith
    have key := rne_half_rne (x / pow2 (-1022 - 52)) (div_nonneg (le_of_lt hx) (le_of_lt hu))
    have e : rnd (rnd x / 2)
        = (rne ((rne (x / pow2 (-1022 - 52)) : ℚ) / 2) : ℚ) * pow2 (-1022 - 52) := by
      have hdef : ∀ y : ℚ, rnd y = (rne (y / pow2 (expo y - 52)) : ℚ) * pow2 (expo y - 52) :=
        fun _ => rfl
      rw [hdef (rnd x / 2), he2]
      congr 3
      rw [hrx]
      field_simp
      ring
    rw [e]
    calc (rne ((rne (x / pow2 (-1022 - 52)) : ℚ) / 2) : ℚ) * pow2 (-1022 - 52)
        ≤ (x / pow2 (-1022 - 52)) * pow2 (-1022 - 52) :=
          mul_le_mul_of_nonneg_right key (le_of_lt hu)
      _ = x := by field_simp

/-- Halving a rounded nonnegative value and rounding again does not exceed the
value that was rounded. -/
theorem round_half_le (x d : ℚ) (hx : 0 ≤ x) (hd : round x = fin d) :
    ∃ h : ℚ, round (d / 2) = fin h ∧ 0 ≤ h ∧ h ≤ x := by
  rcases lt_or_eq_of_le hx with hpos | hz
  · rw [round_pos x hpos] at hd
    obtain ⟨h1, h2⟩ := (clamp_eq_fin _ _).1 hd
    have hnn := rnd_nonneg x hpos
    rcases lt_or_eq_of_le hnn with hp | hz
    · have hd2 : 0 < d / 2 := by rw [h2]; linarith
      have hle : rnd (d / 2) ≤ rnd x := by
        have := rnd_mono (d / 2) d hd2 (by linarith)
        rw [h2, rnd_idem x hpos hp] at this
        rw [h2]
        exact this
      refine ⟨rnd (d / 2), ?_, rnd_nonneg _ hd2, ?_⟩
      · rw [round_pos _ hd2]
        exact (clamp_eq_fin _ _).2 ⟨by linarith, rfl⟩
      · rw [h2]
        exact rnd_half_le x hpos hp
    · refine ⟨0, ?_, le_refl 0, hx⟩
      rw [h2, ← hz]
      simp [round_zero]
  · rw [← hz, round_zero] at hd
    simp only [fin.injEq] at hd
    refine ⟨0, ?_, le_refl 0, hx⟩
    rw [← hd]
    simp [round_zero]

end F64

/-! ## Comparisons of doubles -/

namespace F64

theorem lt_irrefl_f (a : F64) : lt a a = false := by
  cases a <;> simp [lt]

theorem lt_trans_f {a b c : F64} (h1 : lt a b = true) (h2 : lt b c = true) : lt a c = true := by
  cases a <;> cases b <;> cases c <;> simp_all [lt]
  all_goals linarith

theorem lt_of_lt_of_not_lt {a b c : F64} (h1 : lt a b = true) (h2 : ¬ lt c b = true)
    (hc : c ≠ nan) : lt a c = true := by
  cases a <;> cases b <;> cases c <;> simp_all [lt]
  all_goals linarith

theorem lt_ne_nan_left {a b : F64} (h : lt a b = true) : a ≠ nan := by
  intro e
  rw [e] at h
  simp [lt] at h

theorem lt_ne_nan_right {a b : F64} (h : lt a b = true) : b ≠ nan := by
  intro e
  rw [e] at h
  cases a <;> simp [lt] at h

theorem eq_iff {a b : F64} (ha : a ≠ nan) : eq a b = true ↔ a = b := by
  cases a <;> cases b <;> simp [eq] at *

theorem eq_self {a : F64} (ha : a ≠ nan) : eq a a = true := (eq_iff ha).2 rfl

theorem eq_nan_left (b : F64) : eq nan b = false := by
  cases b <;> rfl

theorem eq_nan_right (a : F64) : eq a nan = false := by
  cases a <;> rfl

theorem le_refl_f {a : F64} (ha : a ≠ nan) : le a a = true := by
  unfold le
  rw [eq_self ha]
  simp

theorem le_of_lt_f {a b : F64} (h : lt a b = true) : le a b = true := by
  unfold le
  rw [h]
  rfl

theorem le_of_not_lt {a b : F64} (ha : a ≠ nan) (hb : b ≠ nan) (h : ¬ lt a b = true) :
    le b a = true := by
  cases a <;> cases b <;> simp_all [le, lt, eq]
  exact lt_or_eq_of_le h

theorem le_antisymm_f {a b : F64} (h1 : le a b = true) (h2 : le b a = true) : a = b := by
  cases a <;> cases b <;> simp_all [le, lt, eq]
  rcases h1 with h1 | h1 <;> rcases h2 with h2 | h2 <;> linarith

theorem le_trans_f {a b c : F64} (h1 : le a b = true) (h2 : le b c = true) : le a c = true := by
  cases a <;> cases b <;> cases c <;> simp_all [le, lt, eq]
  rcases h1 with h1 | h1 <;> rcases h2 with h2 | h2
  · left; linarith
  · left; linarith
  · left; linarith
  · right; linarith

theorem le_ne_nan_left {a b : F64} (h : le a b = true) : a ≠ nan := by
  intro e
  rw [e] at h
  cases b <;> simp [le, lt, eq] at h

theorem le_ne_nan_right {a b : F64} (h : le a b = true) : b ≠ nan := by
  intro e
  rw [e] at h
  cases a <;> simp [le, lt, eq] at h

theorem not_lt_of_le {a b : F64} (h : le a b = true) : lt b a = false := by
  cases a <;> cases b <;> simp_all [le, lt, eq]
  rcases h with h | h <;> linarith

theorem min_eq_right_iff (a b : F64) : min a b = if lt b a = true then b else a := rfl

theorem max_eq_right_iff (a b : F64) : max a b = if lt a b = true then b else a := rfl

end F64

/-! ## Lemmas on the table operations, on binary64 values -/

namespace Ieee

namespace QLearner

theorem slot_snd_eq_value_f (q : QLearner) (d c : Option (List ℚ)) (a : Nat) :
    (q.slot (q.make_state d c) a).2 = q.value d c a := by
  cases h : q._Q.find (q.make_state d c) with
  | none => simp [slot, value, h, OMap.find_empty]
  | some t =>
    cases h2 : t.find a with
    | none => simp [slot, value, h, h2]
    | some r => simp [slot, value, h, h2]

theorem value_eq_record_f (q : QLearner) (d c : Option (List ℚ)) (a : Nat) :
    q.value d c a = ((q.record (q.make_state d c) a).getD {}) := by
  cases h : q._Q.find (q.make_state d c) with
  | none => simp [value, record, h]
  | some t =>
    cases h2 : t.find a with
    | none => simp [value, record, h, h2]
    | some r => simp [value, record, h, h2]

theorem record_store_self_f (q : QLearner) (s : qstate_t) (a : Nat) (r : qvalue_t) :
    (q.store s a r).record s a = some r := by
  simp [record, store, OMap.find_insert_self]

theorem record_store_ne_f (q : QLearner) (s s' : qstate_t) (a a' : Nat) (r : qvalue_t)
    (h : s' ≠ s ∨ a' ≠ a) : (q.store s a r).record s' a' = q.record s' a' := by
  by_cases hs : s' = s
  · subst hs
    have ha : a' ≠ a := by
      rcases h with h | h
      · exact absurd rfl h
      · exact h
    cases h2 : q._Q.find s' with
    | none => simp [record, store, slot, h2, OMap.find_insert_self, OMap.find_insert_ne _ _ _ _ ha,
        OMap.find_empty]
    | some t => simp [record, store, slot, h2, OMap.find_insert_self, OMap.find_insert_ne _ _ _ _ ha]
  · simp only [record, store]
    rw [OMap.find_insert_ne _ _ _ _ hs]

theorem make_state_store_f (q : QLearner) (s : qstate_t) (a : Nat) (r : qvalue_t)
    (d c : Option (List ℚ)) : (q.store s a r).make_state d c = q.make_state d c := rfl

theorem value_store_self_f (q : QLearner) (d c : Option (List ℚ)) (a : Nat) (r : qvalue_t) :
    (q.store (q.make_state d c) a r).value d c a = r := by
  rw [value_eq_record_f, make_state_store_f, record_store_self_f]
  rfl

theorem record_eq_some_iff_f (q : QLearner) (s : qstate_t) (a : Nat) (r : qvalue_t) :
    q.record s a = some r ↔ ∃ t, q._Q.find s = some t ∧ t.find a = some r := by
  unfold record
  cases h : q._Q.find s with
  | none => simp
  | some t => simp

theorem record_of_value_count_f (q : QLearner) (d c : Option (List ℚ)) (a : Nat)
    (h : 0 < (q.value d c a)._count) : q.record (q.make_state d c) a = some (q.value d c a) := by
  rw [value_eq_record_f] at h ⊢
  cases hr : q.record (q.make_state d c) a with
  | none => rw [hr] at h; simp at h
  | some r => simp

theorem better_trans_f {m : Bool} {x y z : F64} (h1 : better m x y = true)
    (h2 : better m y z = true) : better m x z = true := by
  cases m <;> simp only [better, if_true, Bool.false_eq_true, if_false] at *
  · exact F64.lt_trans_f h2 h1
  · exact F64.lt_trans_f h1 h2

theorem better_of_not_better_f {m : Bool} {x y z : F64} (h1 : better m x y = true)
    (h2 : ¬ better m z y = true) (hz : z ≠ F64.nan) : better m x z = true := by
  cases m <;> simp only [better, if_true, Bool.false_eq_true, if_false] at *
  · -- maximization: y < x, not y < z
    have hx := F64.lt_ne_nan_right h1
    have hy := F64.lt_ne_nan_left h1
    have h3 := F64.le_of_not_lt hy hz h2
    cases x <;> cases y <;> cases z <;> simp_all [F64.le, F64.lt, F64.eq]
    rcases h3 with h3 | h3 <;> linarith
  · exact F64.lt_of_lt_of_not_lt h1 h2 hz

theorem not_better_self_f (m : Bool) (x : F64) : ¬ better m x x = true := by
  cases m <;> simp [better, F64.lt_irrefl_f]

theorem best_step_eq_f (m : Bool) (best other : qvalue_t) :
    best_step m best other =
      if other._count = 0 then best
      else if better m other._value (if best._count = 0 then other else best)._value = true
        then other
      else (if best._count = 0 then other else best) := by
  unfold best_step
  by_cases h0 : other._count = 0
  · simp [h0]
  · cases m <;> simp [h0, better]

theorem bestL_snoc_f (m : Bool) (l : List (Nat × qvalue_t)) (x : Nat × qvalue_t) :
    bestL m (l ++ [x]) = best_step m (bestL m l) x.2 := by
  simp [bestL, List.foldl_append]

/-- The loop of `best_value` returns the default record when no entry is
counted, and else one of the counted entries; when no counted entry holds NaN,
that entry is strictly better than every counted entry before it and no counted
entry after it is strictly better. -/
theorem bestL_inv_f (m : Bool) (l : List (Nat × qvalue_t)) :
    ((∀ x ∈ l, x.2._count = 0) ∧ bestL m l = { _value := F64.fin 0, _count := 0 }) ∨
    (∃ pre a post, l = pre ++ (a, bestL m l) :: post ∧ (bestL m l)._count ≠ 0 ∧
      ((∀ x ∈ l, x.2._count ≠ 0 → x.2._value ≠ F64.nan) →
        (∀ x ∈ pre, x.2._count ≠ 0 → better m (bestL m l)._value x.2._value = true) ∧
        (∀ x ∈ post, x.2._count ≠ 0 → ¬ better m x.2._value (bestL m l)._value = true))) := by
  induction l using List.reverseRecOn with
  | nil => left; exact ⟨by simp, rfl⟩
  | append_singleton l x ih =>
    rw [bestL_snoc_f, best_step_eq_f]
    by_cases hx : x.2._count = 0
    · rw [if_pos hx]
      rcases ih with ⟨h0, hr⟩ | ⟨pre, a, post, hl, hc, hord⟩
      · left
        refine ⟨?_, hr⟩
        intro y hy
        rcases List.mem_append.1 hy with h | h
        · exact h0 y h
        · rw [List.mem_singleton.1 h]; exact hx
      · right
        refine ⟨pre, a, post ++ [x], ?_, hc, ?_⟩
        · conv_lhs => rw [hl]
          simp
        · intro hnan
          obtain ⟨hpre, hpost⟩ := hord (fun y hy => hnan y (List.mem_append_left _ hy))
          refine ⟨hpre, ?_⟩
          intro y hy hyc
          rcases List.mem_append.1 hy with h | h
          · exact hpost y h hyc
          · rw [List.mem_singleton.1 h] at hyc; exact absurd hx hyc
    · rw [if_neg hx]
      right
      rcases ih with ⟨h0, hr⟩ | ⟨pre, a, post, hl, hc, hord⟩
      · rw [hr]
        simp only [if_true, if_neg (not_better_self_f m x.2._value)]
        refine ⟨l, x.1, [], rfl, hx, fun _ => ⟨?_, by simp⟩⟩
        intro y hy hyc
        exact absurd (h0 y hy) hyc
      · rw [if_neg hc]
        by_cases hbt : better m x.2._value (bestL m l)._value = true
        · rw [if_pos hbt]
          refine ⟨l, x.1, [], rfl, hx, fun hnan => ⟨?_, by simp⟩⟩
          obtain ⟨hpre, hpost⟩ := hord (fun y hy => hnan y (List.mem_append_left _ hy))
          intro y hy hyc
          have hyn : y.2._value ≠ F64.nan := hnan y (List.mem_append_left _ hy) hyc
          rw [hl] at hy
          rcases List.mem_append.1 hy with h | h
          · exact better_trans_f hbt (hpre y h hyc)
          · rcases List.mem_cons.1 h with h | h
            · rw [h]; exact hbt
            · exact better_of_not_better_f hbt (hpost y h hyc) hyn
        · rw [if_neg hbt]
          refine ⟨pre, a, post ++ [x], ?_, hc, ?_⟩
          · conv_lhs => rw [hl]
            simp
          · intro hnan
            obtain ⟨hpre, hpost⟩ := hord (fun y hy => hnan y (List.mem_append_left _ hy))
            refine ⟨hpre, ?_⟩
            intro y hy hyc
            rcases List.mem_append.1 hy with h | h
            · exact hpost y h hyc
            · rw [List.mem_singleton.1 h]; exact hbt

theorem best_of_eq_bestL_f (m : Bool) (t : qaction_t) : best_of m t = bestL m t.entries := rfl

theorem best_of_default_f (m : Bool) (t : qaction_t)
    (h : ∀ a r, t.find a = some r → r._count = 0) :
    best_of m t = { _value := F64.fin 0, _count := 0 } := by
  rw [best_of_eq_bestL_f]
  rcases bestL_inv_f m t.entries with ⟨_, hr⟩ | ⟨pre, a, post, hl, hc, _⟩
  · exact hr
  · exfalso
    apply hc
    apply h a
    rw [OMap.find_iff_mem]
    have hm : (a, bestL m t.entries) ∈ pre ++ (a, bestL m t.entries) :: post := by simp
    rw [← hl] at hm
    exact hm

theorem better_iff_lt_f (m : Bool) (x y : F64) :
    better m x y = (if m then F64.lt x y else F64.lt y x) := by
  cases m <;> rfl

theorem best_of_extreme_f (m : Bool) (t : qaction_t)
    (h : ∃ a r, t.find a = some r ∧ 0 < r._count) :
    ∃ a, t.find a = some (best_of m t) ∧ 0 < (best_of m t)._count ∧
      ((∀ b r, t.find b = some r → 0 < r._count → r._value ≠ F64.nan) →
        ∀ b r, t.find b = some r → 0 < r._count →
          (if m then F64.le (best_of m t)._value r._value = true
           else F64.le r._value (best_of m t)._value = true) ∧
          (r._value = (best_of m t)._value → a ≤ b)) := by
  rw [best_of_eq_bestL_f]
  rcases bestL_inv_f m t.entries with ⟨h0, _⟩ | ⟨pre, a, post, hl, hc, hord⟩
  · exfalso
    obtain ⟨a, r, hf, hr⟩ := h
    have := h0 (a, r) ((OMap.find_iff_mem t a r).1 hf)
    simp only at this
    omega
  · have hbmem : (a, bestL m t.entries) ∈ t.entries := by
      have hm : (a, bestL m t.entries) ∈ pre ++ (a, bestL m t.entries) :: post := by simp
      rw [← hl] at hm
      exact hm
    refine ⟨a, (OMap.find_iff_mem _ _ _).2 hbmem, Nat.pos_of_ne_zero hc, ?_⟩
    intro hnan b r hf hr
    have hnanL : ∀ x ∈ t.entries, x.2._count ≠ 0 → x.2._value ≠ F64.nan := by
      intro x hx hxc
      exact hnan x.1 x.2 ((OMap.find_iff_mem _ _ _).2 hx) (Nat.pos_of_ne_zero hxc)
    obtain ⟨hpre, hpost⟩ := hord hnanL
    have hbn : (bestL m t.entries)._value ≠ F64.nan := hnanL _ hbmem hc
    have hrn : r._value ≠ F64.nan := hnan b r hf hr
    have hs := t.sorted
    rw [hl, List.pairwise_append] at hs
    obtain ⟨_, hs2, hs3⟩ := hs
    rw [List.pairwise_cons] at hs2
    have hmem := (OMap.find_iff_mem t b r).1 hf
    rw [hl] at hmem
    have hr0 : r._count ≠ 0 := Nat.pos_iff_ne_zero.1 hr
    rcases List.mem_append.1 hmem with h1 | h1
    · have hb := hpre (b, r) h1 hr0
      simp only at hb
      rw [better_iff_lt_f] at hb
      cases m <;> simp only [if_true, Bool.false_eq_true, if_false] at hb ⊢
      · refine ⟨F64.le_of_lt_f hb, fun e => ?_⟩
        rw [e, F64.lt_irrefl_f] at hb
        exact absurd hb (by decide)
      · refine ⟨F64.le_of_lt_f hb, fun e => ?_⟩
        rw [e, F64.lt_irrefl_f] at hb
        exact absurd hb (by decide)
    · rcases List.mem_cons.1 h1 with h2 | h2
      · simp only [Prod.mk.injEq] at h2
        rw [h2.1, h2.2]
        refine ⟨?_, fun _ => le_refl _⟩
        split_ifs <;> exact F64.le_refl_f hbn
      · have hb := hpost (b, r) h2 hr0
        simp only at hb
        rw [better_iff_lt_f] at hb
        have hab : a < b := hs2.1 (b, r) h2
        refine ⟨?_, fun _ => le_of_lt hab⟩
        cases m <;> simp only [if_true, Bool.false_eq_true, if_false] at hb ⊢
        · exact F64.le_of_not_lt hbn hrn hb
        · exact F64.le_of_not_lt hrn hbn hb

theorem best_value_find_f (q : QLearner) (d c : Option (List ℚ)) (t : qaction_t)
    (hf : q._Q.find (q.make_state d c) = some t) :
    q.best_value d c = best_of q._is_minimization t := by
  simp [best_value, hf]

theorem record_find_f (q : QLearner) (s : qstate_t) (t : qaction_t)
    (hf : q._Q.find s = some t) (a : Nat) : q.record s a = t.find a := by
  simp [record, hf]

/-- The best value of a state with a counted record is one of its counted
records; when no counted record of the state holds NaN it is the extreme one,
and the first of those that attain the extreme. -/
theorem best_value_counted_f (q : QLearner) (d c : Option (List ℚ))
    (h : ∃ a r, q.record (q.make_state d c) a = some r ∧ 0 < r._count) :
    ∃ a, q.record (q.make_state d c) a = some (q.best_value d c) ∧
      0 < (q.best_value d c)._count ∧
      ((∀ b r, q.record (q.make_state d c) b = some r → 0 < r._count → r._value ≠ F64.nan) →
        ∀ b r, q.record (q.make_state d c) b = some r → 0 < r._count →
          (if q._is_minimization then F64.le (q.best_value d c)._value r._value = true
           else F64.le r._value (q.best_value d c)._value = true) ∧
          (r._value = (q.best_value d c)._value → a ≤ b)) := by
  obtain ⟨a, r, hr, hc⟩ := h
  cases hf : q._Q.find (q.make_state d c) with
  | none => simp [record, hf] at hr
  | some t =>
    rw [best_value_find_f q d c t hf]
    simp only [record_find_f q _ t hf] at hr ⊢
    exact best_of_extreme_f q._is_minimization t ⟨a, r, hr, hc⟩

theorem best_value_default_of_uncounted_f (q : QLearner) (d c : Option (List ℚ))
    (h : ∀ a r, q.record (q.make_state d c) a = some r → r._count = 0) :
    q.best_value d c = { _value := F64.fin 0, _count := 0 } := by
  cases hf : q._Q.find (q.make_state d c) with
  | none => simp [best_value, hf]
  | some t =>
    rw [best_value_find_f q d c t hf]
    apply best_of_default_f
    intro a r hr
    apply h a r
    rw [record_find_f q _ t hf]
    exact hr

end QLearner

end Ieee

namespace F64

theorem eq_pinf_of_not_lt {v : F64} (hv : v ≠ nan) (h : ¬ lt v pinf = true) : v = pinf := by
  cases v <;> simp_all [lt]

theorem eq_ninf_of_not_lt {v : F64} (hv : v ≠ nan) (h : ¬ lt ninf v = true) : v = ninf := by
  cases v <;> simp_all [lt]

end F64

namespace Ieee

namespace QLearner

theorem statsL_snoc_f (l : List (Nat × qvalue_t)) (x : Nat × qvalue_t) :
    statsL (l ++ [x]) = stats_step (statsL l) x.2 := by
  simp [statsL, List.foldl_append]

theorem countedL_snoc_f (l : List (Nat × qvalue_t)) (x : Nat × qvalue_t) :
    countedL (l ++ [x]) = countedL l ++ (if x.2._count ≠ 0 then [x] else []) := by
  unfold countedL
  rw [List.filter_append]
  by_cases h : x.2._count = 0 <;> simp [List.filter, h]

theorem stats_step_uncounted_f (acc : F64 × F64 × Nat × Nat) (r : qvalue_t) (h : r._count = 0) :
    stats_step acc r = acc := by
  simp [stats_step, h]

theorem stats_step_counted_f (acc : F64 × F64 × Nat × Nat) (r : qvalue_t) (h : r._count ≠ 0) :
    stats_step acc r = (F64.min acc.1 r._value, F64.max acc.2.1 r._value,
      acc.2.2.1 + r._count, acc.2.2.2 + 1) := by
  simp [stats_step, h]

theorem statsL_counts_f (l : List (Nat × qvalue_t)) :
    (statsL l).2.2.1 = ((countedL l).map (fun x => x.2._count)).sum ∧
    (statsL l).2.2.2 = (countedL l).length := by
  induction l using List.reverseRecOn with
  | nil => simp [statsL, countedL]
  | append_singleton l x ih =>
    obtain ⟨hsum, hlen⟩ := ih
    rw [statsL_snoc_f, countedL_snoc_f]
    by_cases hx : x.2._count = 0
    · rw [stats_step_uncounted_f _ _ hx]
      simp only [hx, ne_eq, not_true_eq_false, if_false, List.append_nil]
      exact ⟨hsum, hlen⟩
    · rw [stats_step_counted_f _ _ hx]
      simp only [ne_eq, hx, not_false_eq_true, if_true]
      constructor
      · simp [hsum]
      · simp [hlen]

/-- The lower bound computed by `search_statistics` is never NaN: it is below
every counted value that is not NaN, it is one of them when there is one, and
plus infinity otherwise. -/
theorem statsL_lower_f (l : List (Nat × qvalue_t)) :
    (statsL l).1 ≠ F64.nan ∧
    (∀ x ∈ countedL l, x.2._value ≠ F64.nan → F64.le (statsL l).1 x.2._value = true) ∧
    ((∀ x ∈ countedL l, x.2._value = F64.nan) → (statsL l).1 = F64.pinf) ∧
    ((∃ x ∈ countedL l, x.2._value ≠ F64.nan) → ∃ x ∈ countedL l, x.2._value = (statsL l).1) := by
  induction l using List.reverseRecOn with
  | nil =>
    refine ⟨by simp [statsL], by simp [countedL], fun _ => rfl, ?_⟩
    rintro ⟨x, hx, _⟩
    simp [countedL] at hx
  | append_singleton l x ih =>
    obtain ⟨h1, h2, h3, h4⟩ := ih
    rw [statsL_snoc_f, countedL_snoc_f]
    by_cases hx : x.2._count = 0
    · rw [stats_step_uncounted_f _ _ hx]
      simp only [hx, ne_eq, not_true_eq_false, if_false, List.append_nil]
      exact ⟨h1, h2, h3, h4⟩
    · rw [stats_step_counted_f _ _ hx]
      simp only [ne_eq, hx, not_false_eq_true, if_true, F64.min_eq_right_iff]
      by_cases hlt : F64.lt x.2._value (statsL l).1 = true
      · rw [if_pos hlt]
        have hv := F64.lt_ne_nan_left hlt
        refine ⟨hv, ?_, ?_, ?_⟩
        · intro y hy hyn
          rcases List.mem_append.1 hy with h | h
          · exact F64.le_trans_f (F64.le_of_lt_f hlt) (h2 y h hyn)
          · rw [List.mem_singleton.1 h]
            exact F64.le_refl_f hv
        · intro hall
          exact absurd (hall x (by simp)) hv
        · intro _
          exact ⟨x, by simp, rfl⟩
      · rw [if_neg hlt]
        refine ⟨h1, ?_, ?_, ?_⟩
        · intro y hy hyn
          rcases List.mem_append.1 hy with h | h
          · exact h2 y h hyn
          · rw [List.mem_singleton.1 h] at hyn ⊢
            exact F64.le_of_not_lt hyn h1 hlt
        · intro hall
          exact h3 (fun y hy => hall y (List.mem_append_left _ hy))
        · rintro ⟨y, hy, hyn⟩
          by_cases hex : ∃ z ∈ countedL l, z.2._value ≠ F64.nan
          · obtain ⟨z, hz, e⟩ := h4 hex
            exact ⟨z, List.mem_append_left _ hz, e⟩
          · push_neg at hex
            have hp := h3 hex
            rcases List.mem_append.1 hy with h | h
            · exact absurd (hex y h) hyn
            · rw [List.mem_singleton.1 h] at hyn
              rw [hp] at hlt ⊢
              exact ⟨x, by simp, F64.eq_pinf_of_not_lt hyn hlt⟩

/-- The upper bound computed by `search_statistics` is never NaN: it is above
every counted value that is not NaN, it is one of them when there is one, and
minus infinity otherwise. -/
theorem statsL_upper_f (l : List (Nat × qvalue_t)) :
    (statsL l).2.1 ≠ F64.nan ∧
    (∀ x ∈ countedL l, x.2._value ≠ F64.nan → F64.le x.2._value (statsL l).2.1 = true) ∧
    ((∀ x ∈ countedL l, x.2._value = F64.nan) → (statsL l).2.1 = F64.ninf) ∧
    ((∃ x ∈ countedL l, x.2._value ≠ F64.nan) →
      ∃ x ∈ countedL l, x.2._value = (statsL l).2.1) := by
  induction l using List.reverseRecOn with
  | nil =>
    refine ⟨by simp [statsL], by simp [countedL], fun _ => rfl, ?_⟩
    rintro ⟨x, hx, _⟩
    simp [countedL] at hx
  | append_singleton l x ih =>
    obtain ⟨h1, h2, h3, h4⟩ := ih
    rw [statsL_snoc_f, countedL_snoc_f]
    by_cases hx : x.2._count = 0
    · rw [stats_step_uncounted_f _ _ hx]
      simp only [hx, ne_eq, not_true_eq_false, if_false, List.append_nil]
      exact ⟨h1, h2, h3, h4⟩
    · rw [stats_step_counted_f _ _ hx]
      simp only [ne_eq, hx, not_false_eq_true, if_true, F64.max_eq_right_iff]
      by_cases hlt : F64.lt (statsL l).2.1 x.2._value = true
      · rw [if_pos hlt]
        have hv := F64.lt_ne_nan_right hlt
        refine ⟨hv, ?_, ?_, ?_⟩
        · intro y hy hyn
          rcases List.mem_append.1 hy with h | h
          · exact F64.le_trans_f (h2 y h hyn) (F64.le_of_lt_f hlt)
          · rw [List.mem_singleton.1 h]
            exact F64.le_refl_f hv
        · intro hall
          exact absurd (hall x (by simp)) hv
        · intro _
          exact ⟨x, by simp, rfl⟩
      · rw [if_neg hlt]
        refine ⟨h1, ?_, ?_, ?_⟩
        · intro y hy hyn
          rcases List.mem_append.1 hy with h | h
          · exact h2 y h hyn
          · rw [List.mem_singleton.1 h] at hyn ⊢
            exact F64.le_of_not_lt h1 hyn hlt
        · intro hall
          exact h3 (fun y hy => hall y (List.mem_append_left _ hy))
        · rintro ⟨y, hy, hyn⟩
          by_cases hex : ∃ z ∈ countedL l, z.2._value ≠ F64.nan
          · obtain ⟨z, hz, e⟩ := h4 hex
            exact ⟨z, List.mem_append_left _ hz, e⟩
          · push_neg at hex
            have hp := h3 hex
            rcases List.mem_append.1 hy with h | h
            · exact absurd (hex y h) hyn
            · rw [List.mem_singleton.1 h] at hyn
              rw [hp] at hlt ⊢
              exact ⟨x, by simp, F64.eq_ninf_of_not_lt hyn hlt⟩

theorem search_statistics_eq_statsL_f (q : QLearner) (d c : Option (List ℚ)) :
    q.search_statistics d c = statsL (q.counted_src (q.make_state d c)) := by
  cases h : q._Q.find (q.make_state d c) with
  | none => simp [search_statistics, counted_src, h, statsL, OMap.empty]
  | some t => simp [search_statistics, counted_src, h, statsL]

theorem counted_eq_countedL_f (q : QLearner) (s : qstate_t) :
    q.counted s = countedL (q.counted_src s) := rfl

theorem mem_counted_iff_f (q : QLearner) (s : qstate_t) (a : Nat) (r : qvalue_t) :
    (a, r) ∈ q.counted s ↔ q.record s a = some r ∧ 0 < r._count := by
  unfold counted counted_src record
  cases h : q._Q.find s with
  | none => simp [OMap.empty]
  | some t =>
    simp only [Option.getD_some, List.mem_filter, Option.some_bind, OMap.find_iff_mem,
      decide_eq_true_eq, Nat.pos_iff_ne_zero]

theorem counted_nodup_f (q : QLearner) (s : qstate_t) : ((q.counted s).map Prod.fst).Nodup := by
  unfold counted counted_src
  have hs := ((q._Q.find s).getD OMap.empty).sorted
  have h2 := List.Pairwise.filter (fun x : Nat × qvalue_t => decide (x.2._count ≠ 0)) hs
  rw [List.Nodup, List.pairwise_map]
  exact h2.imp (fun h => ne_of_lt h)

theorem length_le_sum_counts_f (l : List (Nat × qvalue_t)) (h : ∀ x ∈ l, x.2._count ≠ 0) :
    l.length ≤ (l.map (fun x => x.2._count)).sum := by
  induction l with
  | nil => simp
  | cons hd tl ih =>
    have h1 := h hd (List.mem_cons_self _ _)
    have h2 := ih (fun x hx => h x (List.mem_cons_of_mem _ hx))
    simp only [List.length_cons, List.map_cons, List.sum_cons]
    omega

theorem value_mem_counted_f (q : QLearner) (d c : Option (List ℚ)) (a : Nat)
    (h : (q.value d c a)._count ≠ 0) : (a, q.value d c a) ∈ q.counted (q.make_state d c) := by
  have hpos : 0 < (q.value d c a)._count := Nat.pos_of_ne_zero h
  exact (mem_counted_iff_f q _ _ _).2 ⟨record_of_value_count_f q d c a hpos, hpos⟩

/-- The statistics of a state, read off the list of its counted records. -/
theorem stats_shape_f (q : QLearner) (d c : Option (List ℚ)) :
    (q.search_statistics d c).2.2.1
      = ((q.counted (q.make_state d c)).map (fun x => x.2._count)).sum ∧
    (q.search_statistics d c).2.2.2 = (q.counted (q.make_state d c)).length ∧
    (q.search_statistics d c).1 ≠ F64.nan ∧ (q.search_statistics d c).2.1 ≠ F64.nan ∧
    (∀ x ∈ q.counted (q.make_state d c), x.2._value ≠ F64.nan →
      F64.le (q.search_statistics d c).1 x.2._value = true ∧
      F64.le x.2._value (q.search_statistics d c).2.1 = true) ∧
    ((∀ x ∈ q.counted (q.make_state d c), x.2._value = F64.nan) →
      (q.search_statistics d c).1 = F64.pinf ∧ (q.search_statistics d c).2.1 = F64.ninf) ∧
    ((∃ x ∈ q.counted (q.make_state d c), x.2._value ≠ F64.nan) →
      (∃ x ∈ q.counted (q.make_state d c), x.2._value = (q.search_statistics d c).1) ∧
      (∃ x ∈ q.counted (q.make_state d c), x.2._value = (q.search_statistics d c).2.1)) := by
  have hc := statsL_counts_f (q.counted_src (q.make_state d c))
  have hl := statsL_lower_f (q.counted_src (q.make_state d c))
  have hu := statsL_upper_f (q.counted_src (q.make_state d c))
  rw [← search_statistics_eq_statsL_f, ← counted_eq_countedL_f] at hc hl hu
  exact ⟨hc.1, hc.2, hl.1, hu.1, fun x hx hn => ⟨hl.2.1 x hx hn, hu.2.1 x hx hn⟩,
    fun h => ⟨hl.2.2.1 h, hu.2.2.1 h⟩, fun h => ⟨hl.2.2.2 h, hu.2.2.2 h⟩⟩

theorem counted_ne_nil_of_sum_f (q : QLearner) (d c : Option (List ℚ))
    (hs : (q.search_statistics d c).2.2.1 ≠ 0) : q.counted (q.make_state d c) ≠ [] := by
  intro h
  apply hs
  rw [(stats_shape_f q d c).1, h]
  rfl

theorem sum_pos_of_counted_f (q : QLearner) (d c : Option (List ℚ))
    (hne : q.counted (q.make_state d c) ≠ []) :
    1 ≤ (q.search_statistics d c).2.2.2 ∧
    (q.search_statistics d c).2.2.2 ≤ (q.search_statistics d c).2.2.1 := by
  obtain ⟨hsum, hlen, _⟩ := stats_shape_f q d c
  constructor
  · rw [hlen]
    exact List.length_pos.2 hne
  · rw [hsum, hlen]
    apply length_le_sum_counts_f
    intro x hx
    have := ((mem_counted_iff_f q _ x.1 x.2).1 hx).2
    omega

end QLearner

end Ieee

/-! ## Classification, marking and the query, on binary64 values -/

namespace Ieee

namespace QLearner

theorem is_allowed_eq_f (q : QLearner) (d c : Option (List ℚ)) (a : Nat) :
    q.is_allowed d c a =
      if (q.value d c a)._uncover = true then (false, true)
      else if (decide ((q.value d c a)._count > 0) &&
          F64.eq (q.value d c a)._value (q.best_value d c)._value) = true then (true, true)
      else if (q.best_value d c)._count = 0 then (false, false)
      else (false, true) := rfl

theorem is_allowed_fst_f (q : QLearner) (d c : Option (List ℚ)) (a : Nat) :
    (q.is_allowed d c a).1 = true ↔
      ((q.value d c a)._uncover = false ∧ 0 < (q.value d c a)._count ∧
        F64.eq (q.value d c a)._value (q.best_value d c)._value = true) := by
  rw [is_allowed_eq_f]
  by_cases hu : (q.value d c a)._uncover = true
  · simp [hu]
  · by_cases hc : 0 < (q.value d c a)._count ∧
        F64.eq (q.value d c a)._value (q.best_value d c)._value = true
    · simp [hu, hc]
    · have hc2 : ¬ (decide ((q.value d c a)._count > 0) &&
          F64.eq (q.value d c a)._value (q.best_value d c)._value) = true := by
        simpa using hc
      simp only [hu, hc2, if_false, Bool.false_eq_true]
      constructor
      · intro h
        split_ifs at h
      · intro h
        exact absurd ⟨h.2.1, h.2.2⟩ hc

theorem mark_of_not_allowed_f (q : QLearner) (d c : Option (List ℚ)) (a : Nat)
    (h : (q.is_allowed d c a).1 = false) : q.mark d c a = q := by
  unfold mark
  simp [h]

theorem mark_of_allowed_f (q : QLearner) (d c : Option (List ℚ)) (a : Nat)
    (h : (q.is_allowed d c a).1 = true) :
    q.mark d c a = q.store (q.make_state d c) a { q.value d c a with _select := true } := by
  have hc := ((is_allowed_fst_f q d c a).1 h).2.1
  have hr := record_of_value_count_f q d c a hc
  obtain ⟨t, ht, hta⟩ := (record_eq_some_iff_f q _ a _).1 hr
  unfold mark store slot
  simp [h, ht, hta]

theorem mark_eq_or_store_f (q : QLearner) (d c : Option (List ℚ)) (a : Nat) :
    q.mark d c a = q ∨
    ((q.is_allowed d c a).1 = true ∧
      q.record (q.make_state d c) a = some (q.value d c a) ∧
      q.mark d c a = q.store (q.make_state d c) a { q.value d c a with _select := true }) := by
  cases hal : (q.is_allowed d c a).1 with
  | false => left; exact mark_of_not_allowed_f q d c a hal
  | true =>
    right
    have hc := ((is_allowed_fst_f q d c a).1 hal).2.1
    exact ⟨rfl, record_of_value_count_f q d c a hc, mark_of_allowed_f q d c a hal⟩

theorem best_step_same_f (m : Bool) (b b' o o' : qvalue_t) (hb : sameEstimate b b')
    (ho : sameEstimate o o') : sameEstimate (best_step m b o) (best_step m b' o') := by
  obtain ⟨hb1, hb2⟩ := hb
  obtain ⟨ho1, ho2⟩ := ho
  rw [best_step_eq_f, best_step_eq_f, hb2, ho2, ho1]
  by_cases h0 : o'._count = 0
  · simp only [h0, if_true]
    exact ⟨hb1, hb2⟩
  · simp only [h0, if_false]
    by_cases hbc : b'._count = 0
    · simp only [hbc, if_true, ho1]
      split_ifs <;> exact ⟨ho1, ho2⟩
    · simp only [hbc, if_false, hb1]
      split_ifs
      · exact ⟨ho1, ho2⟩
      · exact ⟨hb1, hb2⟩

theorem foldl_best_same_f (m : Bool) (l l' : List (Nat × qvalue_t))
    (h : List.Forall₂ (fun x y => sameEstimate x.2 y.2) l l') (b b' : qvalue_t)
    (hb : sameEstimate b b') :
    sameEstimate (l.foldl (fun best other => best_step m best other.2) b)
      (l'.foldl (fun best other => best_step m best other.2) b') := by
  induction h generalizing b b' with
  | nil => exact hb
  | cons hxy _ ih =>
    simp only [List.foldl_cons]
    exact ih _ _ (best_step_same_f m _ _ _ _ hb hxy)

theorem best_value_store_same_f (q : QLearner) (d c : Option (List ℚ)) (a : Nat)
    (r r' : qvalue_t) (hr : q.record (q.make_state d c) a = some r) (hs : sameEstimate r' r) :
    sameEstimate ((q.store (q.make_state d c) a r').best_value d c) (q.best_value d c) := by
  obtain ⟨t, ht, hta⟩ := (record_eq_some_iff_f q _ a r).1 hr
  have e1 : (q.store (q.make_state d c) a r').best_value d c
      = best_of q._is_minimization (t.insert a r') := by
    unfold best_value
    rw [make_state_store_f]
    simp [store, slot, ht, OMap.find_insert_self]
  have e2 : q.best_value d c = best_of q._is_minimization t := by
    simp [best_value, ht]
  rw [e1, e2]
  unfold best_of
  apply foldl_best_same_f
  · exact OMap.insertL_forall2 sameEstimate (fun v => ⟨rfl, rfl⟩) a r r' t.entries t.sorted hta hs
  · exact ⟨rfl, rfl⟩

theorem is_allowed_mark_f (q : QLearner) (d c : Option (List ℚ)) (a : Nat) :
    (q.mark d c a).is_allowed d c a = q.is_allowed d c a := by
  cases hal : (q.is_allowed d c a).1 with
  | false => rw [mark_of_not_allowed_f q d c a hal]
  | true =>
    have hc := ((is_allowed_fst_f q d c a).1 hal).2.1
    have hr := record_of_value_count_f q d c a hc
    have hb := best_value_store_same_f q d c a (q.value d c a)
      { q.value d c a with _select := true } hr ⟨rfl, rfl⟩
    rw [mark_of_allowed_f q d c a hal]
    rw [is_allowed_eq_f, is_allowed_eq_f, value_store_self_f, hb.1, hb.2]

theorem stats_step_same_f (acc : F64 × F64 × Nat × Nat) (o o' : qvalue_t)
    (h : sameEstimate o o') : stats_step acc o = stats_step acc o' := by
  unfold stats_step
  rw [h.1, h.2]

theorem foldl_stats_same_f (l l' : List (Nat × qvalue_t))
    (h : List.Forall₂ (fun x y => sameEstimate x.2 y.2) l l') (acc : F64 × F64 × Nat × Nat) :
    l.foldl (fun acc stats => stats_step acc stats.2) acc
      = l'.foldl (fun acc stats => stats_step acc stats.2) acc := by
  induction h generalizing acc with
  | nil => rfl
  | cons hxy _ ih =>
    simp only [List.foldl_cons]
    rw [stats_step_same_f acc _ _ hxy]
    exact ih _

theorem search_statistics_store_same_f (q : QLearner) (d c : Option (List ℚ)) (a : Nat)
    (r r' : qvalue_t) (hr : q.record (q.make_state d c) a = some r) (hs : sameEstimate r' r) :
    (q.store (q.make_state d c) a r').search_statistics d c = q.search_statistics d c := by
  obtain ⟨t, ht, hta⟩ := (record_eq_some_iff_f q _ a r).1 hr
  have e1 : (q.store (q.make_state d c) a r').search_statistics d c
      = (t.insert a r').entries.foldl (fun acc stats => stats_step acc stats.2)
          (F64.pinf, F64.ninf, 0, 0) := by
    unfold search_statistics
    rw [make_state_store_f]
    simp [store, slot, ht, OMap.find_insert_self]
  have e2 : q.search_statistics d c
      = t.entries.foldl (fun acc stats => stats_step acc stats.2) (F64.pinf, F64.ninf, 0, 0) := by
    simp [search_statistics, ht]
  rw [e1, e2]
  apply foldl_stats_same_f
  exact OMap.insertL_forall2 sameEstimate (fun v => ⟨rfl, rfl⟩) a r r' t.entries t.sorted hta hs

theorem queried_cases_f (q : QLearner) (d c : Option (List ℚ)) (a : Nat) :
    q.queried d c a = q ∨
    (q.record (q.make_state d c) a = some (q.value d c a) ∧
      q.queried d c a = q.store (q.make_state d c) a { q.value d c a with _select := true }) := by
  unfold queried
  split_ifs
  · rcases mark_eq_or_store_f q d c a with e | ⟨_, hr, e⟩
    · left; exact e
    · right; exact ⟨hr, e⟩
  · left; rfl

theorem queried_statistics_f (q : QLearner) (d c : Option (List ℚ)) (a : Nat) :
    (q.queried d c a).search_statistics d c = q.search_statistics d c := by
  rcases queried_cases_f q d c a with e | ⟨hr, e⟩
  · rw [e]
  · rw [e]
    exact search_statistics_store_same_f q d c a _ _ hr ⟨rfl, rfl⟩

theorem queried_value_f (q : QLearner) (d c : Option (List ℚ)) (a : Nat) :
    sameEstimate ((q.queried d c a).value d c a) (q.value d c a) := by
  rcases queried_cases_f q d c a with e | ⟨_, e⟩
  · rw [e]; exact ⟨rfl, rfl⟩
  · rw [e, value_store_self_f]; exact ⟨rfl, rfl⟩

theorem queried_is_minimization_f (q : QLearner) (d c : Option (List ℚ)) (a : Nat) :
    (q.queried d c a)._is_minimization = q._is_minimization := by
  rcases queried_cases_f q d c a with e | ⟨_, e⟩
  · rw [e]
  · rw [e]; rfl

theorem queried_learning_f (q : QLearner) (d c : Option (List ℚ)) (a : Nat) :
    (q.queried d c a).learning = q.learning := by
  rcases queried_cases_f q d c a with e | ⟨_, e⟩
  · rw [e]
  · rw [e]; rfl

theorem queried_uncovered_f (q : QLearner) (d c : Option (List ℚ)) (a : Nat) :
    (q.queried d c a).uncovered = q.uncovered := by
  rcases queried_cases_f q d c a with e | ⟨_, e⟩
  · rw [e]
  · rw [e]; rfl

theorem queried_make_state_f (q : QLearner) (d c : Option (List ℚ)) (a : Nat)
    (d1 c1 : Option (List ℚ)) : (q.queried d c a).make_state d1 c1 = q.make_state d1 c1 := by
  rcases queried_cases_f q d c a with e | ⟨_, e⟩
  · rw [e]
  · rw [e]; rfl

theorem queried_is_allowed_f (q : QLearner) (d c : Option (List ℚ)) (a : Nat) :
    (q.queried d c a).is_allowed d c a = q.is_allowed d c a := by
  unfold queried
  split_ifs
  · exact is_allowed_mark_f q d c a
  · rfl

theorem queried_relative_f (q : QLearner) (d c : Option (List ℚ)) (a : Nat) :
    (q.queried d c a).relative d c a = q.relative d c a := by
  simp only [relative, queried_statistics_f, queried_is_minimization_f, (queried_value_f q d c a).1,
    (queried_value_f q d c a).2]

theorem queried_score_f (m : Libm) (q : QLearner) (d c : Option (List ℚ)) (a : Nat) :
    (q.queried d c a).score m d c a = q.score m d c a := by
  simp only [score, queried_statistics_f, queried_relative_f, (queried_value_f q d c a).2]

end QLearner

/-- The training-mode query, in terms of the statistics of the state: it always
returns, and its weight is 0 when `sum_count` is zero, 1 when `upper - lower`
compares equal to zero, and the sum `score` otherwise. -/
theorem predict_train_f (m : Libm) (q : QLearner) (a : Nat) (d c : Option (List ℚ)) :
    uppaal_external_learner_predict m q false a d c =
      some (if (q.search_statistics d c).2.2.1 = 0 then F64.fin 0
        else if F64.eq (F64.sub (q.search_statistics d c).2.1 (q.search_statistics d c).1)
            (F64.fin 0) = true then F64.fin 1
        else q.score m d c a, q.queried d c a) := by
  have h : uppaal_external_learner_predict m q false a d c =
      some (if ((q.queried d c a).search_statistics d c).2.2.1 = 0 then F64.fin 0
        else if F64.eq (F64.sub ((q.queried d c a).search_statistics d c).2.1
            ((q.queried d c a).search_statistics d c).1) (F64.fin 0) = true then F64.fin 1
        else (q.queried d c a).score m d c a, q.queried d c a) := by
    unfold uppaal_external_learner_predict QLearner.queried
    simp only [Bool.false_eq_true, if_false]
    generalize (if (!q.learning) = true then q.mark d c a else q) = q1
    by_cases h1 : (q1.search_statistics d c).2.2.1 = 0
    · simp only [h1, if_true]
    · by_cases h2 : F64.eq (F64.sub (q1.search_statistics d c).2.1 (q1.search_statistics d c).1)
          (F64.fin 0) = true
      · simp only [h1, h2, if_true, if_false]
      · simp only [h1, h2, if_false, Bool.false_eq_true]
        rfl
  rw [h, QLearner.queried_statistics_f, QLearner.queried_score_f]

/-- The evaluation-mode query, in terms of the classification of the pair on
the learner as it is before the call. -/
theorem predict_eval_f (m : Libm) (q : QLearner) (a : Nat) (d c : Option (List ℚ)) :
    uppaal_external_learner_predict m q true a d c =
      if q.is_allowed d c a = (true, true) then some (F64.fin 1, q.queried d c a)
      else if (q.is_allowed d c a).2 = true then some (F64.fin 0, q.queried d c a)
      else if q.reads_out_of_bounds d c a = true then none
      else some (F64.fin 0,
        if q.learning = false ∧ q.make_state d c ∉ q.uncovered then
          { q.queried d c a with uncovered := q.uncovered ++ [q.make_state d c] }
        else q.queried d c a) := by
  have hal := QLearner.queried_is_allowed_f q d c a
  have hle := QLearner.queried_learning_f q d c a
  have hun := QLearner.queried_uncovered_f q d c a
  unfold uppaal_external_learner_predict QLearner.reads_out_of_bounds
  simp only [if_true]
  change (if (((q.queried d c a).is_allowed d c a).1 && ((q.queried d c a).is_allowed d c a).2) = true
      then some (F64.fin 1, q.queried d c a)
    else if ((q.queried d c a).is_allowed d c a).2 = true then some (F64.fin 0, q.queried d c a)
    else if (!(q.queried d c a).learning) = true then
      if q.make_state d c ∈ (q.queried d c a).uncovered then some (F64.fin 0, q.queried d c a)
      else if (ofLex (q.make_state d c)).1.length < 2 then none
      else some (F64.fin 0,
        { q.queried d c a with uncovered := (q.queried d c a).uncovered ++ [q.make_state d c] })
    else some (F64.fin 0, q.queried d c a)) = _
  rw [hal, hle, hun]
  rcases hq : q.is_allowed d c a with ⟨al, fo⟩
  cases al <;> cases fo <;> cases hl : q.learning <;>
    by_cases hm : q.make_state d c ∈ q.uncovered <;>
    by_cases hlen : (ofLex (q.make_state d c)).1.length < 2 <;>
    simp [hm, hlen, hle, hl]

end Ieee

/-! ## Best value of a state, on binary64 values -/

namespace Ieee

theorem tieLearner_find :
    tieLearner._Q.find (tieLearner.make_state (some [0]) none)
      = some ⟨[(0, { _value := F64.fin 2, _count := 2 }), (1, { _value := F64.fin 2, _count := 1 }),
               (2, { _value := F64.fin 7, _count := 1 })], by simp⟩ := by decide!

theorem tieLearner_records (b : Nat) (r : qvalue_t)
    (h : tieLearner.record (tieLearner.make_state (some [0]) none) b = some r) :
    r._value = F64.fin 2 ∨ r._value = F64.fin 7 := by
  unfold QLearner.record at h
  rw [tieLearner_find] at h
  simp only [Option.some_bind, OMap.find, OMap.findL] at h
  split_ifs at h <;> simp only [Option.some.injEq] at h <;> rw [← h] <;> simp

theorem tieLearner_no_nan (b : Nat) (r : qvalue_t)
    (h : tieLearner.record (tieLearner.make_state (some [0]) none) b = some r) :
    r._value ≠ F64.nan := by
  rcases tieLearner_records b r h with e | e <;> rw [e] <;> simp

end Ieee

/-- C3 (amended): `best_value(state)` is the default record (0, 0) when the
state has no record with a positive count (in particular when it has no entry);
otherwise it is a stored record of the state with a positive count, and when no
record of the state with a positive count holds NaN its value is the least
(minimization) or the greatest (maximization) among the values of the records of
the state with a positive count, and every such record with the same value
belongs to an action identifier that is not smaller: it is the first one in
action order. -/
theorem best_value_extreme_first (q : Ieee.QLearner) (d c : Option (List ℚ)) :
    ((∀ a r, q.record (q.make_state d c) a = some r → r._count = 0) →
      q.best_value d c = { _value := F64.fin 0, _count := 0 }) ∧
    ((∃ a r, q.record (q.make_state d c) a = some r ∧ 0 < r._count) →
      ∃ a, q.record (q.make_state d c) a = some (q.best_value d c) ∧
        0 < (q.best_value d c)._count ∧
        ((∀ b r, q.record (q.make_state d c) b = some r → 0 < r._count → r._value ≠ F64.nan) →
          ∀ b r, q.record (q.make_state d c) b = some r → 0 < r._count →
            (if q._is_minimization then F64.le (q.best_value d c)._value r._value = true
             else F64.le r._value (q.best_value d c)._value = true) ∧
            (r._value = (q.best_value d c)._value → a ≤ b))) := by
  cases h : q._Q.find (q.make_state d c) with
  | none =>
    refine ⟨fun _ => by simp [Ieee.QLearner.best_value, h], ?_⟩
    rintro ⟨a, r, hr, _⟩
    simp [Ieee.QLearner.record, h] at hr
  | some t =>
    have hb : q.best_value d c = Ieee.QLearner.best_of q._is_minimization t := by
      simp [Ieee.QLearner.best_value, h]
    have hrec : ∀ a r, q.record (q.make_state d c) a = some r ↔ t.find a = some r := by
      intro a r
      simp [Ieee.QLearner.record, h]
    rw [hb]
    refine ⟨fun h0 => ?_, fun h1 => ?_⟩
    · exact Ieee.QLearner.best_of_default_f _ t (fun a r hf => h0 a r ((hrec a r).2 hf))
    · obtain ⟨a, r, hr, hc⟩ := h1
      obtain ⟨a0, h2, h3, h4⟩ :=
        Ieee.QLearner.best_of_extreme_f q._is_minimization t ⟨a, r, (hrec a r).1 hr, hc⟩
      refine ⟨a0, (hrec _ _).2 h2, h3, fun hnan b r' hf hc' => ?_⟩
      exact h4 (fun b1 r1 hf1 hc1 => hnan b1 r1 ((hrec b1 r1).2 hf1) hc1) b r'
        ((hrec b r').1 hf) hc'

/-- C3 (amended), at a concrete table: in `tieLearner` no record holds NaN and
the actions 0 and 1 tie at the least value 2; the best value is the record of
action 0, (2, 2). -/
theorem best_value_extreme_first_witness :
    Ieee.tieLearner.best_value (some [0]) none = { _value := F64.fin 2, _count := 2 } ∧
    ∃ a, Ieee.tieLearner.record (Ieee.tieLearner.make_state (some [0]) none) a
          = some (Ieee.tieLearner.best_value (some [0]) none) ∧
        0 < (Ieee.tieLearner.best_value (some [0]) none)._count ∧
        ∀ b r, Ieee.tieLearner.record (Ieee.tieLearner.make_state (some [0]) none) b = some r →
          0 < r._count →
          (if Ieee.tieLearner._is_minimization then
              F64.le (Ieee.tieLearner.best_value (some [0]) none)._value r._value = true
           else F64.le r._value (Ieee.tieLearner.best_value (some [0]) none)._value = true) ∧
          (r._value = (Ieee.tieLearner.best_value (some [0]) none)._value → a ≤ b) :=
  ⟨by decide!,
   Exists.imp (fun _ h => ⟨h.1, h.2.1, h.2.2 (fun b r hr _ => Ieee.tieLearner_no_nan b r hr)⟩)
     ((best_value_extreme_first Ieee.tieLearner (some [0]) none).2
       ⟨1, { _value := F64.fin 2, _count := 1 }, by decide!, by decide⟩)⟩

/-- C3 (as stated, refuted): the value of `best_value(state)` need not be the
least of the values with a positive count.  Three terminal samples of action 0
at state `[0]` with the rewards `2^1023`, `-2^1023` and 0 store NaN (the second
update overflows to minus infinity, the third adds plus infinity to it); after a
sample of action 1 with reward 5, the best value of the minimizing learner is
the record (NaN, 3) of action 0, which is not below the value 5 of action 1. -/
theorem best_value_nan_counterexample :
    Ieee.nanLearner.record (Ieee.nanLearner.make_state (some [0]) none) 0
      = some { _value := F64.nan, _count := 3 } ∧
    Ieee.nanLearner.record (Ieee.nanLearner.make_state (some [0]) none) 1
      = some { _value := F64.fin 5, _count := 1 } ∧
    Ieee.nanLearner.best_value (some [0]) none = { _value := F64.nan, _count := 3 } ∧
    ¬ (∀ (q : Ieee.QLearner) (d c : Option (List ℚ)) (b : Nat) (r : Ieee.qvalue_t),
        q._is_minimization = true → q.record (q.make_state d c) b = some r → 0 < r._count →
        F64.le (q.best_value d c)._value r._value = true) := by
  refine ⟨by decide!, by decide!, by decide!, fun h => ?_⟩
  have h1 := h Ieee.nanLearner (some [0]) none 1 { _value := F64.fin 5, _count := 1 } rfl
    (by decide!) (by decide)
  have h2 : F64.le (Ieee.nanLearner.best_value (some [0]) none)._value
      (F64.fin 5) = false := by decide!
  simp only at h1
  rw [h2] at h1
  exact Bool.false_ne_true h1

/-! ## Statistics of a state, on binary64 values -/

/-- C4 (amended): `search_statistics(state)` aggregates over exactly the actions
of the state with a positive count (the entries of `counted`, one per such
action): `sum_count` is the sum of their counts and `n_actions` their number;
`lower` and `upper` are never NaN: they are the least and the greatest of the
values of these actions that are not NaN, and plus and minus infinity when there
is no such value.  Consequently, whenever `n_actions > 0`,
`sum_count >= n_actions`; and if moreover none of these values is NaN,
`lower <= upper` and the value of `best_value(state)` is `lower` under
minimization and `upper` under maximization. -/
theorem search_statistics_aggregates (q : Ieee.QLearner) (d c : Option (List ℚ)) :
    (∀ a r, (a, r) ∈ q.counted (q.make_state d c) ↔
      q.record (q.make_state d c) a = some r ∧ 0 < r._count) ∧
    ((q.counted (q.make_state d c)).map Prod.fst).Nodup ∧
    (q.search_statistics d c).2.2.1
      = ((q.counted (q.make_state d c)).map (fun x => x.2._count)).sum ∧
    (q.search_statistics d c).2.2.2 = (q.counted (q.make_state d c)).length ∧
    (q.search_statistics d c).1 ≠ F64.nan ∧ (q.search_statistics d c).2.1 ≠ F64.nan ∧
    (∀ x ∈ q.counted (q.make_state d c), x.2._value ≠ F64.nan →
      F64.le (q.search_statistics d c).1 x.2._value = true ∧
      F64.le x.2._value (q.search_statistics d c).2.1 = true) ∧
    ((∀ x ∈ q.counted (q.make_state d c), x.2._value = F64.nan) →
      (q.search_statistics d c).1 = F64.pinf ∧ (q.search_statistics d c).2.1 = F64.ninf) ∧
    ((∃ x ∈ q.counted (q.make_state d c), x.2._value ≠ F64.nan) →
      (∃ x ∈ q.counted (q.make_state d c), x.2._value = (q.search_statistics d c).1) ∧
      (∃ x ∈ q.counted (q.make_state d c), x.2._value = (q.search_statistics d c).2.1)) ∧
    (0 < (q.search_statistics d c).2.2.2 →
      (q.search_statistics d c).2.2.2 ≤ (q.search_statistics d c).2.2.1) ∧
    (0 < (q.search_statistics d c).2.2.2 →
      (∀ x ∈ q.counted (q.make_state d c), x.2._value ≠ F64.nan) →
      F64.le (q.search_statistics d c).1 (q.search_statistics d c).2.1 = true ∧
      (q.best_value d c)._value
        = (if q._is_minimization then (q.search_statistics d c).1
           else (q.search_statistics d c).2.1)) := by
  obtain ⟨hsum, hlen, hlo, hhi, hbound, hnone, hsome⟩ := Ieee.QLearner.stats_shape_f q d c
  have hne : 0 < (q.search_statistics d c).2.2.2 → q.counted (q.make_state d c) ≠ [] := by
    intro hpos h
    rw [hlen, h] at hpos
    simp at hpos
  refine ⟨Ieee.QLearner.mem_counted_iff_f q _, Ieee.QLearner.counted_nodup_f q _, hsum, hlen,
    hlo, hhi, hbound, hnone, hsome, ?_, ?_⟩
  · intro hpos
    exact (Ieee.QLearner.sum_pos_of_counted_f q d c (hne hpos)).2
  · intro hpos hnan
    obtain ⟨x0, hx0⟩ := List.exists_mem_of_ne_nil _ (hne hpos)
    obtain ⟨⟨x1, hx1, e1⟩, ⟨x2, hx2, e2⟩⟩ := hsome ⟨x0, hx0, hnan x0 hx0⟩
    have hx1r := (Ieee.QLearner.mem_counted_iff_f q _ x1.1 x1.2).1 hx1
    have hx2r := (Ieee.QLearner.mem_counted_iff_f q _ x2.1 x2.2).1 hx2
    refine ⟨?_, ?_⟩
    · rw [← e2]
      exact (hbound x2 hx2 (hnan x2 hx2)).1
    · obtain ⟨a0, hb1, hb2, hb3⟩ :=
        Ieee.QLearner.best_value_counted_f q d c ⟨x1.1, x1.2, hx1r.1, hx1r.2⟩
      have hbm : (a0, q.best_value d c) ∈ q.counted (q.make_state d c) :=
        (Ieee.QLearner.mem_counted_iff_f q _ _ _).2 ⟨hb1, hb2⟩
      have hbn := hnan _ hbm
      have hnanr : ∀ b r, q.record (q.make_state d c) b = some r → 0 < r._count →
          r._value ≠ F64.nan := fun b r hr hc =>
        hnan (b, r) ((Ieee.QLearner.mem_counted_iff_f q _ b r).2 ⟨hr, hc⟩)
      cases hm : q._is_minimization with
      | true =>
        have h3 := (hb3 hnanr x1.1 x1.2 hx1r.1 hx1r.2).1
        rw [hm] at h3
        simp only [if_true] at h3 ⊢
        rw [e1] at h3
        exact F64.le_antisymm_f h3 (hbound _ hbm hbn).1
      | false =>
        have h3 := (hb3 hnanr x2.1 x2.2 hx2r.1 hx2r.2).1
        rw [hm] at h3
        simp only [Bool.false_eq_true, if_false] at h3 ⊢
        rw [e2] at h3
        exact F64.le_antisymm_f (hbound _ hbm hbn).2 h3

namespace Ieee

theorem tieLearner_counted_no_nan :
    ∀ x ∈ tieLearner.counted (tieLearner.make_state (some [0]) none), x.2._value ≠ F64.nan := by
  intro x hx
  exact tieLearner_no_nan x.1 x.2 ((QLearner.mem_counted_iff_f _ _ _ _).1 hx).1

end Ieee

/-- C4 (amended), at a concrete table: in `tieLearner` the statistics of state
`[0]` are lower 2, upper 7, four samples over three actions; no value is NaN, and
the inequalities and the link with `best_value` hold there. -/
theorem search_statistics_aggregates_witness :
    Ieee.tieLearner.search_statistics (some [0]) none = (F64.fin 2, F64.fin 7, 4, 3) ∧
    (Ieee.tieLearner.search_statistics (some [0]) none).2.2.2
      ≤ (Ieee.tieLearner.search_statistics (some [0]) none).2.2.1 ∧
    F64.le (Ieee.tieLearner.search_statistics (some [0]) none).1
      (Ieee.tieLearner.search_statistics (some [0]) none).2.1 = true ∧
    (Ieee.tieLearner.best_value (some [0]) none)._value
      = (if Ieee.tieLearner._is_minimization then
          (Ieee.tieLearner.search_statistics (some [0]) none).1
         else (Ieee.tieLearner.search_statistics (some [0]) none).2.1) :=
  ⟨by decide!,
   (search_statistics_aggregates Ieee.tieLearner (some [0]) none).2.2.2.2.2.2.2.2.2.1 (by decide!),
   (search_statistics_aggregates Ieee.tieLearner (some [0]) none).2.2.2.2.2.2.2.2.2.2 (by decide!)
     Ieee.tieLearner_counted_no_nan⟩

/-- C4 (as stated, refuted): with a positive `n_actions`, `lower <= upper` and
the link with `best_value` can both fail.  In `nanOnlyLearner` the only counted
value is NaN: the statistics are (+infinity, -infinity, 3, 1).  In `nanLearner`
the counted values are NaN and 5: the statistics are (5, 5, 4, 2), while the
value of `best_value` is NaN under minimization. -/
theorem search_statistics_nan_counterexample :
    Ieee.nanOnlyLearner.search_statistics (some [0]) none = (F64.pinf, F64.ninf, 3, 1) ∧
    Ieee.nanLearner.search_statistics (some [0]) none = (F64.fin 5, F64.fin 5, 4, 2) ∧
    (Ieee.nanLearner.best_value (some [0]) none)._value = F64.nan ∧
    ¬ (∀ (q : Ieee.QLearner) (d c : Option (List ℚ)), 0 < (q.search_statistics d c).2.2.2 →
        F64.le (q.search_statistics d c).1 (q.search_statistics d c).2.1 = true) ∧
    ¬ (∀ (q : Ieee.QLearner) (d c : Option (List ℚ)), 0 < (q.search_statistics d c).2.2.2 →
        (q.best_value d c)._value
          = (if q._is_minimization then (q.search_statistics d c).1
             else (q.search_statistics d c).2.1)) := by
  have h1 : Ieee.nanOnlyLearner.search_statistics (some [0]) none
      = (F64.pinf, F64.ninf, 3, 1) := by decide!
  have h2 : Ieee.nanLearner.search_statistics (some [0]) none
      = (F64.fin 5, F64.fin 5, 4, 2) := by decide!
  have h3 : (Ieee.nanLearner.best_value (some [0]) none)._value = F64.nan := by decide!
  refine ⟨h1, h2, h3, fun h => ?_, fun h => ?_⟩
  · have := h Ieee.nanOnlyLearner (some [0]) none (by rw [h1]; decide)
    rw [h1] at this
    exact Bool.false_ne_true this
  · have := h Ieee.nanLearner (some [0]) none (by rw [h2]; decide)
    rw [h2, h3] at this
    simp at this

/-! ## Classification of pairs, on binary64 values -/

/-- C5 (amended): `is_allowed(state, action)` returns (false, true) if the
record of the pair is flagged uncover; else (true, true) if its count is positive
and its value compares equal to that of `best_value(state)`; else (false, false)
if the best value has count 0; else (false, true).  Hence, for a state whose only
record with a positive count is that of action `a`, and that record is not
flagged uncover, it returns (true, true) for `a` when the value of `a` is not NaN
and (false, true) when it is NaN, and (false, true) for every other action; and
for a state with no record that has a positive count or the uncover flag (in
particular a state with no record) it returns (false, false) for every action. -/
theorem is_allowed_cases (q : Ieee.QLearner) (d c : Option (List ℚ)) (a : Nat) :
    (q.is_allowed d c a =
      if (q.value d c a)._uncover = true then (false, true)
      else if 0 < (q.value d c a)._count ∧
          F64.eq (q.value d c a)._value (q.best_value d c)._value = true
        then (true, true)
      else if (q.best_value d c)._count = 0 then (false, false)
      else (false, true)) ∧
    (∀ r, q.record (q.make_state d c) a = some r → 0 < r._count → r._uncover = false →
      (∀ b r1, b ≠ a → q.record (q.make_state d c) b = some r1 → r1._count = 0) →
      (r._value ≠ F64.nan → q.is_allowed d c a = (true, true)) ∧
      (r._value = F64.nan → q.is_allowed d c a = (false, true)) ∧
      ∀ b, b ≠ a → q.is_allowed d c b = (false, true)) ∧
    ((∀ b r1, q.record (q.make_state d c) b = some r1 → r1._count = 0 ∧ r1._uncover = false) →
      ∀ b, q.is_allowed d c b = (false, false)) := by
  refine ⟨?_, ?_, ?_⟩
  · rw [Ieee.QLearner.is_allowed_eq_f]
    by_cases hu : (q.value d c a)._uncover = true
    · simp [hu]
    · by_cases hc : 0 < (q.value d c a)._count ∧
          F64.eq (q.value d c a)._value (q.best_value d c)._value = true
      · simp [hu, hc]
      · have hc2 : ¬ (decide ((q.value d c a)._count > 0) &&
            F64.eq (q.value d c a)._value (q.best_value d c)._value) = true := by
          simpa using hc
        rw [if_neg hu, if_neg hu, if_neg hc2, if_neg hc]
  · intro r hr hcnt hunc hothers
    obtain ⟨a0, hb1, hb2, _⟩ := Ieee.QLearner.best_value_counted_f q d c ⟨a, r, hr, hcnt⟩
    have ha0 : a0 = a := by
      by_contra hne
      have := hothers a0 _ hne hb1
      omega
    rw [ha0, hr] at hb1
    have hbest : q.best_value d c = r := (Option.some.inj hb1).symm
    have hval : q.value d c a = r := by
      rw [Ieee.QLearner.value_eq_record_f, hr]
      rfl
    have hcne : r._count ≠ 0 := by omega
    refine ⟨?_, ?_, ?_⟩
    · intro hnan
      rw [Ieee.QLearner.is_allowed_eq_f, hval, hbest, F64.eq_self hnan]
      simp [hunc, hcnt]
    · intro hnan
      rw [Ieee.QLearner.is_allowed_eq_f, hval, hbest, hnan, F64.eq_nan_left]
      simp [hunc, hcne]
    · intro b hb
      have hbc : (q.value d c b)._count = 0 := by
        rw [Ieee.QLearner.value_eq_record_f]
        cases hrb : q.record (q.make_state d c) b with
        | none => rfl
        | some rb => exact hothers b rb hb hrb
      rw [Ieee.QLearner.is_allowed_eq_f, hbc, hbest]
      by_cases hu : (q.value d c b)._uncover = true <;> simp [hu, hcne]
  · intro h b
    have hb0 : q.best_value d c = { _value := F64.fin 0, _count := 0 } :=
      (Ieee.QLearner.best_value_default_of_uncounted_f q d c) (fun a r hr => (h a r hr).1)
    have hv : (q.value d c b)._count = 0 ∧ (q.value d c b)._uncover = false := by
      rw [Ieee.QLearner.value_eq_record_f]
      cases hrb : q.record (q.make_state d c) b with
      | none => exact ⟨rfl, rfl⟩
      | some rb => exact h b rb hrb
    rw [Ieee.QLearner.is_allowed_eq_f, hv.1, hv.2, hb0]
    simp

namespace Ieee

theorem single_record_others (q : QLearner) (s : qstate_t) (r0 : qvalue_t)
    (ht : q._Q.find s = some ⟨[(0, r0)], by simp⟩) (b : Nat) (r1 : qvalue_t) (hb : b ≠ 0)
    (hr : q.record s b = some r1) : r1._count = 0 := by
  exfalso
  unfold QLearner.record at hr
  rw [ht] at hr
  simp only [Option.some_bind, OMap.find, OMap.findL] at hr
  rw [if_neg (fun e => hb e.symm)] at hr
  simp at hr

theorem oneLearner_find :
    oneLearner._Q.find (oneLearner.make_state (some [0]) none)
      = some ⟨[(0, { _value := F64.fin 5, _count := 1, _select := false, _uncover := false })],
          by simp⟩ := by decide!

theorem uncoveredLearner_find :
    uncoveredLearner._Q.find (uncoveredLearner.make_state (some [0]) none)
      = some ⟨[(0, { _value := F64.fin (-32767), _count := 1, _select := false,
                     _uncover := true })], by simp⟩ := by decide!

theorem nanOnlyLearner_find :
    nanOnlyLearner._Q.find (nanOnlyLearner.make_state (some [0]) none)
      = some ⟨[(0, { _value := F64.nan, _count := 3, _select := false, _uncover := false })],
          by simp⟩ := by decide!

end Ieee

/-- C5 (amended), at concrete tables: in `oneLearner` action 0 is the only
sampled action of state `[0]` and its value 5 is not NaN: it is allowed, action 1
is found but not allowed, and every action of the unvisited state `[1]` is
neither allowed nor found. -/
theorem is_allowed_cases_witness :
    (Ieee.oneLearner.is_allowed (some [0]) none 0 = (true, true) ∧
      ∀ b, b ≠ 0 → Ieee.oneLearner.is_allowed (some [0]) none b = (false, true)) ∧
    (∀ b, Ieee.oneLearner.is_allowed (some [1]) none b = (false, false)) := by
  have hn : Ieee.oneLearner._Q.find (Ieee.oneLearner.make_state (some [1]) none) = none := by
    decide!
  have h1 := (is_allowed_cases Ieee.oneLearner (some [0]) none 0).2.1
    { _value := F64.fin 5, _count := 1, _select := false, _uncover := false }
    (by decide!) (by decide) rfl
    (fun b r1 hb hr => Ieee.single_record_others _ _ _ Ieee.oneLearner_find b r1 hb hr)
  refine ⟨⟨h1.1 (by simp), h1.2.2⟩,
    (is_allowed_cases Ieee.oneLearner (some [1]) none 0).2.2 ?_⟩
  intro b r1 hr
  simp [Ieee.QLearner.record, hn] at hr

/-- C5 (as stated, refuted): a state whose only record with a positive count
belongs to action `a` need not allow `a`.  In `uncoveredLearner` the only record
of state `[0]` is that of action 0, with count 1, and it is flagged uncover; in
`nanOnlyLearner` it is the sampled, unflagged record (NaN, 3) of action 0, whose
value does not compare equal to itself.  `is_allowed` returns (false, true) for
both, not (true, true). -/
theorem is_allowed_single_counted_counterexample :
    Ieee.uncoveredLearner.is_allowed (some [0]) none 0 = (false, true) ∧
    Ieee.nanOnlyLearner.is_allowed (some [0]) none 0 = (false, true) ∧
    ¬ (∀ (q : Ieee.QLearner) (d c : Option (List ℚ)) (a : Nat) (r : Ieee.qvalue_t),
        q.record (q.make_state d c) a = some r → 0 < r._count →
        (∀ b r1, b ≠ a → q.record (q.make_state d c) b = some r1 → r1._count = 0) →
        q.is_allowed d c a = (true, true)) ∧
    ¬ (∀ (q : Ieee.QLearner) (d c : Option (List ℚ)) (a : Nat) (r : Ieee.qvalue_t),
        q.record (q.make_state d c) a = some r → 0 < r._count → r._uncover = false →
        (∀ b r1, b ≠ a → q.record (q.make_state d c) b = some r1 → r1._count = 0) →
        q.is_allowed d c a = (true, true)) := by
  have h1 : Ieee.uncoveredLearner.is_allowed (some [0]) none 0 = (false, true) := by decide!
  have h2 : Ieee.nanOnlyLearner.is_allowed (some [0]) none 0 = (false, true) := by decide!
  refine ⟨h1, h2, fun h => ?_, fun h => ?_⟩
  · have h3 := h Ieee.uncoveredLearner (some [0]) none 0
      { _value := F64.fin (-32767), _count := 1, _select := false, _uncover := true }
      (by decide!) (by decide)
      (fun b r1 hb hr => Ieee.single_record_others _ _ _ Ieee.uncoveredLearner_find b r1 hb hr)
    rw [h1] at h3
    simp at h3
  · have h3 := h Ieee.nanOnlyLearner (some [0]) none 0
      { _value := F64.nan, _count := 3, _select := false, _uncover := false }
      (by decide!) (by decide) rfl
      (fun b r1 hb hr => Ieee.single_record_others _ _ _ Ieee.nanOnlyLearner_find b r1 hb hr)
    rw [h2] at h3
    simp at h3

/-! ## The evaluation-mode query, on the embedding with the diagnostic -/

/-- C9 (evaluation at the failing input, with the extent of the fault): on a
learner with state vectors of size 0 that a first `print` has frozen, the
evaluation-mode query of a state that is not stored does not return: the branch
taken logs the state key and then reads the elements 0 and 1 of its empty
discrete vector.  The same holds with one discrete variable (element 1 is
missing), and the same query returns 0.0 while the learner is still learning.
For every learner, state and action the query reads out of bounds exactly when
the learner is frozen, the pair is not found, the state key is not yet logged and
its discrete vector has fewer than two elements; in every other case it returns
1.0 if `is_allowed` reports `allowed = true` and `found = true` on the learner as
it is before the query, and 0.0 otherwise. -/
theorem predict_eval_reads_out_of_bounds :
    (∀ m : Ieee.Libm,
      Ieee.uppaal_external_learner_predict m Ieee.frozenEmptyLearner true 0 (some []) (some [])
        = none) ∧
    (∀ m : Ieee.Libm,
      Ieee.uppaal_external_learner_predict m (Ieee.QLearner.new true 1 0).print true 0
        (some [0]) none = none) ∧
    (∀ m : Ieee.Libm,
      (Ieee.uppaal_external_learner_predict m (Ieee.QLearner.new true 0 0) true 0 (some [])
        (some [])).map Prod.fst = some (F64.fin 0)) ∧
    (∀ (m : Ieee.Libm) (q : Ieee.QLearner) (a : Nat) (d c : Option (List ℚ)),
      (Ieee.uppaal_external_learner_predict m q true a d c).map Prod.fst =
        if q.reads_out_of_bounds d c a = true then none
        else if q.is_allowed d c a = (true, true) then some (F64.fin 1)
        else some (F64.fin 0)) ∧
    (∀ (q : Ieee.QLearner) (a : Nat) (d c : Option (List ℚ)),
      q.reads_out_of_bounds d c a = true ↔
        (q.learning = false ∧ (q.is_allowed d c a).2 = false ∧
          q.make_state d c ∉ q.uncovered ∧ (ofLex (q.make_state d c)).1.length < 2)) := by
  have hoob : ∀ (q : Ieee.QLearner) (a : Nat) (d c : Option (List ℚ)),
      q.reads_out_of_bounds d c a = true ↔
        (q.learning = false ∧ (q.is_allowed d c a).2 = false ∧
          q.make_state d c ∉ q.uncovered ∧ (ofLex (q.make_state d c)).1.length < 2) := by
    intro q a d c
    unfold Ieee.QLearner.reads_out_of_bounds
    simp only [Bool.and_eq_true, Bool.not_eq_true', decide_eq_false_iff_not, decide_eq_true_eq]
    tauto
  have hgen : ∀ (m : Ieee.Libm) (q : Ieee.QLearner) (a : Nat) (d c : Option (List ℚ)),
      (Ieee.uppaal_external_learner_predict m q true a d c).map Prod.fst =
        if q.reads_out_of_bounds d c a = true then none
        else if q.is_allowed d c a = (true, true) then some (F64.fin 1)
        else some (F64.fin 0) := by
    intro m q a d c
    rw [Ieee.predict_eval_f]
    by_cases hb : q.reads_out_of_bounds d c a = true
    · have hf := ((hoob q a d c).1 hb).2.1
      have h1 : ¬ q.is_allowed d c a = (true, true) := by
        intro e
        rw [e] at hf
        exact Bool.noConfusion hf
      simp only [if_pos hb, if_neg h1, hf, Bool.false_eq_true, if_false]
      rfl
    · by_cases h1 : q.is_allowed d c a = (true, true)
      · simp only [if_neg hb, if_pos h1]
        rfl
      · by_cases h2 : (q.is_allowed d c a).2 = true
        · simp only [if_neg hb, if_neg h1, if_pos h2]
          rfl
        · simp only [if_neg hb, if_neg h1, if_neg h2]
          rfl
  refine ⟨fun m => ?_, fun m => ?_, fun m => ?_, hgen, hoob⟩
  · have h := hgen m Ieee.frozenEmptyLearner 0 (some []) (some [])
    rw [if_pos (by decide!)] at h
    exact Option.map_eq_none'.1 h
  · have h := hgen m (Ieee.QLearner.new true 1 0).print 0 (some [0]) none
    rw [if_pos (by decide!)] at h
    exact Option.map_eq_none'.1 h
  · rw [hgen, if_neg (by decide!), if_neg (by decide!)]

/-! ## The training-mode score, on binary64 values -/

namespace F64

theorem round_one : round 1 = fin 1 := by decide!

theorem add_eq_fin {a b : F64} {z : ℚ} (h : add a b = fin z) :
    ∃ x y : ℚ, a = fin x ∧ b = fin y ∧ round (x + y) = fin z := by
  cases a <;> cases b <;> simp only [add, reduceCtorEq] at h
  exact ⟨_, _, rfl, rfl, h⟩

theorem sub_eq_fin {a b : F64} {z : ℚ} (h : sub a b = fin z) :
    ∃ x y : ℚ, a = fin x ∧ b = fin y ∧ round (x - y) = fin z := by
  unfold sub at h
  obtain ⟨x, y, hx, hy, hr⟩ := add_eq_fin h
  cases b <;> simp only [neg, reduceCtorEq, fin.injEq] at hy
  subst hy
  refine ⟨x, _, hx, rfl, ?_⟩
  rw [sub_eq_add_neg]
  exact hr

theorem sub_fin_fin (x y : ℚ) : sub (fin x) (fin y) = round (x - y) := by
  simp [sub, neg, add, sub_eq_add_neg]

theorem div_fin_fin (x y : ℚ) (hy : y ≠ 0) : div (fin x) (fin y) = round (x / y) := by
  simp [div, hy]

theorem round_between (y lo hi lo1 hi1 : ℚ) (h1 : lo ≤ y) (h2 : y ≤ hi)
    (hlo : round lo = fin lo1) (hhi : round hi = fin hi1) :
    ∃ z : ℚ, round y = fin z ∧ lo1 ≤ z ∧ z ≤ hi1 := by
  have m1 := round_mono lo y h1
  have m2 := round_mono y hi h2
  rw [hlo] at m1
  rw [hhi] at m2
  cases hy : round y with
  | nan => rw [hy] at m1; simp [le, lt, eq] at m1
  | ninf => rw [hy] at m1; simp [le, lt, eq] at m1
  | pinf => rw [hy] at m2; simp [le, lt, eq] at m2
  | fin z =>
    rw [hy] at m1 m2
    exact ⟨z, rfl, (le_fin_iff _ _).1 m1, (le_fin_iff _ _).1 m2⟩

theorem fin_of_le_of_le {v : F64} {lo hi : ℚ} (h1 : le (fin lo) v = true)
    (h2 : le v (fin hi) = true) : ∃ x : ℚ, v = fin x ∧ lo ≤ x ∧ x ≤ hi := by
  cases v with
  | nan => simp [le, lt, eq] at h1
  | ninf => simp [le, lt, eq] at h1
  | pinf => simp [le, lt, eq] at h2
  | fin x => exact ⟨x, rfl, (le_fin_iff _ _).1 h1, (le_fin_iff _ _).1 h2⟩

theorem add_nan_left (x : F64) : add nan x = nan := by
  cases x <;> rfl

end F64

namespace Ieee

namespace QLearner

/-- When no counted value of a state is NaN, the value of `best_value` is the
lower bound of the statistics under minimization and the upper bound under
maximization. -/
theorem best_value_is_bound_f (q : QLearner) (d c : Option (List ℚ))
    (hne : q.counted (q.make_state d c) ≠ [])
    (hnan : ∀ x ∈ q.counted (q.make_state d c), x.2._value ≠ F64.nan) :
    (q.best_value d c)._value
      = (if q._is_minimization then (q.search_statistics d c).1
         else (q.search_statistics d c).2.1) := by
  obtain ⟨_, _, _, _, hbound, _, hsome⟩ := stats_shape_f q d c
  obtain ⟨x0, hx0⟩ := List.exists_mem_of_ne_nil _ hne
  obtain ⟨⟨x1, hx1, e1⟩, ⟨x2, hx2, e2⟩⟩ := hsome ⟨x0, hx0, hnan x0 hx0⟩
  have hx1r := (mem_counted_iff_f q _ x1.1 x1.2).1 hx1
  have hx2r := (mem_counted_iff_f q _ x2.1 x2.2).1 hx2
  obtain ⟨a0, hb1, hb2, hb3⟩ := best_value_counted_f q d c ⟨x1.1, x1.2, hx1r.1, hx1r.2⟩
  have hbm : (a0, q.best_value d c) ∈ q.counted (q.make_state d c) :=
    (mem_counted_iff_f q _ _ _).2 ⟨hb1, hb2⟩
  have hbn := hnan _ hbm
  have hnanr : ∀ b r, q.record (q.make_state d c) b = some r → 0 < r._count →
      r._value ≠ F64.nan := fun b r hr hc =>
    hnan (b, r) ((mem_counted_iff_f q _ b r).2 ⟨hr, hc⟩)
  cases hm : q._is_minimization with
  | true =>
    have h3 := (hb3 hnanr x1.1 x1.2 hx1r.1 hx1r.2).1
    rw [hm] at h3
    simp only [if_true] at h3 ⊢
    rw [e1] at h3
    exact F64.le_antisymm_f h3 (hbound _ hbm hbn).1
  | false =>
    have h3 := (hb3 hnanr x2.1 x2.2 hx2r.1 hx2r.2).1
    rw [hm] at h3
    simp only [Bool.false_eq_true, if_false] at h3 ⊢
    rw [e2] at h3
    exact F64.le_antisymm_f (hbound _ hbm hbn).2 h3

theorem score_nan_f (m : Libm) (q : QLearner) (d c : Option (List ℚ)) (a : Nat)
    (hrel : q.relative d c a = F64.nan)
    (hexp : F64.eq (F64.min (F64.fin 1000) (F64.sqrt (F64.max (F64.ofNat (q.value d c a)._count)
      (F64.div (F64.ofNat (q.search_statistics d c).2.2.1)
        (F64.ofNat (q.search_statistics d c).2.2.2))))) (F64.fin 0) = false) :
    q.score m d c a = F64.nan := by
  unfold score
  simp only []
  rw [hrel]
  unfold pow
  rw [hexp]
  simp only [Bool.false_eq_true, if_false, F64.eq_nan_left]
  exact F64.add_nan_left _

end QLearner

end Ieee

namespace Ieee

theorem flatLearner_find :
    flatLearner._Q.find (flatLearner.make_state (some [0]) none)
      = some ⟨[(0, { _value := F64.fin 2, _count := 2 }), (1, { _value := F64.fin 2, _count := 1 })],
          by simp⟩ := by decide!

theorem flatLearner_records (b : Nat) (r : qvalue_t)
    (h : flatLearner.record (flatLearner.make_state (some [0]) none) b = some r) :
    r._value = F64.fin 2 := by
  unfold QLearner.record at h
  rw [flatLearner_find] at h
  simp only [Option.some_bind, OMap.find, OMap.findL] at h
  split_ifs at h <;> simp only [Option.some.injEq] at h <;> rw [← h]

theorem infLearner_find :
    infLearner._Q.find (infLearner.make_state (some [0]) none)
      = some ⟨[(0, { _value := F64.ninf, _count := 2, _select := false, _uncover := false })],
          by simp⟩ := by decide!

theorem infLearner_records (b : Nat) (r : qvalue_t)
    (h : infLearner.record (infLearner.make_state (some [0]) none) b = some r) :
    r._value = F64.ninf := by
  unfold QLearner.record at h
  rw [infLearner_find] at h
  simp only [Option.some_bind, OMap.find, OMap.findL] at h
  split_ifs at h
  simp only [Option.some.injEq] at h
  rw [← h]

end Ieee

/-- C11 (evaluation at the failing input, with the extent of the fault): a flat
state can score NaN.  Two terminal samples of action 0 at state `[0]` with the
rewards `2^1023` and `-2^1023` store minus infinity (the second update
overflows).  It is the value of every record of the state, the statistics are
`lower = upper = -inf`, and `upper - lower` is infinity minus infinity, which is
NaN and does not compare equal to 0: the training-mode query returns NaN for the
sampled action 0 and for the unsampled action 1, for every math library.  The
query does return 1.0 for every action whenever `upper - lower == 0` holds for a
state with `sum_count != 0`, and that is the case for every state that has an
action with a positive count and in which all actions with a positive count
have the same finite value, as in `flatLearner` (two actions of value 2). -/
theorem flat_state_not_a_number :
    Ieee.infLearner.record (Ieee.infLearner.make_state (some [0]) none) 0
      = some { _value := F64.ninf, _count := 2 } ∧
    (∀ b r, Ieee.infLearner.record (Ieee.infLearner.make_state (some [0]) none) b = some r →
      r._value = F64.ninf) ∧
    Ieee.infLearner.search_statistics (some [0]) none = (F64.ninf, F64.ninf, 2, 1) ∧
    F64.sub (Ieee.infLearner.search_statistics (some [0]) none).2.1
      (Ieee.infLearner.search_statistics (some [0]) none).1 = F64.nan ∧
    (∀ m : Ieee.Libm,
      (Ieee.uppaal_external_learner_predict m Ieee.infLearner false 0 (some [0]) none).map
        Prod.fst = some F64.nan) ∧
    (∀ m : Ieee.Libm,
      (Ieee.uppaal_external_learner_predict m Ieee.infLearner false 1 (some [0]) none).map
        Prod.fst = some F64.nan) ∧
    (∀ (m : Ieee.Libm) (q : Ieee.QLearner) (d c : Option (List ℚ)) (a : Nat),
      (q.search_statistics d c).2.2.1 ≠ 0 →
      F64.eq (F64.sub (q.search_statistics d c).2.1 (q.search_statistics d c).1) (F64.fin 0)
        = true →
      Ieee.uppaal_external_learner_predict m q false a d c
        = some (F64.fin 1, q.queried d c a)) ∧
    (∀ (m : Ieee.Libm) (q : Ieee.QLearner) (d c : Option (List ℚ)) (a : Nat) (v : ℚ),
      (∃ b r, q.record (q.make_state d c) b = some r ∧ 0 < r._count) →
      (∀ b r, q.record (q.make_state d c) b = some r → 0 < r._count → r._value = F64.fin v) →
      (q.search_statistics d c).1 = F64.fin v ∧ (q.search_statistics d c).2.1 = F64.fin v ∧
      F64.sub (q.search_statistics d c).2.1 (q.search_statistics d c).1 = F64.fin 0 ∧
      Ieee.uppaal_external_learner_predict m q false a d c
        = some (F64.fin 1, q.queried d c a)) ∧
    (∀ (m : Ieee.Libm) (a : Nat),
      (Ieee.uppaal_external_learner_predict m Ieee.flatLearner false a (some [0]) none).map
        Prod.fst = some (F64.fin 1)) := by
  have hzero : ∀ (m : Ieee.Libm) (q : Ieee.QLearner) (d c : Option (List ℚ)) (a : Nat),
      (q.search_statistics d c).2.2.1 ≠ 0 →
      F64.eq (F64.sub (q.search_statistics d c).2.1 (q.search_statistics d c).1) (F64.fin 0)
        = true →
      Ieee.uppaal_external_learner_predict m q false a d c
        = some (F64.fin 1, q.queried d c a) := by
    intro m q d c a hs hd
    rw [Ieee.predict_train_f, if_neg hs, if_pos hd]
  have hflatgen : ∀ (m : Ieee.Libm) (q : Ieee.QLearner) (d c : Option (List ℚ)) (a : Nat) (v : ℚ),
      (∃ b r, q.record (q.make_state d c) b = some r ∧ 0 < r._count) →
      (∀ b r, q.record (q.make_state d c) b = some r → 0 < r._count → r._value = F64.fin v) →
      (q.search_statistics d c).1 = F64.fin v ∧ (q.search_statistics d c).2.1 = F64.fin v ∧
      F64.sub (q.search_statistics d c).2.1 (q.search_statistics d c).1 = F64.fin 0 ∧
      Ieee.uppaal_external_learner_predict m q false a d c
        = some (F64.fin 1, q.queried d c a) := by
    intro m q d c a v hex hflat
    obtain ⟨b, r, hr, hc⟩ := hex
    have hmem : (b, r) ∈ q.counted (q.make_state d c) :=
      (Ieee.QLearner.mem_counted_iff_f q _ b r).2 ⟨hr, hc⟩
    have hval : ∀ x ∈ q.counted (q.make_state d c), x.2._value = F64.fin v := by
      intro x hx
      have := (Ieee.QLearner.mem_counted_iff_f q _ x.1 x.2).1 hx
      exact hflat x.1 x.2 this.1 this.2
    obtain ⟨_, _, _, _, _, _, hsome⟩ := Ieee.QLearner.stats_shape_f q d c
    obtain ⟨⟨x1, hx1, e1⟩, ⟨x2, hx2, e2⟩⟩ := hsome ⟨(b, r), hmem, by rw [hval _ hmem]; simp⟩
    have hlo : (q.search_statistics d c).1 = F64.fin v := by rw [← e1, hval x1 hx1]
    have hhi : (q.search_statistics d c).2.1 = F64.fin v := by rw [← e2, hval x2 hx2]
    have hdiff : F64.sub (q.search_statistics d c).2.1 (q.search_statistics d c).1
        = F64.fin 0 := by
      rw [hlo, hhi, F64.sub_fin_fin, sub_self, F64.round_zero]
    have hsum := Ieee.QLearner.sum_pos_of_counted_f q d c (List.ne_nil_of_mem hmem)
    refine ⟨hlo, hhi, hdiff, hzero m q d c a (by omega) ?_⟩
    rw [hdiff]
    simp [F64.eq]
  have hnan : ∀ (m : Ieee.Libm) (a : Nat), a = 0 ∨ a = 1 →
      (Ieee.uppaal_external_learner_predict m Ieee.infLearner false a (some [0]) none).map
        Prod.fst = some F64.nan := by
    intro m a ha
    rcases ha with e | e
    · rw [e, Ieee.predict_train_f, if_neg (by decide!), if_neg (by decide!),
        Ieee.QLearner.score_nan_f m _ _ _ _ (by decide!) (by decide!)]
      rfl
    · rw [e, Ieee.predict_train_f, if_neg (by decide!), if_neg (by decide!),
        Ieee.QLearner.score_nan_f m _ _ _ _ (by decide!) (by decide!)]
      rfl
  refine ⟨by decide!, fun b r h => Ieee.infLearner_records b r h, by decide!, by decide!,
    fun m => hnan m 0 (Or.inl rfl), fun m => hnan m 1 (Or.inr rfl), hzero, hflatgen,
    fun m a => ?_⟩
  rw [(hflatgen m Ieee.flatLearner (some [0]) none a 2
    ⟨0, { _value := F64.fin 2, _count := 2 }, by decide!, by decide⟩
    (fun b r h _ => Ieee.flatLearner_records b r h)).2.2.2]
  rfl

/-- C12 (evaluation at the failing inputs, with the extent of the fault): the
query returns NaN, and may not return.  After one terminal sample of action 0
with reward `1e308` and one of action 1 with reward `-1e308` at state `[0]`,
both stored values are finite, `upper - lower` overflows to plus infinity, the
normalised value of the best action 1 is infinity over infinity, and the
training-mode query of action 1 returns NaN, for every math library.  The
evaluation-mode query of a state that is not stored, on a learner with one
discrete variable that a first `print` has frozen, does not return.  Outside the
score the result is well formed: an evaluation-mode query that returns, returns
0.0 or 1.0, and a training-mode query returns 0.0 when `sum_count == 0` and 1.0
when `upper - lower == 0`. -/
theorem score_not_a_number :
    Ieee.wideLearner.search_statistics (some [0]) none
      = (F64.round (-(10 ^ 308)), F64.round (10 ^ 308), 2, 2) ∧
    (F64.round (-(10 ^ 308))).isFinite = true ∧ (F64.round (10 ^ 308)).isFinite = true ∧
    F64.sub (Ieee.wideLearner.search_statistics (some [0]) none).2.1
      (Ieee.wideLearner.search_statistics (some [0]) none).1 = F64.pinf ∧
    Ieee.wideLearner.relative (some [0]) none 1 = F64.nan ∧
    (∀ m : Ieee.Libm,
      (Ieee.uppaal_external_learner_predict m Ieee.wideLearner false 1 (some [0]) none).map
        Prod.fst = some F64.nan) ∧
    (∀ m : Ieee.Libm,
      Ieee.uppaal_external_learner_predict m (Ieee.QLearner.new true 1 0).print true 0
        (some [7]) none = none) ∧
    (∀ (m : Ieee.Libm) (q q1 : Ieee.QLearner) (a : Nat) (d c : Option (List ℚ)) (w : F64),
      Ieee.uppaal_external_learner_predict m q true a d c = some (w, q1) →
      w = F64.fin 0 ∨ w = F64.fin 1) ∧
    (∀ (m : Ieee.Libm) (q : Ieee.QLearner) (a : Nat) (d c : Option (List ℚ)),
      ((q.search_statistics d c).2.2.1 = 0 →
        (Ieee.uppaal_external_learner_predict m q false a d c).map Prod.fst
          = some (F64.fin 0)) ∧
      ((q.search_statistics d c).2.2.1 ≠ 0 →
        F64.eq (F64.sub (q.search_statistics d c).2.1 (q.search_statistics d c).1) (F64.fin 0)
          = true →
        (Ieee.uppaal_external_learner_predict m q false a d c).map Prod.fst
          = some (F64.fin 1)) ∧
      ((q.search_statistics d c).2.2.1 ≠ 0 →
        F64.eq (F64.sub (q.search_statistics d c).2.1 (q.search_statistics d c).1) (F64.fin 0)
          = false →
        (Ieee.uppaal_external_learner_predict m q false a d c).map Prod.fst
          = some (q.score m d c a))) := by
  refine ⟨by decide!, by decide!, by decide!, by decide!, by decide!, fun m => ?_,
    fun m => ?_, ?_, ?_⟩
  · rw [Ieee.predict_train_f, if_neg (by decide!), if_neg (by decide!),
      Ieee.QLearner.score_nan_f m _ _ _ _ (by decide!) (by decide!)]
    rfl
  · rw [Ieee.predict_eval_f, if_neg (by decide!), if_neg (by decide!), if_pos (by decide!)]
  · intro m q q1 a d c w h
    rw [Ieee.predict_eval_f] at h
    split_ifs at h
    · right
      exact (congrArg Prod.fst (Option.some.inj h)).symm
    · left
      exact (congrArg Prod.fst (Option.some.inj h)).symm
    · left
      exact (congrArg Prod.fst (Option.some.inj h)).symm
    · left
      exact (congrArg Prod.fst (Option.some.inj h)).symm
  · intro m q a d c
    refine ⟨fun h0 => ?_, fun h0 h1 => ?_, fun h0 h1 => ?_⟩
    · rw [Ieee.predict_train_f, if_pos h0]
      rfl
    · rw [Ieee.predict_train_f, if_neg h0, if_pos h1]
      rfl
    · rw [Ieee.predict_train_f, if_neg h0, if_neg (by rw [h1]; exact Bool.false_ne_true)]
      rfl

/-! ## The normalised value, on binary64 values -/

/-- C20 (amended): the normalised value lies in [0, 1].  For a state with
`sum_count != 0` whose difference `upper - lower` is finite and not zero and in
which no record with a positive count holds NaN, the quantity `relative` computed
by the training-mode query (`(upper - x) / (upper - lower)` under minimization and
`(x - lower) / (upper - lower)` under maximization, where `x` is the action value,
or `lower` respectively `upper` for an action with count 0) is a finite double in
[0, 1]; it is 1 for an action with count 0, and it is 1 for a sampled action whose
value equals the value of `best_value(state)`.  The query returns the score of
which `relative` is the base of the power. -/
theorem relative_normalised (m : Ieee.Libm) (q : Ieee.QLearner) (d c : Option (List ℚ))
    (a : Nat) (dd : ℚ)
    (hs : (q.search_statistics d c).2.2.1 ≠ 0)
    (hd : F64.sub (q.search_statistics d c).2.1 (q.search_statistics d c).1 = F64.fin dd)
    (hdd : dd ≠ 0)
    (hnan : ∀ b r, q.record (q.make_state d c) b = some r → 0 < r._count →
      r._value ≠ F64.nan) :
    (∃ x : ℚ, q.relative d c a = F64.fin x ∧ 0 ≤ x ∧ x ≤ 1 ∧
      ((q.value d c a)._count = 0 → x = 1) ∧
      ((q.value d c a)._count ≠ 0 →
        (q.value d c a)._value = (q.best_value d c)._value → x = 1)) ∧
    Ieee.uppaal_external_learner_predict m q false a d c
      = some (q.score m d c a, q.queried d c a) := by
  have hd0 := hd
  obtain ⟨hi, lo, hhi, hlo, hr⟩ := F64.sub_eq_fin hd
  have hne := Ieee.QLearner.counted_ne_nil_of_sum_f q d c hs
  have hnanc : ∀ x ∈ q.counted (q.make_state d c), x.2._value ≠ F64.nan := by
    intro x hx
    have := (Ieee.QLearner.mem_counted_iff_f q _ x.1 x.2).1 hx
    exact hnan x.1 x.2 this.1 this.2
  obtain ⟨_, _, _, _, hbound, _, _⟩ := Ieee.QLearner.stats_shape_f q d c
  obtain ⟨x0, hx0⟩ := List.exists_mem_of_ne_nil _ hne
  have hlohi : lo ≤ hi := by
    have h1 := hbound x0 hx0 (hnanc x0 hx0)
    have h2 := F64.le_trans_f h1.1 h1.2
    rw [hhi, hlo] at h2
    exact (F64.le_fin_iff _ _).1 h2
  have hdd0 : 0 < dd := by
    have h := F64.round_mono 0 (hi - lo) (by linarith)
    rw [F64.round_zero, hr] at h
    exact lt_of_le_of_ne ((F64.le_fin_iff _ _).1 h) (Ne.symm hdd)
  have hone : F64.div (F64.fin dd) (F64.fin dd) = F64.fin 1 := by
    rw [F64.div_fin_fin _ _ hdd, div_self hdd, F64.round_one]
  have hquot : ∀ y : ℚ, 0 ≤ y → y ≤ hi - lo →
      ∃ x : ℚ, F64.div (F64.round y) (F64.fin dd) = F64.fin x ∧ 0 ≤ x ∧ x ≤ 1 := by
    intro y hy0 hy1
    obtain ⟨nn, hn, hn0, hn1⟩ := F64.round_between y 0 (hi - lo) 0 dd hy0 hy1 F64.round_zero hr
    rw [hn, F64.div_fin_fin _ _ hdd]
    exact F64.round_between (nn / dd) 0 1 0 1 (div_nonneg hn0 hdd0.le)
      ((div_le_one hdd0).2 hn1) F64.round_zero F64.round_one
  have hrel : q.relative d c a =
      (if q._is_minimization then
        F64.div (F64.sub (F64.fin hi)
          (if (q.value d c a)._count ≠ 0 then (q.value d c a)._value
           else (if q._is_minimization then F64.fin lo else F64.fin hi))) (F64.fin dd)
       else
        F64.div (F64.sub
          (if (q.value d c a)._count ≠ 0 then (q.value d c a)._value
           else (if q._is_minimization then F64.fin lo else F64.fin hi)) (F64.fin lo))
          (F64.fin dd)) := by
    unfold Ieee.QLearner.relative
    simp only []
    rw [hd0, hhi, hlo]
  have hbest := Ieee.QLearner.best_value_is_bound_f q d c hne hnanc
  rw [hhi, hlo] at hbest
  refine ⟨?_, ?_⟩
  · rw [hrel]
    by_cases hc : (q.value d c a)._count = 0
    · refine ⟨1, ?_, by norm_num, le_refl _, fun _ => rfl, fun h => absurd hc h⟩
      cases hm : q._is_minimization
      · simp only [hc, ne_eq, not_true_eq_false, if_false, Bool.false_eq_true]
        rw [F64.sub_fin_fin, hr, hone]
      · simp only [hc, ne_eq, not_true_eq_false, if_false, if_true]
        rw [F64.sub_fin_fin, hr, hone]
    · have hmem := Ieee.QLearner.value_mem_counted_f q d c a hc
      have hb := hbound _ hmem (hnanc _ hmem)
      rw [hhi, hlo] at hb
      obtain ⟨xv, hxv, hx1, hx2⟩ := F64.fin_of_le_of_le hb.1 hb.2
      simp only [] at hxv
      cases hm : q._is_minimization
      · simp only [hc, ne_eq, not_false_eq_true, if_true, Bool.false_eq_true, if_false]
        rw [hm] at hbest
        simp only [Bool.false_eq_true, if_false] at hbest
        rw [hxv, F64.sub_fin_fin]
        obtain ⟨x, ex, h0, h1⟩ := hquot (xv - lo) (by linarith) (by linarith)
        refine ⟨x, ex, h0, h1, fun h => h.elim, fun _ hv => ?_⟩
        rw [hbest] at hv
        have e : xv = hi := F64.fin.inj hv
        rw [e, hr, hone] at ex
        exact (F64.fin.inj ex).symm
      · simp only [hc, ne_eq, not_false_eq_true, if_true]
        rw [hm] at hbest
        simp only [if_true] at hbest
        rw [hxv, F64.sub_fin_fin]
        obtain ⟨x, ex, h0, h1⟩ := hquot (hi - xv) (by linarith) (by linarith)
        refine ⟨x, ex, h0, h1, fun h => h.elim, fun _ hv => ?_⟩
        rw [hbest] at hv
        have e : xv = lo := F64.fin.inj hv
        rw [e, hr, hone] at ex
        exact (F64.fin.inj ex).symm
  · rw [Ieee.predict_train_f, if_neg hs, hd0, if_neg (by simp [F64.eq, hdd])]

/-- C20 (amended), at a concrete table: in `tieLearner` (minimizing, values 2, 2
and 7 at state `[0]`) the statistics are `lower = 2` and `upper = 7`; the
normalised value of the sampled action 2 is a double in [0, 1], and the query
returns its score. -/
theorem relative_normalised_witness :
    (∃ x : ℚ, Ieee.tieLearner.relative (some [0]) none 2 = F64.fin x ∧ 0 ≤ x ∧ x ≤ 1 ∧
      ((Ieee.tieLearner.value (some [0]) none 2)._count = 0 → x = 1) ∧
      ((Ieee.tieLearner.value (some [0]) none 2)._count ≠ 0 →
        (Ieee.tieLearner.value (some [0]) none 2)._value
          = (Ieee.tieLearner.best_value (some [0]) none)._value → x = 1)) ∧
    Ieee.uppaal_external_learner_predict Ieee.constLibm Ieee.tieLearner false 2 (some [0]) none
      = some (Ieee.tieLearner.score Ieee.constLibm (some [0]) none 2,
          Ieee.tieLearner.queried (some [0]) none 2) :=
  relative_normalised Ieee.constLibm Ieee.tieLearner (some [0]) none 2 5 (by decide!)
    (by decide!) (by norm_num) (fun b r h _ => Ieee.tieLearner_no_nan b r h)

/-- C20 (as stated, refuted): the normalised value of a sampled action can be 1
although its value is not the value of `best_value(state)`.  In `closeLearner`
(minimizing; actions 0, 1 and 2 of state `[0]` sampled once with the rewards 0,
`1e-17` and 1) the best value is 0 and the value of action 1 is the double
nearest to `1e-17`, which is positive; `upper - lower` is 1, `upper - value`
rounds to 1, and the normalised value of action 1 is exactly 1. -/
theorem relative_one_counterexample :
    (Ieee.closeLearner.best_value (some [0]) none)._value = F64.fin 0 ∧
    (Ieee.closeLearner.value (some [0]) none 1)._count = 1 ∧
    (Ieee.closeLearner.value (some [0]) none 1)._value = F64.round (1 / 10 ^ 17) ∧
    F64.lt (F64.fin 0) (Ieee.closeLearner.value (some [0]) none 1)._value = true ∧
    (Ieee.closeLearner.search_statistics (some [0]) none).2.2.1 = 3 ∧
    F64.sub (Ieee.closeLearner.search_statistics (some [0]) none).2.1
      (Ieee.closeLearner.search_statistics (some [0]) none).1 = F64.fin 1 ∧
    Ieee.closeLearner.relative (some [0]) none 1 = F64.fin 1 ∧
    ¬ (∀ (q : Ieee.QLearner) (d c : Option (List ℚ)) (a : Nat),
        (q.search_statistics d c).2.2.1 ≠ 0 →
        F64.eq (F64.sub (q.search_statistics d c).2.1 (q.search_statistics d c).1) (F64.fin 0)
          = false →
        (q.value d c a)._count ≠ 0 →
        (q.relative d c a = F64.fin 1 ↔
          F64.eq (q.value d c a)._value (q.best_value d c)._value = true)) := by
  refine ⟨by decide!, by decide!, by decide!, by decide!, by decide!, by decide!, by decide!,
    fun h => ?_⟩
  have h1 := (h Ieee.closeLearner (some [0]) none 1 (by decide!) (by decide!) (by decide!)).1
    (by decide!)
  exact absurd h1 (by decide!)

/-! ## Repeated terminal samples, on binary64 values -/

namespace F64

theorem round_two : round 2 = fin 2 := by decide!

theorem round_half : round (1 / 2) = fin (1 / 2) := by decide!

/-- Known values of binary64 arithmetic, as checks of the model: the doubles
nearest to 0.1 and 0.99, `0.1 + 0.2`, the square root of 2, the greatest finite
double and the overflow threshold, the least subnormal and the underflow to
zero, and the special values of the operations. -/
theorem binary64_examples :
    round (1 / 10) = fin (3602879701896397 / 2 ^ 55) ∧
    round (99 / 100) = fin (4458563631096791 / 2 ^ 52) ∧
    add (round (1 / 10)) (round (2 / 10)) = fin (5404319552844596 / 2 ^ 54) ∧
    sqrt (fin 2) = fin (6369051672525773 / 2 ^ 52) ∧
    sqrt (fin 4) = fin 2 ∧
    round (2 ^ 1024 - 2 ^ 971) = fin (2 ^ 1024 - 2 ^ 971) ∧
    round (2 ^ 1024 - 2 ^ 970) = pinf ∧
    round (2 ^ 1024 - 2 ^ 970 - 1) = fin (2 ^ 1024 - 2 ^ 971) ∧
    add (fin (2 ^ 1023)) (fin (2 ^ 1023)) = pinf ∧
    round (1 / 2 ^ 1074) = fin (1 / 2 ^ 1074) ∧
    round (1 / 2 ^ 1075) = fin 0 ∧
    round (3 / 2 ^ 1075) = fin (2 / 2 ^ 1074) ∧
    round (2 ^ 53 + 1) = fin (2 ^ 53) ∧
    round (2 ^ 53 + 3) = fin (2 ^ 53 + 4) ∧
    sub pinf pinf = nan ∧ add ninf pinf = nan ∧ mul (fin 0) pinf = nan ∧
    div pinf pinf = nan ∧ div (fin 0) (fin 0) = nan ∧ div (fin 1) pinf = fin 0 ∧
    lt nan (fin 0) = false ∧ eq nan nan = false ∧ le nan nan = false ∧
    min pinf nan = pinf ∧ max ninf nan = ninf ∧ min nan (fin 1) = nan := by
  refine ⟨by decide!, by decide!, by decide!, by decide!, by decide!, by decide!, by decide!,
    by decide!, by decide!, by decide!, by decide!, by decide!, by decide!, by decide!,
    by decide!, by decide!, by decide!, by decide!, by decide!, by decide!, by decide!,
    by decide!, by decide!, by decide!, by decide!, by decide!⟩

theorem isFinite_iff (a : F64) : a.isFinite = true ↔ ∃ x : ℚ, a = fin x := by
  cases a <;> simp [isFinite]

/-- One blending step `v + 0.5 * (r - v)` on doubles: when `r - v` does not
overflow, the result is a double between `v` and `r`, and the next difference
does not overflow either. -/
theorem blend_between (v r : ℚ) (hv : round v = fin v) (hr : round r = fin r)
    (he : (round (r - v)).isFinite = true) :
    ∃ w : ℚ, add (fin v) (mul (fin (1 / 2)) (sub (fin r) (fin v))) = fin w ∧
      round w = fin w ∧ (round (r - w)).isFinite = true ∧
      (v ≤ r → v ≤ w ∧ w ≤ r) ∧ (r ≤ v → r ≤ w ∧ w ≤ v) := by
  obtain ⟨e, he⟩ := (isFinite_iff _).1 he
  rw [sub_fin_fin, he]
  have hmul : mul (fin (1 / 2)) (fin e) = round (e / 2) := by
    simp only [mul]
    congr 1
    ring
  rw [hmul]
  rcases le_or_lt v r with hle | hlt
  · obtain ⟨h, hh, h0, h1⟩ := round_half_le (r - v) e (by linarith) he
    rw [hh]
    simp only [add]
    obtain ⟨w, hw, hw1, hw2⟩ := round_between (v + h) v r v r (by linarith) (by linarith) hv hr
    refine ⟨w, hw, round_idem _ _ hw, ?_, fun _ => ⟨hw1, hw2⟩, fun h2 => ?_⟩
    · obtain ⟨z, hz, _, _⟩ := round_between (r - w) 0 (r - v) 0 e (by linarith) (by linarith)
        round_zero he
      rw [hz]
      rfl
    · have : v = r := le_antisymm hle h2
      constructor <;> linarith
  · have he2 : round (v - r) = fin (-e) := by
      have h := round_neg (r - v)
      rw [he, neg_sub] at h
      rw [h]
      rfl
    obtain ⟨h, hh, h0, h1⟩ := round_half_le (v - r) (-e) (by linarith) he2
    have hh2 : round (e / 2) = fin (-h) := by
      have h3 := round_neg (-e / 2)
      rw [hh] at h3
      have e4 : -(-e / 2) = e / 2 := by ring
      rw [e4] at h3
      rw [h3]
      rfl
    rw [hh2]
    simp only [add]
    obtain ⟨w, hw, hw1, hw2⟩ := round_between (v + -h) r v r v (by linarith) (by linarith) hr hv
    refine ⟨w, hw, round_idem _ _ hw, ?_, fun h2 => absurd hlt (not_lt.2 h2),
      fun _ => ⟨hw1, hw2⟩⟩
    obtain ⟨z, hz, _, _⟩ := round_between (r - w) (r - v) 0 e 0 (by linarith) (by linarith)
      he round_zero
    rw [hz]
    rfl

end F64

namespace Ieee

namespace QLearner

theorem value_add_sample_f (q : QLearner) (d c : Option (List ℚ)) (a : Nat)
    (td tc : Option (List ℚ)) (r : F64) :
    (q.add_sample d c a td tc r).value d c a =
      { q.value d c a with
        _value :=
          if (q.value d c a)._count = 0 then
            F64.add r (F64.mul (F64.round (99 / 100)) (q.best_value td tc)._value)
          else F64.add (q.value d c a)._value
            (F64.mul (learning_rate (q.value d c a)._count)
              (F64.sub (F64.add r (F64.mul (F64.round (99 / 100)) (q.best_value td tc)._value))
                (q.value d c a)._value)),
        _count := (q.value d c a)._count + 1 } := by
  unfold add_sample
  simp only [value_store_self_f, slot_snd_eq_value_f, learning_rate]

theorem learning_rate_of_pos_f (n : Nat) (h : 1 ≤ n) : learning_rate n = F64.fin (1 / 2) := by
  unfold learning_rate
  have h2 : F64.lt (F64.ofNat (n + 1)) (F64.fin 2) = false := by
    apply F64.not_lt_of_le
    have := F64.round_mono 2 ((n + 1 : Nat) : ℚ) (by
      have : (2 : ℚ) = ((2 : Nat) : ℚ) := by norm_num
      rw [this]
      exact_mod_cast (by omega : 2 ≤ n + 1))
    rw [F64.round_two] at this
    exact this
  rw [F64.min_eq_right_iff, h2]
  simp only [Bool.false_eq_true, if_false]
  rw [F64.div_fin_fin _ _ (by norm_num), F64.round_half]

theorem best_value_absent_f (q : QLearner) (h : q._Q.find (toLex ([], [])) = none) :
    q.best_value none none = { _value := F64.fin 0, _count := 0 } := by
  have hs : q.make_state none none = toLex ([], []) := rfl
  simp [best_value, hs, h]

theorem find_add_sample_ne_f (q : QLearner) (d c : Option (List ℚ)) (a : Nat)
    (td tc : Option (List ℚ)) (r : F64) (s : qstate_t) (hs : s ≠ q.make_state d c) :
    (q.add_sample d c a td tc r)._Q.find s = q._Q.find s := by
  unfold add_sample
  simp only [store]
  rw [OMap.find_insert_ne _ _ _ _ hs]

theorem make_state_ne_of_count_f (q : QLearner) (d c : Option (List ℚ)) (a : Nat) (s : qstate_t)
    (hs : q._Q.find s = none) (hc : 1 ≤ (q.value d c a)._count) : s ≠ q.make_state d c := by
  intro e
  have hr := record_of_value_count_f q d c a (by omega)
  rw [← e] at hr
  simp [record, hs] at hr

/-- One further terminal sample of a pair with a positive count, on a table
without an entry for the empty state key: the value becomes
`v + 0.5 * (r - v)` in double arithmetic. -/
theorem terminal_sample_step_f (q : QLearner) (d c : Option (List ℚ)) (a : Nat) (v r : ℚ)
    (hempty : q._Q.find (toLex ([], [])) = none) (hc : 1 ≤ (q.value d c a)._count)
    (hv : (q.value d c a)._value = F64.fin v) (hr : F64.round r = F64.fin r) :
    (q.add_sample d c a none none (F64.fin r))._Q.find (toLex ([], [])) = none ∧
    ((q.add_sample d c a none none (F64.fin r)).value d c a)._count
      = (q.value d c a)._count + 1 ∧
    ((q.add_sample d c a none none (F64.fin r)).value d c a)._value
      = F64.add (F64.fin v) (F64.mul (F64.fin (1 / 2)) (F64.sub (F64.fin r) (F64.fin v))) := by
  refine ⟨?_, ?_, ?_⟩
  · rw [find_add_sample_ne_f q d c a none none _ _ (make_state_ne_of_count_f q d c a _ hempty hc)]
    exact hempty
  · rw [value_add_sample_f]
  · rw [value_add_sample_f]
    have h0 : (q.value d c a)._count ≠ 0 := by omega
    have hg : F64.mul (F64.round (99 / 100)) (F64.fin 0) = F64.fin 0 := by decide!
    have hadd : F64.add (F64.fin r) (F64.fin 0) = F64.fin r := by
      simp only [F64.add, add_zero]
      exact hr
    simp only [h0, if_false, best_value_absent_f q hempty, learning_rate_of_pos_f _ hc, hv, hg,
      hadd]

theorem repeat_sample_succ_f (q : QLearner) (d c : Option (List ℚ)) (a : Nat) (r : F64)
    (n : Nat) :
    q.repeat_sample d c a r (n + 1) = (q.repeat_sample d c a r n).add_sample d c a none none r := by
  unfold repeat_sample
  rw [Function.iterate_succ_apply']

end QLearner

end Ieee

/-- C16 (amended): constant terminal samples never move the value away from the
reward.  For a learner whose table has no entry for the empty state key, and a
pair `(s, a)` with count at least 1 and current value `v`, where `v` and the
reward `r` are finite doubles whose difference `r - v` does not overflow: after
every number `n` of further calls `add_sample(s, a, absent, r)` the value is a
finite double `w` with `|w - r| <= |v - r|`; the next call stores
`w + 0.5 * (r - w)` computed in double arithmetic, a double `w1` that lies
between `w` and `r`, so that `|w1 - r| <= |w - r|`; and the count grows by one
at each call. -/
theorem add_sample_constant_reward_monotone (q : Ieee.QLearner) (d c : Option (List ℚ))
    (a : Nat) (v r : ℚ)
    (hempty : q._Q.find (toLex ([], [])) = none)
    (hc : 1 ≤ (q.value d c a)._count)
    (hv : (q.value d c a)._value = F64.fin v)
    (hvr : F64.round v = F64.fin v) (hrr : F64.round r = F64.fin r)
    (hfin : (F64.round (r - v)).isFinite = true) :
    ∀ n : Nat, ∃ w w1 : ℚ,
      ((q.repeat_sample d c a (F64.fin r) n).value d c a)._value = F64.fin w ∧
      ((q.repeat_sample d c a (F64.fin r) (n + 1)).value d c a)._value = F64.fin w1 ∧
      ((q.repeat_sample d c a (F64.fin r) n).value d c a)._count = (q.value d c a)._count + n ∧
      F64.fin w1 = F64.add (F64.fin w) (F64.mul (F64.fin (1 / 2)) (F64.sub (F64.fin r) (F64.fin w))) ∧
      |w - r| ≤ |v - r| ∧ |w1 - r| ≤ |w - r| ∧
      (w ≤ r → w ≤ w1 ∧ w1 ≤ r) ∧ (r ≤ w → r ≤ w1 ∧ w1 ≤ w) := by
  have hinv : ∀ n : Nat, ∃ w : ℚ,
      (q.repeat_sample d c a (F64.fin r) n)._Q.find (toLex ([], [])) = none ∧
      ((q.repeat_sample d c a (F64.fin r) n).value d c a)._count = (q.value d c a)._count + n ∧
      ((q.repeat_sample d c a (F64.fin r) n).value d c a)._value = F64.fin w ∧
      F64.round w = F64.fin w ∧ (F64.round (r - w)).isFinite = true ∧ |w - r| ≤ |v - r| := by
    intro n
    induction n with
    | zero => exact ⟨v, hempty, rfl, hv, hvr, hfin, le_refl _⟩
    | succ n ih =>
      obtain ⟨w, h1, h2, h3, h4, h5, h6⟩ := ih
      obtain ⟨k1, k2, k3⟩ := Ieee.QLearner.terminal_sample_step_f
        (q.repeat_sample d c a (F64.fin r) n) d c a w r h1 (by omega) h3 hrr
      obtain ⟨w1, e1, e2, e3, e4, e5⟩ := F64.blend_between w r h4 hrr h5
      rw [Ieee.QLearner.repeat_sample_succ_f]
      refine ⟨w1, k1, by rw [k2, h2]; omega, by rw [k3, e1], e2, e3, le_trans ?_ h6⟩
      rcases le_total w r with h | h
      · obtain ⟨b1, b2⟩ := e4 h
        rw [abs_of_nonpos (by linarith), abs_of_nonpos (by linarith)]
        linarith
      · obtain ⟨b1, b2⟩ := e5 h
        rw [abs_of_nonneg (by linarith), abs_of_nonneg (by linarith)]
        linarith
  intro n
  obtain ⟨w, h1, h2, h3, h4, h5, h6⟩ := hinv n
  obtain ⟨k1, k2, k3⟩ := Ieee.QLearner.terminal_sample_step_f
    (q.repeat_sample d c a (F64.fin r) n) d c a w r h1 (by omega) h3 hrr
  obtain ⟨w1, e1, e2, e3, e4, e5⟩ := F64.blend_between w r h4 hrr h5
  refine ⟨w, w1, h3, ?_, h2, e1.symm, h6, ?_, e4, e5⟩
  · rw [Ieee.QLearner.repeat_sample_succ_f, k3, e1]
  · rcases le_total w r with h | h
    · obtain ⟨b1, b2⟩ := e4 h
      rw [abs_of_nonpos (by linarith), abs_of_nonpos (by linarith)]
      linarith
    · obtain ⟨b1, b2⟩ := e5 h
      rw [abs_of_nonneg (by linarith), abs_of_nonneg (by linarith)]
      linarith

/-- C16 (amended), at a concrete table: in `oneLearner` (value 5, count 1, empty
key not stored) three further terminal samples with reward 1 give the value 1.5
and a fourth gives 1.25: both are doubles between 1 and 5, and the distance to 1
has not grown. -/
theorem add_sample_constant_reward_monotone_witness :
    ((Ieee.oneLearner.repeat_sample (some [0]) none 0 (F64.fin 1) 3).value (some [0]) none
      0)._value = F64.fin (3 / 2) ∧
    ((Ieee.oneLearner.repeat_sample (some [0]) none 0 (F64.fin 1) 4).value (some [0]) none
      0)._value = F64.fin (5 / 4) ∧
    ∃ w w1 : ℚ,
      ((Ieee.oneLearner.repeat_sample (some [0]) none 0 (F64.fin 1) 3).value (some [0]) none
        0)._value = F64.fin w ∧
      ((Ieee.oneLearner.repeat_sample (some [0]) none 0 (F64.fin 1) (3 + 1)).value (some [0]) none
        0)._value = F64.fin w1 ∧
      ((Ieee.oneLearner.repeat_sample (some [0]) none 0 (F64.fin 1) 3).value (some [0]) none
        0)._count = (Ieee.oneLearner.value (some [0]) none 0)._count + 3 ∧
      F64.fin w1 = F64.add (F64.fin w) (F64.mul (F64.fin (1 / 2)) (F64.sub (F64.fin 1) (F64.fin w))) ∧
      |w - 1| ≤ |5 - 1| ∧ |w1 - 1| ≤ |w - 1| ∧
      (w ≤ 1 → w ≤ w1 ∧ w1 ≤ 1) ∧ (1 ≤ w → 1 ≤ w1 ∧ w1 ≤ w) :=
  ⟨by decide!, by decide!,
   add_sample_constant_reward_monotone Ieee.oneLearner (some [0]) none 0 5 1 (by decide!)
     (by decide!) (by decide!) (by decide!) (by decide!) (by decide!) 3⟩

/-- C16 (as stated, refuted): the distance is not `|v - r| / 2^n`, and the value
need not converge to `r`.  (1) In `ulpLearner` the value of the pair is the
double `1 + 2^-52`; one further terminal sample with reward 1 stores exactly 1,
so the distance is 0 and not `2^-52 / 2`.  (2) Starting from `oneLearner`
(value 5) the value is exactly 1 after 55 further samples with reward 1, where
`|5 - 1| / 2^55` is not 0.  (3) Starting from `oneLearner` with the reward 0.3
(the double `5404319552844595 / 2^54`), the value after 56 further samples is
the next double above the reward, and it is the same after every greater number
of samples: the distance stays `2^-54` and the value never reaches and does not
converge to the reward. -/
theorem add_sample_constant_reward_counterexample :
    Ieee.ulpLearner._Q.find (toLex ([], [])) = none ∧
    Ieee.ulpLearner.value (some [0]) none 0 = { _value := F64.fin (1 + 1 / 2 ^ 52), _count := 1 } ∧
    F64.round (1 + 1 / 2 ^ 52) = F64.fin (1 + 1 / 2 ^ 52) ∧
    ((Ieee.ulpLearner.repeat_sample (some [0]) none 0 (F64.fin 1) 1).value (some [0]) none
      0)._value = F64.fin 1 ∧
    Ieee.oneLearner._Q.find (toLex ([], [])) = none ∧
    Ieee.oneLearner.value (some [0]) none 0 = { _value := F64.fin 5, _count := 1 } ∧
    ((Ieee.oneLearner.repeat_sample (some [0]) none 0 (F64.fin 1) 55).value (some [0]) none
      0)._value = F64.fin 1 ∧
    F64.round (3 / 10) = F64.fin (5404319552844595 / 2 ^ 54) ∧
    (∀ n : Nat,
      ((Ieee.oneLearner.repeat_sample (some [0]) none 0 (F64.round (3 / 10)) (56 + n)).value
        (some [0]) none 0)._value = F64.fin (5404319552844596 / 2 ^ 54)) ∧
    ¬ (∀ (q : Ieee.QLearner) (d c : Option (List ℚ)) (a : Nat) (v r w : ℚ) (n : Nat),
        q._Q.find (toLex ([], [])) = none → 1 ≤ (q.value d c a)._count →
        (q.value d c a)._value = F64.fin v → F64.round v = F64.fin v →
        F64.round r = F64.fin r →
        ((q.repeat_sample d c a (F64.fin r) n).value d c a)._value = F64.fin w →
        |w - r| = |v - r| / 2 ^ n) := by
  have hulp : ((Ieee.ulpLearner.repeat_sample (some [0]) none 0 (F64.fin 1) 1).value (some [0])
      none 0)._value = F64.fin 1 := by decide!
  have hr3 : F64.round (3 / 10) = F64.fin (5404319552844595 / 2 ^ 54) := by decide!
  have hstuck : ∀ n : Nat,
      (Ieee.oneLearner.repeat_sample (some [0]) none 0 (F64.round (3 / 10)) (56 + n))._Q.find
          (toLex ([], [])) = none ∧
      1 ≤ ((Ieee.oneLearner.repeat_sample (some [0]) none 0 (F64.round (3 / 10)) (56 + n)).value
          (some [0]) none 0)._count ∧
      ((Ieee.oneLearner.repeat_sample (some [0]) none 0 (F64.round (3 / 10)) (56 + n)).value
        (some [0]) none 0)._value = F64.fin (5404319552844596 / 2 ^ 54) := by
    intro n
    induction n with
    | zero => exact ⟨by decide!, by decide!, by decide!⟩
    | succ n ih =>
      obtain ⟨h1, h2, h3⟩ := ih
      rw [show 56 + (n + 1) = (56 + n) + 1 from rfl, Ieee.QLearner.repeat_sample_succ_f]
      rw [hr3] at h1 h2 h3 ⊢
      obtain ⟨k1, k2, k3⟩ := Ieee.QLearner.terminal_sample_step_f _ (some [0]) none 0 _
        (5404319552844595 / 2 ^ 54) h1 h2 h3 (by decide!)
      refine ⟨k1, by rw [k2]; omega, ?_⟩
      rw [k3]
      decide!
  refine ⟨by decide!, by decide!, by decide!, hulp, by decide!, by decide!, by decide!, hr3,
    fun n => (hstuck n).2.2, fun h => ?_⟩
  have h1 := h Ieee.ulpLearner (some [0]) none 0 (1 + 1 / 2 ^ 52) 1 1 1 (by decide!) (by decide!)
    (by decide!) (by decide!) (by decide!) hulp
  norm_num at h1
  have h2 : |(1 : ℚ) / 4503599627370496| = 1 / 4503599627370496 := abs_of_pos (by norm_num)
  rw [h2] at h1
  norm_num at h1

end RLStratego
